import Mathlib

/-! # Event generators, merge, selector, loops and displayer of `fcpp`

A shallow embedding of the event generators `event_never`, `event_multiple`,
`event_sequence` and `event_periodic` of `lib/generate/event.hpp` and of the
neighbour list, `next` and `update` of `lib/simulation/displayer.hpp`, and
the properties of the streams of times, of the merge of generators, of the
selector `nth_elements` and of the loops `for_each_index` and `while_true`.

Conventions of the embedding.

* `times_t` is a type parameter `α` carrying a linear order (and an addition
  where the source adds times); the sentinel `numeric_limits<times_t>::max()`
  is the parameter `TIME_MAX`.
* Where the rounding of `times_t = double` matters, the values of `double`
  are the rationals they stand for and the addition is the sum rounded to
  the nearest `double` (`round_to_double`, `double_add`).
* The random source `G&` is threaded explicitly: a call takes the source and
  returns the source it leaves behind.
* A distribution type is a default-constructible object with an `operator()`
  reading the random source; it is the parameter `distribution`.
* A generator is default-constructed with `i = 0`; its other members are left
  uninitialised by the source, so the initial state is any state with `i = 0`.
* The call counter `size_t i` is a natural number: it does not wrap (wrapping
  it takes `2^64` calls).
* Workers that run concurrently are modelled by a schedule, the list of the
  workers in the order they make their invocations; an invocation of a body
  is one step.

The file has four parts: the definitions embedding the source; the
definitions modelled from the spec, for the code that is not among the
sources (the interface `peek`, `step`, `call` and the merge of
`lib/option/sequence.hpp`, the selector and the loops of
`lib/common/algorithm.hpp`); the theorems; and the theorems applied to the
inputs of the tests.
-/

namespace fcpp

/-! ## Distributions and the random source -/

/-- A distribution type of the source: an object with a default constructor
(`init`) and an `operator()(G&)` (`call`) that returns a sample together with
the object and the random source as the call leaves them. -/
structure distribution (G : Type) (R : Type) where
  /-- the members of the distribution object -/
  State : Type
  /-- the default-constructed object -/
  init : State
  /-- `operator()(G&)` -/
  call : State → G → R × State × G

/-- The source's `T distr; x = distr(g);`: one sample from a freshly
constructed distribution object. -/
def distribution.draw {G R : Type} (T : distribution G R) (g : G) : R × G :=
  ((T.call T.init g).1, (T.call T.init g).2.2)

/-- The source's `std::array<times_t, n>`: `n` values. -/
abbrev array (α : Type) (n : Nat) : Type := {l : List α // l.length = n}

/-- The source's `std::sort(pending.begin(), pending.end())`: the values in
ascending order. -/
def sort {α : Type} [LinearOrder α] {n : Nat} (a : array α n) : array α n :=
  ⟨a.1.insertionSort (fun x y => x ≤ y), by rw [List.length_insertionSort]; exact a.2⟩

/-- The source's `for (size_t j=0; j<n; ++j) pending[j] = distr(g);` with `k`
iterations: the array of the samples in the order they are drawn, and the
distribution object and the random source after the loop. -/
def distribution.fill {G R : Type} (T : distribution G R) :
    (k : Nat) → T.State → G → array R k × T.State × G
  | 0, st, g => (⟨[], rfl⟩, st, g)
  | k + 1, st, g =>
    (⟨(T.call st g).1 :: (distribution.fill T k (T.call st g).2.1 (T.call st g).2.2).1.1,
        by rw [List.length_cons, (distribution.fill T k (T.call st g).2.1 (T.call st g).2.2).1.2]⟩,
      (distribution.fill T k (T.call st g).2.1 (T.call st g).2.2).2)

/-- Every sample the distribution can return is at most `M`. -/
def distribution.bounded {G R : Type} [LE R] (T : distribution G R) (M : R) : Prop :=
  ∀ (st : T.State) (g : G), (T.call st g).1 ≤ M

/-- Every sample the distribution can return is at least `m`. -/
def distribution.at_least {G R : Type} [LE R] (T : distribution G R) (m : R) : Prop :=
  ∀ (st : T.State) (g : G), m ≤ (T.call st g).1

/-! ## Successive calls of a generator -/

/-- The generator and the random source after `k` successive calls of the
call operator `f`. -/
def after_calls {σ G α : Type} (f : σ → G → α × σ × G) : Nat → σ → G → σ × G
  | 0, s, g => (s, g)
  | k + 1, s, g => (f (after_calls f k s g).1 (after_calls f k s g).2).2

/-- The value returned by the `j`-th call (`j = 1` is the first call) of the
call operator `f` on a generator starting in state `s` with random source
`g`. -/
def returned {σ G α : Type} (f : σ → G → α × σ × G) (s : σ) (g : G) (j : Nat) : α :=
  (f (after_calls f (j - 1) s g).1 (after_calls f (j - 1) s g).2).1

/-- The stream `out` of returned times is non-decreasing from one call to the
next and the sentinel is absorbing. -/
def well_formed {α : Type} [LE α] (TIME_MAX : α) (out : Nat → α) : Prop :=
  ∀ j j2 : Nat, 1 ≤ j → j ≤ j2 →
    out j ≤ out j2 ∧ (out j = TIME_MAX → out j2 = TIME_MAX)

/-- The value `x` is the `j`-th smallest of the values `l` (`j = 1` is the
smallest, duplicates counted): fewer than `j` of the values are below `x` and
at least `j` of them are at most `x`. -/
def nth_smallest {α : Type} [LinearOrder α] (l : List α) (j : Nat) (x : α) : Prop :=
  l.countP (fun y => decide (y < x)) < j ∧ j ≤ l.countP (fun y => decide (y ≤ x))

/-! ## `event_never` -/

namespace event_never

/-- `event_never::operator()(G&)`: the generator has no member; the state is
`Unit`. -/
def operator_call {G α : Type} (TIME_MAX : α) (s : Unit) (g : G) : α × Unit × G :=
  (TIME_MAX, s, g)

end event_never

/-! ## `event_multiple<T, n, true>` -/

namespace event_multiple_true

/-- The members of `event_multiple<T, n, true>`. -/
structure State (α : Type) where
  /-- the time of the events -/
  t : α
  /-- number of calls so far -/
  i : Nat

/-- `event_multiple<T, n, true>::operator()(G& g)`. -/
def operator_call {G α : Type} (T : distribution G α) (n : Nat) (TIME_MAX : α)
    (s : State α) (g : G) : α × State α × G :=
  let t := if s.i = 0 then (T.draw g).1 else s.t
  let g1 := if s.i = 0 then (T.draw g).2 else g
  let i := s.i + 1
  (if i ≤ n then t else TIME_MAX, ⟨t, i⟩, g1)

end event_multiple_true

/-! ## `event_multiple<T, n, false>` -/

namespace event_multiple_false

/-- The members of `event_multiple<T, n, false>`. -/
structure State (α : Type) (n : Nat) where
  /-- the times of the events -/
  pending : array α n
  /-- number of calls so far -/
  i : Nat

/-- `event_multiple<T, n, false>::operator()(G& g)`. -/
def operator_call {G α : Type} [LinearOrder α] (T : distribution G α) (n : Nat)
    (TIME_MAX : α) (s : State α n) (g : G) : α × State α n × G :=
  let pending : array α n := if s.i = 0 then sort (T.fill n T.init g).1 else s.pending
  let g1 := if s.i = 0 then (T.fill n T.init g).2.2 else g
  let i := s.i + 1
  (if h : i ≤ n then pending.1.get ⟨i - 1, by rw [pending.2]; omega⟩ else TIME_MAX,
    ⟨pending, i⟩, g1)

end event_multiple_false

/-! ## `event_sequence<T...>` -/

/-- Modelled from the spec: `details::call_distr<T>(g)` of
`lib/generate/distribution.hpp`, which is not part of the sources at hand; it
draws one sample from the distribution type `T` ("draws exactly one sample
from each of k distributions"). -/
def details.call_distr {G R : Type} (T : distribution G R) (g : G) : R × G :=
  T.draw g

/-- The braced list `{details::call_distr<T>(g)...}`: one sample of every
distribution of the pack, evaluated from left to right. -/
def details.call_distr_pack {G R : Type} :
    (Ts : List (distribution G R)) → G → array R Ts.length × G
  | [], g => (⟨[], rfl⟩, g)
  | T :: Ts, g =>
    (⟨(details.call_distr T g).1 :: (details.call_distr_pack Ts (details.call_distr T g).2).1.1,
        by rw [List.length_cons, (details.call_distr_pack Ts (details.call_distr T g).2).1.2,
          List.length_cons]⟩,
      (details.call_distr_pack Ts (details.call_distr T g).2).2)

namespace event_sequence

/-- The members of `event_sequence<T...>`, where `k` is `sizeof...(T)`. -/
structure State (α : Type) (k : Nat) where
  /-- list of events to come -/
  pending : array α k
  /-- number of calls so far -/
  i : Nat

/-- `event_sequence<T...>::operator()(G& g)`. -/
def operator_call {G α : Type} [LinearOrder α] (Ts : List (distribution G α))
    (TIME_MAX : α) (s : State α Ts.length) (g : G) : α × State α Ts.length × G :=
  let pending : array α Ts.length :=
    if s.i = 0 then sort (details.call_distr_pack Ts g).1 else s.pending
  let g1 := if s.i = 0 then (details.call_distr_pack Ts g).2 else g
  let i := s.i + 1
  (if h : i ≤ Ts.length then pending.1.get ⟨i - 1, by rw [pending.2]; omega⟩ else TIME_MAX,
    ⟨pending, i⟩, g1)

end event_sequence

/-! ## `event_periodic<S, P, E, N>` -/

namespace event_periodic

/-- The members of `event_periodic<S, P, E, N>`; `D` is the type of the
members of the period distribution `P`. -/
structure State (D : Type) (α : Type) where
  /-- period distribution -/
  dp : D
  /-- last event happened -/
  t : α
  /-- terminal time -/
  te : α
  /-- number of calls so far -/
  i : Nat
  /-- number of events to be generated -/
  n : Nat

/-- `event_periodic<S, P, E, N>::operator()(G& g)`. -/
def operator_call {G α : Type} [LinearOrder α] [Add α] (S P E : distribution G α)
    (N : distribution G Nat) (TIME_MAX : α) (s : State P.State α) (g : G) :
    α × State P.State α × G :=
  let n := if s.i = 0 then (N.draw g).1 else s.n
  let te := if s.i = 0 then (E.draw (N.draw g).2).1 else s.te
  let t := if s.i = 0 then (S.draw (E.draw (N.draw g).2).2).1 else s.t + (P.call s.dp g).1
  let dp := if s.i = 0 then s.dp else (P.call s.dp g).2.1
  let g1 := if s.i = 0 then (S.draw (E.draw (N.draw g).2).2).2 else (P.call s.dp g).2.2
  let i := s.i + 1
  (if i ≤ n ∧ t < te then t else TIME_MAX, ⟨dp, t, te, i, n⟩, g1)

/-- The default-constructed generator: `i = 0`, the period distribution
default-constructed, the other members as they happen to be. -/
def start {G α : Type} (P : distribution G α) (t te : α) (n : Nat) : State P.State α :=
  ⟨P.init, t, te, 0, n⟩

/-- The count sample `n` drawn during the first call. -/
def count {G : Type} (N : distribution G Nat) (g : G) : Nat := (N.draw g).1

/-- The end sample `te` drawn during the first call (after the count). -/
def end_time {G α : Type} (E : distribution G α) (N : distribution G Nat) (g : G) : α :=
  (E.draw (N.draw g).2).1

/-- The start sample `t0` drawn during the first call (after count and end). -/
def start_time {G α : Type} (S E : distribution G α) (N : distribution G Nat) (g : G) : α :=
  (S.draw (E.draw (N.draw g).2).2).1

/-- The random source after the three draws of the first call. -/
def source_after_first {G α : Type} (S E : distribution G α) (N : distribution G Nat)
    (g : G) : G :=
  (S.draw (E.draw (N.draw g).2).2).2

/-- The period sample `p_j` drawn during call `j`, for `j = 2, 3, ...`: the
`(j - 1)`-th sample that the member `dp` draws from the random source left by
the first call. -/
def period {G α : Type} (S P E : distribution G α) (N : distribution G Nat) (g : G)
    (j : Nat) : α :=
  returned P.call P.init (source_after_first S E N g) (j - 1)

/-- The times of the claims on `event_periodic`, in their words: `t_1 = t0`
and `t_j = t_(j-1) + p_j`. -/
def times {α : Type} [Add α] (t0 : α) (p : Nat → α) : Nat → α
  | 0 => t0
  | 1 => t0
  | j + 2 => times t0 p (j + 1) + p (j + 2)

end event_periodic

/-! ## Concrete distributions -/

/-- Modelled from the spec: `constant_distribution<T, c>` of
`lib/generate/distribution.hpp`, which is not part of the sources at hand; a
distribution without members that returns the constant `c` and leaves the
random source alone. -/
def constant_distribution (G : Type) {R : Type} (c : R) : distribution G R :=
  ⟨Unit, (), fun st g => (c, st, g)⟩

/-- The generator `event_never` used as a distribution type (it has a `type`
and an `operator()(G&)`), as in the default `E = event_never`. -/
def event_never.as_distribution (G : Type) {α : Type} (TIME_MAX : α) : distribution G α :=
  ⟨Unit, (), fun st g => event_never.operator_call TIME_MAX st g⟩

/-- The call operator of `event_periodic<S>` with the defaults of the
template: `P = S`, `E = event_never` and
`N = constant_distribution<size_t, numeric_limits<size_t>::max()>`, where
`SIZE_MAX` is `numeric_limits<size_t>::max()`. -/
def event_periodic.operator_call_default {G α : Type} [LinearOrder α] [Add α]
    (S : distribution G α) (SIZE_MAX : Nat) (TIME_MAX : α) :
    event_periodic.State S.State α → G → α × event_periodic.State S.State α × G :=
  event_periodic.operator_call S S (event_never.as_distribution G TIME_MAX)
    (constant_distribution G SIZE_MAX) TIME_MAX

/-! ## The generator interface of the spec: `peek`, `step`, `call` -/

/-- Modelled from the spec: the generator interface of `lib/option/sequence.hpp`,
which is not part of the sources at hand (only its test is). A generator is
constructed from the random source (`materialize`, the first pending value
being materialised then, as in the test's `sequence::never e(rnd)`); `peek`
"returns the currently pending scheduled time without consuming randomness or
mutating state"; `step` "consumes randomness to advance internal state to the
next pending value; does not return anything". -/
structure EventGenerator (G : Type) (α : Type) where
  /-- the internal counters and buffers of the variant -/
  State : Type
  /-- construction from the random source -/
  materialize : G → State × G
  /-- `peek()`, the test's `next()` -/
  peek : State → α
  /-- `step(rng)` -/
  step : State → G → State × G

/-- Modelled from the spec: `call(rng)` (combined), "equivalent to
`t = peek(); step(rng); return t`". -/
def EventGenerator.call {G α : Type} (e : EventGenerator G α) (s : e.State) (g : G) :
    α × e.State × G :=
  (e.peek s, e.step s g)

/-- Modelled from the spec: the generator and the random source after `k`
successive `step(rng)`. -/
def EventGenerator.after_steps {G α : Type} (e : EventGenerator G α) :
    Nat → e.State → G → e.State × G
  | 0, s, g => (s, g)
  | k + 1, s, g =>
    e.step (EventGenerator.after_steps e k s g).1 (EventGenerator.after_steps e k s g).2

/-- Modelled from the spec: the variant Never, "`peek()` is always the
sentinel; `step` is a no-op". -/
def Never (G : Type) {α : Type} (TIME_MAX : α) : EventGenerator G α :=
  ⟨Unit, fun g => ((), g), fun _ => TIME_MAX, fun s g => (s, g)⟩

/-- Modelled from the spec: the variant Multiple with `same = true`, "draws
one time `t` from `D` on first materialization and returns `t` for exactly
`n` calls, then the sentinel forever". The state is the time and the number
of steps so far. -/
def Multiple_same {G α : Type} (D : distribution G α) (n : Nat) (TIME_MAX : α) :
    EventGenerator G α :=
  ⟨α × Nat, fun g => (((D.draw g).1, 0), (D.draw g).2),
    fun s => if s.2 < n then s.1 else TIME_MAX, fun s g => ((s.1, s.2 + 1), g)⟩

/-- Modelled from the spec: the variant Multiple with `same = false`, "draws
`n` independent samples from `D` on first materialization, sorts them
ascending, and yields them one per call for `n` calls, then the sentinel".
The state is the sorted samples and the number of steps so far. -/
def Multiple_diff {G α : Type} [LinearOrder α] (D : distribution G α) (n : Nat)
    (TIME_MAX : α) : EventGenerator G α :=
  ⟨List α × Nat,
    fun g => (((D.fill n D.init g).1.1.insertionSort (fun x y => x ≤ y), 0),
      (D.fill n D.init g).2.2),
    fun s => s.1.getD s.2 TIME_MAX, fun s g => ((s.1, s.2 + 1), g)⟩

/-- Modelled from the spec: the variant Sequence, "draws exactly one sample
from each of k distributions on first materialization, sorts ascending,
yields one per call for k calls, then the sentinel". The state is the sorted
samples and the number of steps so far. -/
def Sequence {G α : Type} [LinearOrder α] (Ds : List (distribution G α)) (TIME_MAX : α) :
    EventGenerator G α :=
  ⟨List α × Nat,
    fun g => (((details.call_distr_pack Ds g).1.1.insertionSort (fun x y => x ≤ y), 0),
      (details.call_distr_pack Ds g).2),
    fun s => s.1.getD s.2 TIME_MAX, fun s g => ((s.1, s.2 + 1), g)⟩

/-- Modelled from the spec: the state of the variant Periodic: the period
distribution object, the pending time `t`, the end `te`, the number of steps
so far and the count `n`. -/
structure Periodic_state (D : Type) (α : Type) where
  /-- the period distribution object -/
  dp : D
  /-- the pending time -/
  t : α
  /-- the end time -/
  te : α
  /-- the number of steps so far -/
  i : Nat
  /-- the count -/
  n : Nat

/-- Modelled from the spec: the variant Periodic, "on first materialization
draws `n ~ Dcount`, `te ~ Dend`, `t0 ~ Dstart`; first output is `t0`. Each
later `step` draws `p ~ Dperiod` and sets `t += p`. The value returned for
call index `j` (1-based) is `t` if `j ≤ n` and `t < te`, else the
sentinel". -/
def Periodic {G α : Type} [LinearOrder α] [Add α] (Dstart Dperiod Dend : distribution G α)
    (Dcount : distribution G Nat) (TIME_MAX : α) : EventGenerator G α :=
  ⟨Periodic_state Dperiod.State α,
    fun g => (⟨Dperiod.init, (Dstart.draw (Dend.draw (Dcount.draw g).2).2).1,
        (Dend.draw (Dcount.draw g).2).1, 0, (Dcount.draw g).1⟩,
      (Dstart.draw (Dend.draw (Dcount.draw g).2).2).2),
    fun s => if s.i + 1 ≤ s.n ∧ s.t < s.te then s.t else TIME_MAX,
    fun s g => (⟨(Dperiod.call s.dp g).2.1, s.t + (Dperiod.call s.dp g).1, s.te, s.i + 1, s.n⟩,
      (Dperiod.call s.dp g).2.2)⟩

/-! ## The merge combinator of the spec -/

/-- Modelled from the spec: the minimum of the pending times of the
sub-generators of a merge, "the sentinel if N = 0". -/
def Merge.minimum {α : Type} [LinearOrder α] (TIME_MAX : α) : List α → α
  | [] => TIME_MAX
  | x :: xs => xs.foldr min x

/-- Modelled from the spec: the pending times `peek()` of the `N`
sub-generators of a merge, in the order of the sub-generators. -/
def Merge.pending {G α : Type} {N : Nat} (es : Fin N → EventGenerator G α)
    (s : (i : Fin N) → (es i).State) : List α :=
  (List.finRange N).map (fun i => (es i).peek (s i))

/-- Modelled from the spec: `peek()` of a merge, which "returns the minimum of
all sub-generators' `peek()` (the sentinel if N = 0 or all exhausted)". -/
def Merge.peek {G α : Type} [LinearOrder α] {N : Nat} (es : Fin N → EventGenerator G α)
    (TIME_MAX : α) (s : (i : Fin N) → (es i).State) : α :=
  Merge.minimum TIME_MAX (Merge.pending es s)

/-- Modelled from the spec: the sub-generator that a step of a merge advances:
the first one whose pending time is the minimum; none when `N = 0`. -/
def Merge.index {G α : Type} [LinearOrder α] {N : Nat} (es : Fin N → EventGenerator G α)
    (TIME_MAX : α) (s : (i : Fin N) → (es i).State) : Option (Fin N) :=
  (List.finRange N).find? (fun i => decide ((es i).peek (s i) = Merge.peek es TIME_MAX s))

/-- Modelled from the spec: `step(rng)` of a merge, which advances a
sub-generator holding the minimum pending time and leaves the others as they
are. Following the test `Merge` of `test/option/sequence.cpp`, where the time
`5.2` pending in two sub-generators at once is returned by four successive
calls (three events of the first sub-generator, one of the third), one step
advances one sub-generator: the first one holding the minimum. -/
def Merge.step {G α : Type} [LinearOrder α] {N : Nat} (es : Fin N → EventGenerator G α)
    (TIME_MAX : α) (s : (i : Fin N) → (es i).State) (g : G) :
    ((i : Fin N) → (es i).State) × G :=
  match Merge.index es TIME_MAX s with
  | none => (s, g)
  | some i => (Function.update s i ((es i).step (s i) g).1, ((es i).step (s i) g).2)

/-- Modelled from the spec: the construction of the `N` sub-generators of a
merge from the random source, from the first to the last. -/
def Merge.materialize {G α : Type} :
    (N : Nat) → (es : Fin N → EventGenerator G α) → G → ((i : Fin N) → (es i).State) × G
  | 0, _, g => (fun i => i.elim0, g)
  | N + 1, es, g =>
    (@Fin.cons N (fun i => (es i).State) ((es 0).materialize g).1
        (Merge.materialize N (fun i => es i.succ) ((es 0).materialize g).2).1,
      (Merge.materialize N (fun i => es i.succ) ((es 0).materialize g).2).2)

/-- Modelled from the spec: the merge combinator, which "owns a fixed set of N
sub-generators (N may be 0)"; it is a generator itself. -/
def Merge {G α : Type} [LinearOrder α] {N : Nat} (es : Fin N → EventGenerator G α)
    (TIME_MAX : α) : EventGenerator G α :=
  ⟨(i : Fin N) → (es i).State, Merge.materialize N es, Merge.peek es TIME_MAX,
    Merge.step es TIME_MAX⟩

/-- Modelled from the spec: the steps of the sub-generators `is` holding the
pending time `t`, one after the other, each on the random source the one
before left. -/
def Merge.step_tied_from {G α : Type} [LinearOrder α] {N : Nat}
    (es : Fin N → EventGenerator G α) (t : α) :
    List (Fin N) → ((i : Fin N) → (es i).State) → G → ((i : Fin N) → (es i).State) × G
  | [], s, g => (s, g)
  | i :: is, s, g =>
    if (es i).peek (s i) = t then
      Merge.step_tied_from es t is (Function.update s i ((es i).step (s i) g).1)
        ((es i).step (s i) g).2
    else Merge.step_tied_from es t is s g

/-- Modelled from the spec: `step(rng)` of a merge in the words of the spec,
"advances only the sub-generator(s) currently holding that minimum value — if
multiple sub-generators tie at the same pending time, all tied ones advance
together in the same logical step". -/
def Merge.step_tied {G α : Type} [LinearOrder α] {N : Nat} (es : Fin N → EventGenerator G α)
    (TIME_MAX : α) (s : (i : Fin N) → (es i).State) (g : G) :
    ((i : Fin N) → (es i).State) × G :=
  Merge.step_tied_from es (Merge.peek es TIME_MAX s) (List.finRange N) s g

/-- Modelled from the spec: the merge whose step advances all the tied
sub-generators together. -/
def Merge_tied {G α : Type} [LinearOrder α] {N : Nat} (es : Fin N → EventGenerator G α)
    (TIME_MAX : α) : EventGenerator G α :=
  ⟨(i : Fin N) → (es i).State, Merge.materialize N es, Merge.peek es TIME_MAX,
    Merge.step_tied es TIME_MAX⟩

/-- Modelled from the spec: the number of the first `k` steps of a merge,
started in state `s` with random source `g`, that advance the sub-generator
`i`: the number of events of `i` the first `k` calls have returned. -/
def Merge.advances {G α : Type} [LinearOrder α] {N : Nat} (es : Fin N → EventGenerator G α)
    (TIME_MAX : α) (s : (i : Fin N) → (es i).State) (g : G) : Nat → Fin N → Nat
  | 0, _ => 0
  | k + 1, i =>
    Merge.advances es TIME_MAX s g k i
      + (if Merge.index es TIME_MAX ((Merge es TIME_MAX).after_steps k s g).1 = some i then 1
          else 0)

/-- Modelled from the spec: the states a generator started in `s0` can reach
by steps, whatever the random sources of the steps. -/
inductive EventGenerator.reachable {G α : Type} (e : EventGenerator G α) (s0 : e.State) :
    e.State → Prop
  | start : EventGenerator.reachable e s0 s0
  | step (s : e.State) (g : G) :
    EventGenerator.reachable e s0 s → EventGenerator.reachable e s0 (e.step s g).1

/-- Modelled from the spec: the common contract of the generators, started
in `s0`: the pending time never decreases by a step ("non-decreasing"), is at
most the sentinel, and once it is the sentinel it stays the sentinel ("which
then recurs forever"). -/
def EventGenerator.ordered {G α : Type} [LE α] (e : EventGenerator G α) (TIME_MAX : α)
    (s0 : e.State) : Prop :=
  ∀ s, EventGenerator.reachable e s0 s → ∀ g,
    e.peek s ≤ e.peek (e.step s g).1 ∧ e.peek s ≤ TIME_MAX
      ∧ (e.peek s = TIME_MAX → e.peek (e.step s g).1 = TIME_MAX)

/-- Modelled from the spec: a generator whose steps do not depend on the
random source (as those of Never, Multiple and Sequence, which draw all their
samples when they are constructed). -/
def EventGenerator.pure_step {G α : Type} (e : EventGenerator G α) : Prop :=
  ∀ s g g2, (e.step s g).1 = (e.step s g2).1

/-- Modelled from the spec: the stream of a generator started in `s` with
random source `g`: its pending time after `c` steps, which is its event
number `c` (counted from 0), or the sentinel. -/
def EventGenerator.event {G α : Type} (e : EventGenerator G α) (s : e.State) (g : G)
    (c : Nat) : α :=
  e.peek (e.after_steps c s g).1

/-! ## `displayer`: the neighbour list of a node, and `next` and `update` of the net -/

namespace displayer

/-- The source's `v.erase(std::unique(v.begin(), v.end()), v.end())`: of every
run of equal consecutive values one is kept. -/
def unique {α : Type} [DecidableEq α] : List α → List α
  | [] => []
  | x :: l => if l.head? = some x then unique l else x :: unique l

/-- The members `m_nbr_uids` and `m_prev_nbr_uids` of `displayer::node`. -/
structure node (device_t : Type) where
  /-- the uids of incoming messages -/
  m_nbr_uids : List device_t
  /-- the uids of incoming messages during the previous round -/
  m_prev_nbr_uids : List device_t

/-- `displayer::node::receive(t, d, m)`: `m_nbr_uids.push_back(d)`. -/
def node.receive {device_t : Type} (s : node device_t) (d : device_t) : node device_t :=
  ⟨s.m_nbr_uids ++ [d], s.m_prev_nbr_uids⟩

/-- `displayer::node::round_end(t)`: sort `m_nbr_uids`, erase the duplicates,
move it to `m_prev_nbr_uids` and clear it. The device ids are integers, so
the result of `std::sort` is the one ascending arrangement of the list. -/
def node.round_end {device_t : Type} [LinearOrder device_t] (s : node device_t) :
    node device_t :=
  ⟨[], unique (s.m_nbr_uids.insertionSort (fun x y => x ≤ y))⟩

/-- The calls `receive(t, d, m)` for the device ids `ds`, one after the
other. -/
def node.receive_all {device_t : Type} (s : node device_t) (ds : List device_t) :
    node device_t :=
  ds.foldl node.receive s

/-- The count `n_beg-n_end` that `displayer::net::update()` hands to both
calls of `parallel_for`, as an integer; the iterators `n_beg` and `n_end` are
positions in the sequence of nodes. -/
def net.update_count (n_beg n_end : Int) : Int := n_beg - n_end

/-- The count `n_beg-n_end` converted to the `size_t` parameter of
`parallel_for`, `SIZE_MAX` being `numeric_limits<size_t>::max()`. -/
def net.update_count_size_t (SIZE_MAX : Nat) (n_beg n_end : Int) : Nat :=
  ((n_beg - n_end) % ((SIZE_MAX : Int) + 1)).toNat

end displayer

/-! ## The execution policies and the loops of the spec -/

namespace common

/-- Modelled from the spec: the execution policy of `lib/common/algorithm.hpp`,
which is not part of the sources at hand: `Sequential`, `Parallel(k)` with
`k` workers, or `General(flag, k)`. -/
inductive Policy where
  /-- single control flow -/
  | Sequential : Policy
  /-- one chunk of the domain per worker thread -/
  | Parallel (worker_count : Nat) : Policy
  /-- dispatches on the flag to `Parallel(worker_count)` or `Sequential` -/
  | General (flag : Bool) (worker_count : Nat) : Policy

/-- Modelled from the spec: the loop of one worker over a contiguous range,
`body(i, w)` for `i = lo, ..., lo + len - 1` in this order, as the sequence
of its invocations `(i, w)`. -/
def worker_loop (w : Nat) : Nat → Nat → List (Nat × Nat)
  | 0, _ => []
  | len + 1, lo => (lo, w) :: worker_loop w len (lo + 1)

/-- Modelled from the spec: the first index of the chunk of worker `t` when
`n` indices are split into `k` contiguous chunks as even as possible; the
chunk of worker `t` ends where the chunk of worker `t + 1` begins. -/
def chunk_begin (k n t : Nat) : Nat := t * n / k

/-- Modelled from the spec: the shares of the `k` workers of `Parallel(k)`,
worker `t` looping over its chunk with worker id `t`. -/
def shares (k n : Nat) : List (List (Nat × Nat)) :=
  (List.range k).map
    (fun t => worker_loop t (chunk_begin k n (t + 1) - chunk_begin k n t) (chunk_begin k n t))

/-- Modelled from the spec: the workers run concurrently, each through its
share in order. A schedule names the worker that makes the next invocation
(a worker that has finished, or that does not exist, makes none); when the
schedule is over every worker runs to the completion of its share. The
result is the sequence of the invocations in the order they are made. -/
def execution {ι : Type} : List (List ι) → List Nat → List ι
  | ss, [] => ss.flatten
  | ss, w :: sched =>
    match ss.getD w [] with
    | [] => execution ss sched
    | x :: rest => x :: execution (ss.set w rest) sched

/-- The invocations of a body one after the other, from the state `s`. -/
def run {σ : Type} (body : Nat → Nat → σ → σ) (invs : List (Nat × Nat)) (s : σ) : σ :=
  invs.foldl (fun s2 p => body p.1 p.2 s2) s

/-- Modelled from the spec: the invocations `for_each_index(policy, n, body)`
makes, in the order of a schedule of the workers; no value with a worker
count of `0`, which is a configuration fault. -/
def for_each_index.invocations : Policy → Nat → List Nat → Option (List (Nat × Nat))
  | Policy.Sequential, n, _ => some (worker_loop 0 n 0)
  | Policy.Parallel k, n, sched => if k = 0 then none else some (execution (shares k n) sched)
  | Policy.General false _, n, _ => some (worker_loop 0 n 0)
  | Policy.General true k, n, sched =>
    if k = 0 then none else some (execution (shares k n) sched)

/-- Modelled from the spec: `for_each_index(policy, n, body)` on the state
`s`, under a schedule of the workers. -/
def for_each_index {σ : Type} (p : Policy) (n : Nat) (body : Nat → Nat → σ → σ)
    (sched : List Nat) (s : σ) : Option σ :=
  (for_each_index.invocations p n sched).map (fun invs => run body invs s)

/-- The outcome of a call of `while_true` under a schedule. -/
inductive Outcome (ρ : Type) where
  /-- a configuration fault, before any work starts -/
  | fault : Outcome ρ
  /-- the call has not returned when the schedule is over -/
  | running : Outcome ρ
  /-- the call has returned -/
  | returned (r : ρ) : Outcome ρ

/-- Modelled from the spec: the loop of one worker of `while_true`, which
calls `body(w)` until it returns `false`, with the invocations recorded as
`(w, result)`; `fuel` bounds the number of invocations, and there is no value
when the body has not returned `false` within it. -/
def while_true.loop {σ : Type} (body : Nat → σ → Bool × σ) (w : Nat) :
    Nat → σ → List (Nat × Bool) → Option (List (Nat × Bool) × σ)
  | 0, _, _ => none
  | fuel + 1, s, tr =>
    if (body w s).1 then while_true.loop body w fuel (body w s).2 (tr ++ [(w, true)])
    else some (tr ++ [(w, false)], (body w s).2)

/-- The workers of `while_true` while they run. -/
structure while_true.State (σ : Type) where
  /-- for every worker, whether its body has returned `false` -/
  stopped : List Bool
  /-- the state the body acts on -/
  s : σ
  /-- the invocations made so far: worker id and result -/
  trace : List (Nat × Bool)

/-- Modelled from the spec: worker `w` makes its next invocation, if it has
not stopped; it stops when the body returns `false`. -/
def while_true.step {σ : Type} (body : Nat → σ → Bool × σ) (st : while_true.State σ)
    (w : Nat) : while_true.State σ :=
  if st.stopped.getD w true then st
  else
    ⟨if (body w st.s).1 then st.stopped else st.stopped.set w true, (body w st.s).2,
      st.trace ++ [(w, (body w st.s).1)]⟩

/-- The `k` workers of `while_true` after the invocations of a schedule. -/
def while_true.workers {σ : Type} (k : Nat) (body : Nat → σ → Bool × σ) (sched : List Nat)
    (s : σ) : while_true.State σ :=
  sched.foldl (while_true.step body) ⟨List.replicate k false, s, []⟩

/-- Modelled from the spec: `while_true` with one control flow and worker id
`0`; the length of the schedule bounds the number of invocations. -/
def while_true.sequential {σ : Type} (body : Nat → σ → Bool × σ) (sched : List Nat) (s : σ) :
    Outcome (List (Nat × Bool) × σ) :=
  match while_true.loop body 0 sched.length s [] with
  | none => Outcome.running
  | some r => Outcome.returned r

/-- Modelled from the spec: `while_true` with `k` workers; the call returns
once every worker has stopped. -/
def while_true.parallel {σ : Type} (k : Nat) (body : Nat → σ → Bool × σ) (sched : List Nat)
    (s : σ) : Outcome (List (Nat × Bool) × σ) :=
  if k = 0 then Outcome.fault
  else if (while_true.workers k body sched s).stopped.all id then
    Outcome.returned
      ((while_true.workers k body sched s).trace, (while_true.workers k body sched s).s)
  else Outcome.running

/-- Modelled from the spec: `while_true(policy, body)` on the state `s` under
a schedule of the workers: the invocations made and the final state. -/
def while_true {σ : Type} : Policy → (Nat → σ → Bool × σ) → List Nat → σ →
    Outcome (List (Nat × Bool) × σ)
  | Policy.Sequential, body, sched, s => while_true.sequential body sched s
  | Policy.Parallel k, body, sched, s => while_true.parallel k body sched s
  | Policy.General false _, body, sched, s => while_true.sequential body sched s
  | Policy.General true k, body, sched, s => while_true.parallel k body sched s

/-- What holds of the workers of `while_true` while they run: there are `k`
of them, the invocations are theirs, and the results a worker has obtained
are some number of `true`, followed by one `false` when it has stopped. -/
def while_true.invariant {σ : Type} (k : Nat) (st : while_true.State σ) : Prop :=
  st.stopped.length = k ∧ (∀ p ∈ st.trace, p.1 < k)
  ∧ ∀ u, u < k → ∃ m,
      (st.trace.filter (fun p => decide (p.1 = u))).map Prod.snd
        = List.replicate m true ++ (if st.stopped.getD u true then [false] else [])

end common

/-- The body `++v[i]` of the test `ParallelFor`, the vector `v` being the
function from the positions to the values. -/
def test_increment (i : Nat) (_ : Nat) (v : Nat → Int) : Nat → Int :=
  Function.update v i (v i + 1)

/-- The body of the test `ParallelFor` that adds one to `acc`, as when
invocations do not overlap. -/
def test_count (_ : Nat) (_ : Nat) (acc : Int) : Int := acc + 1

/-- The body of the test `ParallelWhile` with the pull from the queue and
the addition to `acc` in one step, as under the caller's lock: the state is
the queue, its top first, and `acc`. -/
def test_drain {α : Type} (_ : Nat) (s : List α × Nat) : Bool × (List α × Nat) :=
  match s.1 with
  | [] => (false, s)
  | _ :: q => (true, (q, s.2 + 1))

/-! ## The selector of the spec: `nth_elements` -/

namespace common

/-- Position `t` splits the list: no element at a position up to `t` is
larger than an element at a position from `t` on. -/
def partitioned_at {α : Type} [LinearOrder α] (r : List α) (t : Nat) : Prop :=
  ∀ x ∈ r.take (t + 1), ∀ y ∈ r.drop t, x ≤ y

/-- Modelled from the spec: the contract of the single selection the
recursion runs on a range, that of `std::nth_element`: the range is
rearranged, position `t` gets the value it has in the sorted range, and no
element before position `t` is larger than an element after it. -/
def nth_element_contract {α : Type} [LinearOrder α] (nth_element : List α → Nat → List α) :
    Prop :=
  ∀ (l : List α) (t : Nat), t < l.length →
    (nth_element l t).Perm l
    ∧ (nth_element l t)[t]? = (l.insertionSort (fun x y => x ≤ y))[t]?
    ∧ ∀ x ∈ (nth_element l t).take t, ∀ y ∈ (nth_element l t).drop (t + 1), x ≤ y

/-- Modelled from the spec: `nth_elements` of `lib/common/algorithm.hpp`,
which is not part of the sources at hand. With no target the range is left
as it is; otherwise the middle target is selected over the whole range, and
the recursion goes on in the part left of it with the targets before the
middle one and in the part right of it with the targets after the middle
one, which are counted from the beginning of that part. -/
def nth_elements {α : Type} (nth_element : List α → Nat → List α) (ev : List α)
    (iv : List Nat) : List α :=
  if _h : iv = [] then ev
  else
    nth_elements nth_element ((nth_element ev (iv.getD (iv.length / 2) 0)).take
        (iv.getD (iv.length / 2) 0)) (iv.take (iv.length / 2))
      ++ ((nth_element ev (iv.getD (iv.length / 2) 0)).drop (iv.getD (iv.length / 2) 0)).take 1
      ++ nth_elements nth_element
          ((nth_element ev (iv.getD (iv.length / 2) 0)).drop (iv.getD (iv.length / 2) 0 + 1))
          ((iv.drop (iv.length / 2 + 1)).map (fun i => i - (iv.getD (iv.length / 2) 0 + 1)))
termination_by iv.length
decreasing_by
  · have hpos : 0 < iv.length := List.length_pos.mpr ‹¬ iv = []›
    rw [List.length_take]
    omega
  · have hpos : 0 < iv.length := List.length_pos.mpr ‹¬ iv = []›
    rw [List.length_map, List.length_drop]
    omega

end common

/-- A selection for the examples, which keeps the contract of
`std::nth_element`: with `p` the value of the sorted range at position `t`,
the elements below `p`, then those equal to `p`, then those above `p`, each
group in the order it has in the range. -/
def test_nth_element (l : List Nat) (t : Nat) : List Nat :=
  l.filter (fun x => decide (x < (l.insertionSort (fun x y => x ≤ y)).getD t 0))
    ++ l.filter (fun x => decide (x = (l.insertionSort (fun x y => x ≤ y)).getD t 0))
    ++ l.filter (fun x => decide ((l.insertionSort (fun x y => x ≤ y)).getD t 0 < x))

/-! ## The arithmetic of `double` -/

/-- The rational `n / (d * 2^e)` as a numerator and a denominator, for an
exponent `e` of either sign. -/
def scaled (n d : Nat) (e : Int) : Nat × Nat :=
  if 0 ≤ e then (n, d * 2 ^ e.toNat) else (n * 2 ^ (-e).toNat, d)

/-- The quotient `n / d` rounded to the nearest integer, a tie to the even
one. -/
def round_half_even (n d : Nat) : Nat :=
  if 2 * (n % d) < d then n / d
  else if d < 2 * (n % d) then n / d + 1
  else if (n / d) % 2 = 0 then n / d
  else n / d + 1

/-- The position of the leading bit of `n`: `floor (log2 n)` for `n > 0`; the
first argument bounds the number of the halvings. -/
def leading_bit : Nat → Nat → Nat
  | 0, _ => 0
  | fuel + 1, n => if n < 2 then 0 else leading_bit fuel (n / 2) + 1

/-- The exponent of the last bit of the significand of the `double` nearest
to `n / d`, for `n, d > 0`: `floor (log2 (n / d)) - 52`, and `-1074` for the
subnormal values. -/
def double_exponent (n d : Nat) : Int :=
  max (((leading_bit n n : Int) - (leading_bit d d : Int)
    - (if (scaled n d ((leading_bit n n : Int) - (leading_bit d d : Int))).2
        ≤ (scaled n d ((leading_bit n n : Int) - (leading_bit d d : Int))).1 then 0 else 1)) - 52) (-1074)

/-- The value of type `double` (IEEE 754 binary64) nearest to `x`, a tie to
the one with an even significand: the rounding of every arithmetic operation
on `times_t = double`. Values beyond the largest `double`, which round to an
infinity, are not modelled. -/
def round_to_double (x : ℚ) : ℚ :=
  if x.num = 0 then 0
  else
    mkRat
      ((if x.num < 0 then -1 else 1)
        * (round_half_even
            (scaled x.num.natAbs x.den (double_exponent x.num.natAbs x.den)).1
            (scaled x.num.natAbs x.den (double_exponent x.num.natAbs x.den)).2 : Int)
        * 2 ^ (double_exponent x.num.natAbs x.den).toNat)
      (2 ^ (-(double_exponent x.num.natAbs x.den)).toNat)

/-- The addition of `double`: the sum, rounded. -/
def double_add : Add ℚ := ⟨fun x y => round_to_double (x + y)⟩

/-- The multiplication of `double`: the product, rounded. -/
def double_mul (x y : ℚ) : ℚ := round_to_double (x * y)

/-- The `double` nearest to `0.1`. -/
def double_tenth : ℚ := 3602879701896397 / 36028797018963968

/-! ## Concrete parameters for the examples -/

/-- The sentinel of the examples: `numeric_limits<double>::max()`. -/
def TIME_MAX_double : ℚ := (2 ^ 53 - 1) * 2 ^ 971

/-- The bound of the examples on `size_t`: `2^64 - 1`. -/
def SIZE_MAX_64 : Nat := 2 ^ 64 - 1

/-- A distribution of the examples: the random source is a counter `g`, a
call returns `(5 g + 3) mod 7` and advances the counter. -/
def sample_distribution : distribution Nat ℚ :=
  ⟨Unit, (), fun st g => ((((g * 5 + 3) % 7 : Nat) : ℚ), st, g + 1)⟩

/-- The distributions of the test `List` (`list_n<10, 33, 52, 15>`): the
constants `3.3`, `5.2` and `1.5`. -/
def test_list : List (distribution Nat ℚ) :=
  [constant_distribution Nat 3.3, constant_distribution Nat 5.2, constant_distribution Nat 1.5]

/-- The distributions of the list of the test `Merge` (`list_n<10, 73, 52, 15>`). -/
def test_merge_list : List (distribution Nat ℚ) :=
  [constant_distribution Nat 7.3, constant_distribution Nat 5.2, constant_distribution Nat 1.5]

/-- The sub-generators of the test `Merge`: `multiple_n<3, 52, 10>`, `never`
and `list_n<10, 73, 52, 15>`. -/
def test_merge : Fin 3 → EventGenerator Nat ℚ :=
  ![Multiple_same (constant_distribution Nat 5.2) 3 TIME_MAX_double, Never Nat TIME_MAX_double,
    Sequence test_merge_list TIME_MAX_double]

/-- The numbers of events of the sub-generators of the test `Merge`. -/
def test_merge_counts : Fin 3 → Nat := ![3, 0, 3]

/-! ## General facts on successive calls -/

theorem after_calls_succ {σ G α : Type} (f : σ → G → α × σ × G) (k : Nat) (s : σ) (g : G) :
    after_calls f (k + 1) s g
      = (f (after_calls f k s g).1 (after_calls f k s g).2).2 := rfl

theorem returned_succ {σ G α : Type} (f : σ → G → α × σ × G) (k : Nat) (s : σ) (g : G) :
    returned f s g (k + 1)
      = (f (after_calls f k s g).1 (after_calls f k s g).2).1 := rfl

/-- Reading position `j - 1` of a sorted list of times, all at most the
sentinel, and the sentinel past its end, gives a well-formed stream. -/
theorem well_formed_getD {α : Type} [LinearOrder α] (M : α) (l : List α)
    (hs : l.Sorted (fun x y => x ≤ y)) (hb : ∀ x ∈ l, x ≤ M) :
    well_formed M (fun j => l.getD (j - 1) M) := by
  intro j j2 h1 h12
  show l.getD (j - 1) M ≤ l.getD (j2 - 1) M ∧ (l.getD (j - 1) M = M → l.getD (j2 - 1) M = M)
  have hle : ∀ k : Nat, l.getD k M ≤ M := by
    intro k
    by_cases hk : k < l.length
    · rw [List.getD_eq_getElem _ _ hk]; exact hb _ (List.getElem_mem _)
    · rw [List.getD_eq_default _ _ (by omega)]
  by_cases h2 : j2 - 1 < l.length
  · have h1l : j - 1 < l.length := by omega
    have hmono : l.getD (j - 1) M ≤ l.getD (j2 - 1) M := by
      rw [List.getD_eq_getElem _ _ h1l, List.getD_eq_getElem _ _ h2]
      have hfin : (⟨j - 1, h1l⟩ : Fin l.length) ≤ ⟨j2 - 1, h2⟩ := by
        rw [Fin.le_def]; show j - 1 ≤ j2 - 1; omega
      exact hs.rel_get_of_le hfin
    exact ⟨hmono, fun h => le_antisymm (hle _) (le_trans (le_of_eq h.symm) hmono)⟩
  · have h2d : l.getD (j2 - 1) M = M := List.getD_eq_default _ _ (by omega)
    rw [h2d]
    exact ⟨hle _, fun _ => rfl⟩

/-- The values of a sorted array are in ascending order. -/
theorem sort_sorted {α : Type} [LinearOrder α] {n : Nat} (a : array α n) :
    (sort a).1.Sorted (fun x y => x ≤ y) :=
  List.sorted_insertionSort _ _

/-- Sorting an array permutes its values. -/
theorem sort_perm {α : Type} [LinearOrder α] {n : Nat} (a : array α n) :
    (sort a).1.Perm a.1 :=
  List.perm_insertionSort _ _

/-- Every sample of a filled array is a sample of the distribution. -/
theorem fill_bounded {G α : Type} [LE α] (T : distribution G α) (M : α) (hT : T.bounded M) :
    ∀ (k : Nat) (st : T.State) (g : G), ∀ x ∈ (T.fill k st g).1.1, x ≤ M := by
  intro k
  induction k with
  | zero => intro st g x hx; simp [distribution.fill] at hx
  | succ k ih =>
    intro st g x hx
    simp only [distribution.fill, List.mem_cons] at hx
    rcases hx with rfl | hx
    · exact hT st g
    · exact ih _ _ x hx

/-- Every sample of a pack of distributions is at most the common bound. -/
theorem call_distr_pack_bounded {G α : Type} [LE α] (M : α) :
    ∀ (Ts : List (distribution G α)), (∀ T ∈ Ts, T.bounded M) →
      ∀ (g : G), ∀ x ∈ (details.call_distr_pack Ts g).1.1, x ≤ M := by
  intro Ts
  induction Ts with
  | nil => intro _ g x hx; simp [details.call_distr_pack] at hx
  | cons T Ts ih =>
    intro hTs g x hx
    simp only [details.call_distr_pack, List.mem_cons] at hx
    rcases hx with rfl | hx
    · exact hTs T (List.mem_cons_self _ _) _ _
    · exact ih (fun T2 h2 => hTs T2 (List.mem_cons_of_mem _ h2)) _ x hx

/-! ## The streams of `event_never`, `event_multiple` and `event_sequence` -/

theorem event_never.returned_never {G α : Type} (M : α) (g : G) (j : Nat) :
    returned (event_never.operator_call M) () g j = M := rfl

/-- After the first call the generator holds the drawn time and has counted
the calls; the random source is as the single draw left it. -/
theorem event_multiple_true.after_calls_multiple_true {G α : Type} (T : distribution G α) (n : Nat)
    (M : α) (s : event_multiple_true.State α) (g : G) (hs : s.i = 0) (k : Nat) :
    after_calls (event_multiple_true.operator_call T n M) (k + 1) s g
      = (⟨(T.draw g).1, k + 1⟩, (T.draw g).2) := by
  induction k with
  | zero => simp [after_calls, event_multiple_true.operator_call, hs]
  | succ k ih => rw [after_calls_succ, ih]; simp [event_multiple_true.operator_call]

theorem event_multiple_true.returned_multiple_true {G α : Type} (T : distribution G α) (n : Nat)
    (M : α) (s : event_multiple_true.State α) (g : G) (hs : s.i = 0) (j : Nat) (hj : 1 ≤ j) :
    returned (event_multiple_true.operator_call T n M) s g j
      = if j ≤ n then (T.draw g).1 else M := by
  obtain ⟨k, rfl⟩ : ∃ k, j = k + 1 := ⟨j - 1, by omega⟩
  rw [returned_succ]
  cases k with
  | zero => simp [after_calls, event_multiple_true.operator_call, hs]
  | succ k =>
    rw [event_multiple_true.after_calls_multiple_true T n M s g hs k]
    simp [event_multiple_true.operator_call]

/-- After the first call the generator holds the sorted samples and has
counted the calls; the random source is as the `n` draws left it. -/
theorem event_multiple_false.after_calls_multiple_false {G α : Type} [LinearOrder α]
    (T : distribution G α) (n : Nat) (M : α) (s : event_multiple_false.State α n) (g : G)
    (hs : s.i = 0) (k : Nat) :
    after_calls (event_multiple_false.operator_call T n M) (k + 1) s g
      = (⟨sort (T.fill n T.init g).1, k + 1⟩, (T.fill n T.init g).2.2) := by
  induction k with
  | zero => simp [after_calls, event_multiple_false.operator_call, hs]
  | succ k ih => rw [after_calls_succ, ih]; simp [event_multiple_false.operator_call]

/-- The value a call returns, read without the bound check: the array has
`n` values, so reading past it is the same as the `i <= n` test failing. -/
theorem event_multiple_false.operator_call_fst_multiple_false {G α : Type} [LinearOrder α]
    (T : distribution G α) (n : Nat) (M : α) (s : event_multiple_false.State α n) (g : G) :
    (event_multiple_false.operator_call T n M s g).1
      = (if s.i = 0 then sort (T.fill n T.init g).1 else s.pending).1.getD s.i M := by
  have hlen := (if s.i = 0 then sort (T.fill n T.init g).1 else s.pending).2
  simp only [event_multiple_false.operator_call]
  by_cases hkn : s.i + 1 ≤ n
  · rw [dif_pos hkn, List.getD_eq_getElem _ _ (by omega)]; rfl
  · rw [dif_neg hkn, List.getD_eq_default _ _ (by omega)]

theorem event_multiple_false.returned_multiple_false {G α : Type} [LinearOrder α]
    (T : distribution G α) (n : Nat) (M : α) (s : event_multiple_false.State α n) (g : G)
    (hs : s.i = 0) (j : Nat) (hj : 1 ≤ j) :
    returned (event_multiple_false.operator_call T n M) s g j
      = (sort (T.fill n T.init g).1).1.getD (j - 1) M := by
  obtain ⟨k, rfl⟩ : ∃ k, j = k + 1 := ⟨j - 1, by omega⟩
  rw [returned_succ, event_multiple_false.operator_call_fst_multiple_false]
  cases k with
  | zero => simp [after_calls, hs]
  | succ k => rw [event_multiple_false.after_calls_multiple_false T n M s g hs k]; simp

/-- After the first call the generator holds the sorted samples and has
counted the calls; the random source is as the draws of the pack left it. -/
theorem event_sequence.after_calls_sequence {G α : Type} [LinearOrder α]
    (Ts : List (distribution G α)) (M : α) (s : event_sequence.State α Ts.length) (g : G)
    (hs : s.i = 0) (k : Nat) :
    after_calls (event_sequence.operator_call Ts M) (k + 1) s g
      = (⟨sort (details.call_distr_pack Ts g).1, k + 1⟩, (details.call_distr_pack Ts g).2) := by
  induction k with
  | zero => simp [after_calls, event_sequence.operator_call, hs]
  | succ k ih => rw [after_calls_succ, ih]; simp [event_sequence.operator_call]

/-- The value a call returns, read without the bound check. -/
theorem event_sequence.operator_call_fst_sequence {G α : Type} [LinearOrder α]
    (Ts : List (distribution G α)) (M : α) (s : event_sequence.State α Ts.length) (g : G) :
    (event_sequence.operator_call Ts M s g).1
      = (if s.i = 0 then sort (details.call_distr_pack Ts g).1 else s.pending).1.getD s.i M := by
  have hlen := (if s.i = 0 then sort (details.call_distr_pack Ts g).1 else s.pending).2
  simp only [event_sequence.operator_call]
  by_cases hkn : s.i + 1 ≤ Ts.length
  · rw [dif_pos hkn, List.getD_eq_getElem _ _ (by omega)]; rfl
  · rw [dif_neg hkn, List.getD_eq_default _ _ (by omega)]

theorem event_sequence.returned_sequence {G α : Type} [LinearOrder α]
    (Ts : List (distribution G α)) (M : α) (s : event_sequence.State α Ts.length) (g : G)
    (hs : s.i = 0) (j : Nat) (hj : 1 ≤ j) :
    returned (event_sequence.operator_call Ts M) s g j
      = (sort (details.call_distr_pack Ts g).1).1.getD (j - 1) M := by
  obtain ⟨k, rfl⟩ : ∃ k, j = k + 1 := ⟨j - 1, by omega⟩
  rw [returned_succ, event_sequence.operator_call_fst_sequence]
  cases k with
  | zero => simp [after_calls, hs]
  | succ k => rw [event_sequence.after_calls_sequence Ts M s g hs k]; simp

/-- The stream of a sorted array of samples, all at most the sentinel. -/
theorem well_formed_sort {α : Type} [LinearOrder α] (M : α) {n : Nat} (a : array α n)
    (hb : ∀ x ∈ a.1, x ≤ M) : well_formed M (fun j => (sort a).1.getD (j - 1) M) :=
  well_formed_getD M _ (sort_sorted a) (fun x hx => hb x ((sort_perm a).mem_iff.1 hx))

/-- A stream that agrees from the first call on with a well-formed stream is
well-formed. -/
theorem well_formed_congr {α : Type} [LE α] (M : α) (out out2 : Nat → α)
    (h : ∀ j, 1 ≤ j → out j = out2 j) (hw : well_formed M out2) : well_formed M out := by
  intro j j2 h1 h12
  rw [h j h1, h j2 (le_trans h1 h12)]
  exact hw j j2 h1 h12

/-- Claim C1. For `event_never`, `event_multiple<T, n, true>`,
`event_multiple<T, n, false>` and `event_sequence<T...>`: whatever the random
source, the number of events and the distributions, as long as every sample
is at most the sentinel, the times returned by successive calls of
`operator()` on a default-constructed generator are non-decreasing from one
call to any later one, and once a call returns the sentinel every later call
returns the sentinel. -/
theorem C1_streams_well_formed {G α : Type} [LinearOrder α] (TIME_MAX : α)
    (T : distribution G α) (Ts : List (distribution G α)) (n : Nat) (g : G)
    (s1 : event_multiple_true.State α) (s2 : event_multiple_false.State α n)
    (s3 : event_sequence.State α Ts.length)
    (h1 : s1.i = 0) (h2 : s2.i = 0) (h3 : s3.i = 0)
    (hT : T.bounded TIME_MAX) (hTs : ∀ T2 ∈ Ts, T2.bounded TIME_MAX) :
    well_formed TIME_MAX (returned (event_never.operator_call TIME_MAX) () g)
    ∧ well_formed TIME_MAX (returned (event_multiple_true.operator_call T n TIME_MAX) s1 g)
    ∧ well_formed TIME_MAX (returned (event_multiple_false.operator_call T n TIME_MAX) s2 g)
    ∧ well_formed TIME_MAX (returned (event_sequence.operator_call Ts TIME_MAX) s3 g) := by
  refine ⟨?_, ?_, ?_, ?_⟩
  · intro j j2 _ _
    rw [event_never.returned_never, event_never.returned_never]
    exact ⟨le_refl _, fun _ => rfl⟩
  · intro j j2 hj hjj
    rw [event_multiple_true.returned_multiple_true T n TIME_MAX s1 g h1 j hj,
      event_multiple_true.returned_multiple_true T n TIME_MAX s1 g h1 j2 (le_trans hj hjj)]
    have ht : (T.draw g).1 ≤ TIME_MAX := hT _ _
    by_cases hn : j2 ≤ n
    · rw [if_pos hn, if_pos (le_trans hjj hn)]
      exact ⟨le_refl _, fun h => h⟩
    · rw [if_neg hn]
      refine ⟨?_, fun _ => rfl⟩
      split
      · exact ht
      · exact le_refl _
  · exact well_formed_congr TIME_MAX _ _
      (fun j hj => event_multiple_false.returned_multiple_false T n TIME_MAX s2 g h2 j hj)
      (well_formed_sort TIME_MAX _ (fill_bounded T TIME_MAX hT n _ _))
  · exact well_formed_congr TIME_MAX _ _
      (fun j hj => event_sequence.returned_sequence Ts TIME_MAX s3 g h3 j hj)
      (well_formed_sort TIME_MAX _ (call_distr_pack_bounded TIME_MAX Ts hTs g))

/-! ## The stream of `event_periodic` -/

/-- A call returns the time it leaves in `t` if the counter and the time it
leaves pass the test, and the sentinel otherwise. -/
theorem event_periodic.operator_call_fst_periodic {G α : Type} [LinearOrder α] [Add α]
    (S P E : distribution G α) (N : distribution G Nat) (M : α)
    (s : event_periodic.State P.State α) (g : G) :
    (event_periodic.operator_call S P E N M s g).1
      = if (event_periodic.operator_call S P E N M s g).2.1.i
            ≤ (event_periodic.operator_call S P E N M s g).2.1.n
          ∧ (event_periodic.operator_call S P E N M s g).2.1.t
            < (event_periodic.operator_call S P E N M s g).2.1.te
        then (event_periodic.operator_call S P E N M s g).2.1.t else M := rfl

/-- The generator and the random source after `k + 1` calls. -/
theorem event_periodic.after_calls_periodic {G α : Type} [LinearOrder α] [Add α]
    (S P E : distribution G α) (N : distribution G Nat) (M : α) (t te : α) (n0 : Nat)
    (g : G) (k : Nat) :
    after_calls (event_periodic.operator_call S P E N M) (k + 1)
        (event_periodic.start P t te n0) g
      = (⟨(after_calls P.call k P.init (event_periodic.source_after_first S E N g)).1,
          event_periodic.times (event_periodic.start_time S E N g)
            (event_periodic.period S P E N g) (k + 1),
          event_periodic.end_time E N g, k + 1, event_periodic.count N g⟩,
        (after_calls P.call k P.init (event_periodic.source_after_first S E N g)).2) := by
  induction k with
  | zero =>
    simp [after_calls, event_periodic.operator_call, event_periodic.start,
      event_periodic.times, event_periodic.start_time, event_periodic.end_time,
      event_periodic.count, event_periodic.source_after_first]
  | succ k ih =>
    rw [after_calls_succ, ih]
    simp [event_periodic.operator_call, event_periodic.times, event_periodic.period,
      returned, after_calls]

/-- The value returned by the `j`-th call of `event_periodic`. -/
theorem event_periodic.returned_periodic {G α : Type} [LinearOrder α] [Add α]
    (S P E : distribution G α) (N : distribution G Nat) (M : α) (t te : α) (n0 : Nat)
    (g : G) (j : Nat) (hj : 1 ≤ j) :
    returned (event_periodic.operator_call S P E N M) (event_periodic.start P t te n0) g j
      = if j ≤ event_periodic.count N g
            ∧ event_periodic.times (event_periodic.start_time S E N g)
                (event_periodic.period S P E N g) j < event_periodic.end_time E N g
        then event_periodic.times (event_periodic.start_time S E N g)
                (event_periodic.period S P E N g) j
        else M := by
  obtain ⟨k, rfl⟩ : ∃ k, j = k + 1 := ⟨j - 1, by omega⟩
  rw [returned_succ, event_periodic.operator_call_fst_periodic, ← after_calls_succ,
    event_periodic.after_calls_periodic]

/-- With non-negative periods the times `t_j` are non-decreasing. -/
theorem event_periodic.times_mono {α : Type} [LinearOrderedAddCommMonoid α] (t0 : α)
    (p : Nat → α) (hp : ∀ j, 0 ≤ p j) (j j2 : Nat) (h : j ≤ j2) :
    event_periodic.times t0 p j ≤ event_periodic.times t0 p j2 := by
  induction j2 with
  | zero =>
    have h0 : j = 0 := by omega
    rw [h0]
  | succ k ih =>
    by_cases hk : j = k + 1
    · rw [hk]
    · have hstep : event_periodic.times t0 p k ≤ event_periodic.times t0 p (k + 1) := by
        cases k with
        | zero => exact le_refl _
        | succ m => exact le_add_of_nonneg_right (hp _)
      exact le_trans (ih (by omega)) hstep

/-- Every period sample of a distribution with non-negative samples is
non-negative. -/
theorem event_periodic.period_nonneg {G α : Type} [LE α] [Zero α] (S P E : distribution G α)
    (N : distribution G Nat) (g : G) (hP : P.at_least 0) (j : Nat) :
    0 ≤ event_periodic.period S P E N g j := hP _ _

/-- Claim C2. For `event_periodic`: if every sample of the period
distribution is non-negative and every sample of the end distribution is at
most the sentinel, then the times returned by successive calls of
`operator()` on a default-constructed generator are non-decreasing, and once
a call returns the sentinel every later call returns the sentinel. -/
theorem C2_periodic_well_formed {G α : Type} [LinearOrderedAddCommMonoid α]
    (S P E : distribution G α) (N : distribution G Nat) (TIME_MAX : α) (t te : α) (n0 : Nat)
    (g : G) (hP : P.at_least 0) (hE : E.bounded TIME_MAX) :
    well_formed TIME_MAX
      (returned (event_periodic.operator_call S P E N TIME_MAX)
        (event_periodic.start P t te n0) g) := by
  intro j j2 hj hjj
  rw [event_periodic.returned_periodic S P E N TIME_MAX t te n0 g j hj,
    event_periodic.returned_periodic S P E N TIME_MAX t te n0 g j2 (le_trans hj hjj)]
  have hte : event_periodic.end_time E N g ≤ TIME_MAX := hE _ _
  have hmono := event_periodic.times_mono (event_periodic.start_time S E N g)
    (event_periodic.period S P E N g) (event_periodic.period_nonneg S P E N g hP) j j2 hjj
  by_cases h2 : j2 ≤ event_periodic.count N g
      ∧ event_periodic.times (event_periodic.start_time S E N g)
          (event_periodic.period S P E N g) j2 < event_periodic.end_time E N g
  · have h1 : j ≤ event_periodic.count N g
        ∧ event_periodic.times (event_periodic.start_time S E N g)
            (event_periodic.period S P E N g) j < event_periodic.end_time E N g :=
      ⟨le_trans hjj h2.1, lt_of_le_of_lt hmono h2.2⟩
    rw [if_pos h1, if_pos h2]
    exact ⟨hmono, fun h => absurd (h ▸ h1.2) (not_lt.2 hte)⟩
  · rw [if_neg h2]
    refine ⟨?_, fun _ => rfl⟩
    split
    · rename_i h1
      exact le_trans (le_of_lt h1.2) hte
    · exact le_refl _

/-- Claim C3. For `event_periodic` and every random source: with `n`, `te`
and `t0` the count, end and start samples drawn during the first call, `p_j`
the period sample drawn during call `j >= 2`, and `t_1 = t0`,
`t_j = t_(j-1) + p_j`, the `j`-th call of `operator()` returns `t_j` if
`j <= n` and `t_j < te`, and the sentinel otherwise. In particular the first
call returns `t0` if `n >= 1` and `t0 < te` and the sentinel otherwise, so
that for a start sample other than the sentinel it returns `t0` exactly when
`n >= 1` and `t0 < te`. -/
theorem C3_periodic_values {G α : Type} [LinearOrder α] [Add α]
    (S P E : distribution G α) (N : distribution G Nat) (TIME_MAX : α) (t te : α) (n0 : Nat)
    (g : G) (j : Nat) (hj : 1 ≤ j) :
    (event_periodic.times (event_periodic.start_time S E N g)
        (event_periodic.period S P E N g) 1 = event_periodic.start_time S E N g
      ∧ event_periodic.times (event_periodic.start_time S E N g)
          (event_periodic.period S P E N g) (j + 1)
        = event_periodic.times (event_periodic.start_time S E N g)
            (event_periodic.period S P E N g) j + event_periodic.period S P E N g (j + 1))
    ∧ returned (event_periodic.operator_call S P E N TIME_MAX)
        (event_periodic.start P t te n0) g j
      = (if j ≤ event_periodic.count N g
            ∧ event_periodic.times (event_periodic.start_time S E N g)
                (event_periodic.period S P E N g) j < event_periodic.end_time E N g
        then event_periodic.times (event_periodic.start_time S E N g)
                (event_periodic.period S P E N g) j
        else TIME_MAX)
    ∧ returned (event_periodic.operator_call S P E N TIME_MAX)
        (event_periodic.start P t te n0) g 1
      = (if 1 ≤ event_periodic.count N g
            ∧ event_periodic.start_time S E N g < event_periodic.end_time E N g
        then event_periodic.start_time S E N g else TIME_MAX)
    ∧ (event_periodic.start_time S E N g ≠ TIME_MAX →
        (returned (event_periodic.operator_call S P E N TIME_MAX)
            (event_periodic.start P t te n0) g 1 = event_periodic.start_time S E N g
          ↔ 1 ≤ event_periodic.count N g
            ∧ event_periodic.start_time S E N g < event_periodic.end_time E N g)) := by
  have hfirst : returned (event_periodic.operator_call S P E N TIME_MAX)
        (event_periodic.start P t te n0) g 1
      = (if 1 ≤ event_periodic.count N g
            ∧ event_periodic.start_time S E N g < event_periodic.end_time E N g
        then event_periodic.start_time S E N g else TIME_MAX) :=
    event_periodic.returned_periodic S P E N TIME_MAX t te n0 g 1 (le_refl 1)
  refine ⟨⟨rfl, ?_⟩, event_periodic.returned_periodic S P E N TIME_MAX t te n0 g j hj, hfirst, ?_⟩
  · obtain ⟨k, rfl⟩ : ∃ k, j = k + 1 := ⟨j - 1, by omega⟩
    rfl
  · intro hne
    rw [hfirst]
    constructor
    · intro h
      by_contra hc
      rw [if_neg hc] at h
      exact hne h.symm
    · intro h
      rw [if_pos h]

/-! ## The values of `event_multiple` and `event_sequence` -/

theorem after_calls_front {σ G α : Type} (f : σ → G → α × σ × G) (k : Nat) (s : σ) (g : G) :
    after_calls f (k + 1) s g = after_calls f k (f s g).2.1 (f s g).2.2 := by
  induction k with
  | zero => rfl
  | succ k ih => rw [after_calls_succ, ih]; rfl

theorem returned_front {σ G α : Type} (f : σ → G → α × σ × G) (m : Nat) (s : σ) (g : G) :
    returned f s g (m + 2) = returned f (f s g).2.1 (f s g).2.2 (m + 1) := by
  show (f (after_calls f (m + 1) s g).1 (after_calls f (m + 1) s g).2).1 = _
  rw [after_calls_front]
  rfl

/-- The loop that fills the array makes `k` successive calls of the
distribution object: the array holds the samples of these calls in the order
of the calls, and the object and the random source are as these calls leave
them. -/
theorem fill_eq {G R : Type} (T : distribution G R) (k : Nat) :
    ∀ (st : T.State) (g : G),
      (T.fill k st g).1.1 = (List.range k).map (fun m => returned T.call st g (m + 1))
      ∧ (T.fill k st g).2 = after_calls T.call k st g := by
  induction k with
  | zero => intro st g; exact ⟨rfl, rfl⟩
  | succ k ih =>
    intro st g
    obtain ⟨h1, h2⟩ := ih (T.call st g).2.1 (T.call st g).2.2
    constructor
    · rw [List.range_succ_eq_map, List.map_cons, List.map_map]
      simp only [distribution.fill]
      rw [h1]
      congr 1
      apply List.map_congr_left
      intro m _
      exact (returned_front T.call m st g).symm
    · rw [after_calls_front, ← h2]
      rfl

/-- Reading the positions `0 .. n - 1` of a list of length `n` gives the
list. -/
theorem map_getD_range {α : Type} (l : List α) (d : α) (n : Nat) (h : l.length = n) :
    (List.range n).map (fun m => l.getD m d) = l := by
  apply List.ext_getElem
  · simp [h]
  · intro i h1 h2
    rw [List.getElem_map, List.getElem_range]
    exact List.getD_eq_getElem _ _ h2

/-- In a sorted list the value at position `k` is the `(k + 1)`-th
smallest. -/
theorem nth_smallest_sorted {α : Type} [LinearOrder α] (l : List α)
    (hs : l.Sorted (fun x y => x ≤ y)) (k : Nat) (hk : k < l.length) :
    nth_smallest l (k + 1) l[k] := by
  have hmono : ∀ (a b : Nat) (ha : a < l.length) (hb : b < l.length), a ≤ b → l[a] ≤ l[b] := by
    intro a b ha hb hab
    have hfin : (⟨a, ha⟩ : Fin l.length) ≤ ⟨b, hb⟩ := by rw [Fin.le_def]; exact hab
    exact hs.rel_get_of_le hfin
  constructor
  · have hsplit : l.countP (fun y => decide (y < l[k]))
        = (l.take k).countP (fun y => decide (y < l[k]))
          + (l.drop k).countP (fun y => decide (y < l[k])) := by
      rw [← List.countP_append, List.take_append_drop]
    have hdrop : (l.drop k).countP (fun y => decide (y < l[k])) = 0 := by
      rw [List.countP_eq_zero]
      intro a ha
      obtain ⟨i, hi, rfl⟩ := List.mem_drop_iff_getElem.1 ha
      simp only [decide_eq_true_eq, not_lt]
      exact hmono k (k + i) hk (by omega) (by omega)
    have htake : (l.take k).countP (fun y => decide (y < l[k])) ≤ k :=
      le_trans (List.countP_le_length _) (List.length_take_le k l)
    omega
  · have hsplit : l.countP (fun y => decide (y ≤ l[k]))
        = (l.take (k + 1)).countP (fun y => decide (y ≤ l[k]))
          + (l.drop (k + 1)).countP (fun y => decide (y ≤ l[k])) := by
      rw [← List.countP_append, List.take_append_drop]
    have htake : (l.take (k + 1)).countP (fun y => decide (y ≤ l[k])) = (l.take (k + 1)).length := by
      rw [List.countP_eq_length]
      intro a ha
      obtain ⟨i, hi, rfl⟩ := List.mem_take_iff_getElem.1 ha
      simp only [decide_eq_true_eq]
      exact hmono i k (by omega) hk (by omega)
    have hlen : (l.take (k + 1)).length = k + 1 := List.length_take_of_le (by omega)
    omega

/-- Being the `j`-th smallest does not depend on the order of the values. -/
theorem nth_smallest_perm {α : Type} [LinearOrder α] (l l2 : List α) (h : l.Perm l2) (j : Nat)
    (x : α) (hx : nth_smallest l j x) : nth_smallest l2 j x := by
  unfold nth_smallest at hx ⊢
  rw [← h.countP_eq, ← h.countP_eq]
  exact hx

/-- Position `j - 1` of the sorted array holds the `j`-th smallest of the
values of the array. -/
theorem nth_smallest_sort {α : Type} [LinearOrder α] {n : Nat} (a : array α n) (M : α)
    (j : Nat) (h1 : 1 ≤ j) (hn : j ≤ n) : nth_smallest a.1 j ((sort a).1.getD (j - 1) M) := by
  have hlen : j - 1 < (sort a).1.length := by rw [(sort a).2]; omega
  have h := nth_smallest_sorted (sort a).1 (sort_sorted a) (j - 1) hlen
  rw [List.getD_eq_getElem _ _ hlen]
  have hj : j - 1 + 1 = j := by omega
  rw [hj] at h
  exact nth_smallest_perm _ _ (sort_perm a) j _ h

/-- Claim C4. For `event_multiple<T, n, true>` and every `n`: with `t` the
sample drawn from `T` during the first call, each of the calls `1 .. n`
returns `t` and every call after the `n`-th returns the sentinel (for `n = 0`
already the first call does); no other sample is drawn: after every call the
random source is as that single draw left it. -/
theorem C4_multiple_true_values {G α : Type} (T : distribution G α) (n : Nat) (TIME_MAX : α)
    (s : event_multiple_true.State α) (g : G) (hs : s.i = 0) :
    (∀ j, 1 ≤ j → j ≤ n →
        returned (event_multiple_true.operator_call T n TIME_MAX) s g j = (T.draw g).1)
    ∧ (∀ j, n < j → returned (event_multiple_true.operator_call T n TIME_MAX) s g j = TIME_MAX)
    ∧ (∀ k, (after_calls (event_multiple_true.operator_call T n TIME_MAX) (k + 1) s g).2
        = (T.draw g).2) := by
  refine ⟨fun j h1 hn => ?_, fun j hn => ?_, fun k => ?_⟩
  · rw [event_multiple_true.returned_multiple_true T n TIME_MAX s g hs j h1, if_pos hn]
  · rw [event_multiple_true.returned_multiple_true T n TIME_MAX s g hs j (by omega), if_neg (by omega)]
  · rw [event_multiple_true.after_calls_multiple_true T n TIME_MAX s g hs k]

/-- Claim C5. For `event_multiple<T, n, false>`: during the first call
exactly `n` samples are drawn from `T` (the random source is left as `n`
successive calls of the distribution object leave it); the values returned
by the calls `1 .. n` are these `n` samples in ascending order (a sorted
permutation of the samples, duplicates kept), and for every `j` in `1 .. n`
the `j`-th call returns the `j`-th smallest sample; every call after the
`n`-th returns the sentinel. -/
theorem C5_multiple_false_values {G α : Type} [LinearOrder α] (T : distribution G α) (n : Nat)
    (TIME_MAX : α) (s : event_multiple_false.State α n) (g : G) (hs : s.i = 0) :
    ((List.range n).map
        (fun m => returned (event_multiple_false.operator_call T n TIME_MAX) s g (m + 1))).Sorted
      (fun x y => x ≤ y)
    ∧ ((List.range n).map
        (fun m => returned (event_multiple_false.operator_call T n TIME_MAX) s g (m + 1))).Perm
      ((List.range n).map (fun m => returned T.call T.init g (m + 1)))
    ∧ (∀ j, n < j → returned (event_multiple_false.operator_call T n TIME_MAX) s g j = TIME_MAX)
    ∧ (after_calls (event_multiple_false.operator_call T n TIME_MAX) 1 s g).2
        = (after_calls T.call n T.init g).2
    ∧ (∀ j, 1 ≤ j → j ≤ n →
        nth_smallest ((List.range n).map (fun m => returned T.call T.init g (m + 1))) j
          (returned (event_multiple_false.operator_call T n TIME_MAX) s g j)) := by
  have houts : (List.range n).map
        (fun m => returned (event_multiple_false.operator_call T n TIME_MAX) s g (m + 1))
      = (sort (T.fill n T.init g).1).1 := by
    rw [← map_getD_range (sort (T.fill n T.init g).1).1 TIME_MAX n (sort (T.fill n T.init g).1).2]
    apply List.map_congr_left
    intro m _
    rw [event_multiple_false.returned_multiple_false T n TIME_MAX s g hs (m + 1) (by omega)]
    rfl
  rw [houts]
  refine ⟨sort_sorted _, ?_, fun j hn => ?_, ?_, fun j h1 hn => ?_⟩
  · rw [← (fill_eq T n T.init g).1]
    exact sort_perm _
  · rw [event_multiple_false.returned_multiple_false T n TIME_MAX s g hs j (by omega)]
    exact List.getD_eq_default _ _ (by rw [(sort (T.fill n T.init g).1).2]; omega)
  · rw [event_multiple_false.after_calls_multiple_false T n TIME_MAX s g hs 0,
      ← (fill_eq T n T.init g).2]
  · rw [event_multiple_false.returned_multiple_false T n TIME_MAX s g hs j h1,
      ← (fill_eq T n T.init g).1]
    exact nth_smallest_sort _ TIME_MAX j h1 hn

/-- With a constant period `p` the times are `t_j = t0 + (j - 1) * p`. -/
theorem event_periodic.times_const {α : Type} [Semiring α] (t0 p : α) (k : Nat) :
    event_periodic.times t0 (fun _ => p) (k + 1) = t0 + (k : α) * p := by
  induction k with
  | zero => simp [event_periodic.times]
  | succ k ih =>
    show event_periodic.times t0 (fun _ => p) (k + 1) + p = _
    rw [ih, Nat.cast_succ, add_mul, one_mul, add_assoc]

/-- Claim C7. For `event_periodic` with constant distributions start `s`,
period `p`, end `e` and count `n`, in exact arithmetic: for every `j >= 1`
the `j`-th call returns `s + (j - 1) * p` if `j <= n` and
`s + (j - 1) * p < e`, and the sentinel otherwise (for every `p`, so also
for `p >= 0`). -/
theorem C7_periodic_constant {G α : Type} [LinearOrderedRing α] (s p e : α) (n : Nat)
    (TIME_MAX : α) (t te : α) (n0 : Nat) (g : G) (j : Nat) (hj : 1 ≤ j) :
    returned
        (event_periodic.operator_call (constant_distribution G s) (constant_distribution G p)
          (constant_distribution G e) (constant_distribution G n) TIME_MAX)
        (event_periodic.start (constant_distribution G p) t te n0) g j
      = if j ≤ n ∧ s + ((j - 1 : Nat) : α) * p < e then s + ((j - 1 : Nat) : α) * p
        else TIME_MAX := by
  rw [event_periodic.returned_periodic _ _ _ _ TIME_MAX t te n0 g j hj]
  have hp : event_periodic.period (constant_distribution G s) (constant_distribution G p)
      (constant_distribution G e) (constant_distribution G n) g = fun _ => p := rfl
  have ht : event_periodic.times
      (event_periodic.start_time (constant_distribution G s) (constant_distribution G e)
        (constant_distribution G n) g)
      (fun _ => p) j = s + ((j - 1 : Nat) : α) * p := by
    obtain ⟨k, rfl⟩ : ∃ k, j = k + 1 := ⟨j - 1, by omega⟩
    rw [event_periodic.times_const]
    rfl
  rw [hp, ht]
  rfl

/-- With the period equal to the start `s`, the times are the multiples of
`s` as long as every addition of `s` to a multiple gives the next one. -/
theorem event_periodic.times_same {α : Type} [Add α] (s : α) (js : Nat → α) (h1 : js 1 = s) :
    ∀ j, (∀ k, 1 ≤ k → k ≤ j → js k + s = js (k + 1)) →
      event_periodic.times s (fun _ => s) (j + 1) = js (j + 1) := by
  intro j
  induction j with
  | zero => intro _; rw [h1]; rfl
  | succ j ih =>
    intro h
    show event_periodic.times s (fun _ => s) (j + 1) + s = _
    rw [ih (fun k hk1 hk2 => h k hk1 (by omega)), h (j + 1) (by omega) (le_refl _)]

/-- In exact arithmetic the running sum of `j` terms `s` is `j * s`. -/
theorem event_periodic.times_same_exact {α : Type} [Semiring α] (s : α) (j : Nat) (hj : 1 ≤ j) :
    event_periodic.times s (fun _ => s) j = (j : α) * s := by
  obtain ⟨k, rfl⟩ : ∃ k, j = k + 1 := ⟨j - 1, by omega⟩
  rw [event_periodic.times_const, Nat.cast_succ, add_mul, one_mul, add_comm]

/-- Claim C8. The defaults of `event_periodic<S>`: the period samples are
drawn from the distribution type `S`, the end time `te` is the sentinel and
the count `n` is the maximum `size_t`, so the `j`-th call returns `t_j`
whenever `j` is within the count bound and `t_j` is below the sentinel. For
a constant start `s` the `j`-th call returns the running sum
`t_j = s + s + ... + s` of `j` terms, each addition made in `times_t`, and
not the sentinel, for every `j >= 1` within the count bound with `t_j` below
the sentinel; this is the `j`-th multiple of `s` whenever every addition of
`s` to a multiple of `s` up to there gives the next multiple. -/
theorem C8_periodic_defaults {G α : Type} [LinearOrder α] [Add α] (S : distribution G α)
    (SIZE_MAX : Nat) (TIME_MAX : α) (t te : α) (n0 : Nat) (g : G) (s : α) (j : Nat)
    (hj : 1 ≤ j) (hn : j ≤ SIZE_MAX)
    (hs : event_periodic.times s (fun _ => s) j < TIME_MAX) :
    event_periodic.end_time (event_never.as_distribution G TIME_MAX)
        (constant_distribution G SIZE_MAX) g = TIME_MAX
    ∧ event_periodic.count (constant_distribution G SIZE_MAX) g = SIZE_MAX
    ∧ event_periodic.period S S (event_never.as_distribution G TIME_MAX)
          (constant_distribution G SIZE_MAX) g (j + 1)
        = returned S.call S.init (S.draw g).2 j
    ∧ returned (event_periodic.operator_call_default S SIZE_MAX TIME_MAX)
        (event_periodic.start S t te n0) g j
      = (if event_periodic.times (S.draw g).1
              (event_periodic.period S S (event_never.as_distribution G TIME_MAX)
                (constant_distribution G SIZE_MAX) g) j < TIME_MAX
          then event_periodic.times (S.draw g).1
              (event_periodic.period S S (event_never.as_distribution G TIME_MAX)
                (constant_distribution G SIZE_MAX) g) j
          else TIME_MAX)
    ∧ returned (event_periodic.operator_call_default (constant_distribution G s) SIZE_MAX TIME_MAX)
        (event_periodic.start (constant_distribution G s) t te n0) g j
      = event_periodic.times s (fun _ => s) j
    ∧ returned (event_periodic.operator_call_default (constant_distribution G s) SIZE_MAX TIME_MAX)
        (event_periodic.start (constant_distribution G s) t te n0) g j ≠ TIME_MAX
    ∧ (∀ js : Nat → α, js 1 = s → (∀ k, 1 ≤ k → k < j → js k + s = js (k + 1)) →
        returned
            (event_periodic.operator_call_default (constant_distribution G s) SIZE_MAX TIME_MAX)
            (event_periodic.start (constant_distribution G s) t te n0) g j
          = js j) := by
  have hgen : ∀ (S2 : distribution G α) (t2 te2 : α),
      returned (event_periodic.operator_call_default S2 SIZE_MAX TIME_MAX)
          (event_periodic.start S2 t2 te2 n0) g j
        = (if event_periodic.times (S2.draw g).1
              (event_periodic.period S2 S2 (event_never.as_distribution G TIME_MAX)
                (constant_distribution G SIZE_MAX) g) j < TIME_MAX
          then event_periodic.times (S2.draw g).1
              (event_periodic.period S2 S2 (event_never.as_distribution G TIME_MAX)
                (constant_distribution G SIZE_MAX) g) j
          else TIME_MAX) := by
    intro S2 t2 te2
    unfold event_periodic.operator_call_default
    rw [event_periodic.returned_periodic _ _ _ _ TIME_MAX t2 te2 n0 g j hj]
    have hc : event_periodic.count (constant_distribution G SIZE_MAX) g = SIZE_MAX := rfl
    have he : event_periodic.end_time (event_never.as_distribution G TIME_MAX)
        (constant_distribution G SIZE_MAX) g = TIME_MAX := rfl
    have hst : event_periodic.start_time S2 (event_never.as_distribution G TIME_MAX)
        (constant_distribution G SIZE_MAX) g = (S2.draw g).1 := rfl
    rw [hc, he, hst]
    simp only [hn, true_and]
  have hconst : event_periodic.times ((constant_distribution G s).draw g).1
      (event_periodic.period (constant_distribution G s) (constant_distribution G s)
        (event_never.as_distribution G TIME_MAX) (constant_distribution G SIZE_MAX) g) j
      = event_periodic.times s (fun _ => s) j := rfl
  have hval : returned
      (event_periodic.operator_call_default (constant_distribution G s) SIZE_MAX TIME_MAX)
      (event_periodic.start (constant_distribution G s) t te n0) g j
      = event_periodic.times s (fun _ => s) j := by
    rw [hgen (constant_distribution G s) t te, hconst, if_pos hs]
  refine ⟨rfl, rfl, rfl, hgen S t te, hval, ?_, fun js h1 hstep => ?_⟩
  · rw [hval]
    exact ne_of_lt hs
  · rw [hval]
    obtain ⟨k, rfl⟩ : ∃ k, j = k + 1 := ⟨j - 1, by omega⟩
    exact event_periodic.times_same s js h1 k (fun i hi1 hi2 => hstep i hi1 (by omega))

/-- Claim C9. `event_never`: whatever the random source and the number of
previous calls, `operator()` returns the sentinel and leaves the generator
and the random source as they were; the returned value is the same for every
random source, of any type: the source is not read. -/
theorem C9_never {G α : Type} (TIME_MAX : α) (s : Unit) (g : G) (k : Nat) :
    event_never.operator_call TIME_MAX s g = (TIME_MAX, s, g)
    ∧ after_calls (event_never.operator_call TIME_MAX) k s g = (s, g)
    ∧ returned (event_never.operator_call TIME_MAX) s g (k + 1) = TIME_MAX
    ∧ (∀ (G2 : Type) (g2 : G2),
        (event_never.operator_call TIME_MAX s g2).1 = (event_never.operator_call TIME_MAX s g).1
        ∧ (event_never.operator_call TIME_MAX s g2).2.2 = g2) := by
  refine ⟨rfl, ?_, rfl, fun _ _ => ⟨rfl, rfl⟩⟩
  induction k with
  | zero => rfl
  | succ k ih => rw [after_calls_succ, ih]; rfl

/-! ## `call` against `peek` and `step`, and against the source's `operator()` -/

/-- Successive calls leave the generator and the random source as the same
number of steps does. -/
theorem EventGenerator.after_calls_call {G α : Type} (e : EventGenerator G α) (k : Nat)
    (s : e.State) (g : G) : after_calls e.call k s g = e.after_steps k s g := by
  induction k with
  | zero => rfl
  | succ k ih => rw [after_calls_succ, ih]; rfl

/-- The value a call returns is the pending time shown by `peek` after the
steps made so far. -/
theorem EventGenerator.returned_call {G α : Type} (e : EventGenerator G α) (k : Nat)
    (s : e.State) (g : G) : returned e.call s g (k + 1) = e.peek (e.after_steps k s g).1 := by
  rw [returned_succ, EventGenerator.after_calls_call]
  rfl

theorem Never_after_steps {G α : Type} (M : α) (k : Nat) (s : (Never G M).State) (g : G) :
    (Never G M).after_steps k s g = (s, g) := by
  induction k with
  | zero => rfl
  | succ k ih => rw [EventGenerator.after_steps, ih]; rfl

theorem Multiple_same_after_steps {G α : Type} (D : distribution G α) (n : Nat) (M : α)
    (k : Nat) (t : α) (g : G) :
    (Multiple_same D n M).after_steps k (t, 0) g = ((t, k), g) := by
  induction k with
  | zero => rfl
  | succ k ih => rw [EventGenerator.after_steps, ih]; rfl

theorem Multiple_diff_after_steps {G α : Type} [LinearOrder α] (D : distribution G α)
    (n : Nat) (M : α) (k : Nat) (l : List α) (g : G) :
    (Multiple_diff D n M).after_steps k (l, 0) g = ((l, k), g) := by
  induction k with
  | zero => rfl
  | succ k ih => rw [EventGenerator.after_steps, ih]; rfl

theorem Sequence_after_steps {G α : Type} [LinearOrder α] (Ds : List (distribution G α))
    (M : α) (k : Nat) (l : List α) (g : G) :
    (Sequence Ds M).after_steps k (l, 0) g = ((l, k), g) := by
  induction k with
  | zero => rfl
  | succ k ih => rw [EventGenerator.after_steps, ih]; rfl

theorem Periodic_after_steps {G α : Type} [LinearOrder α] [Add α] (S P E : distribution G α)
    (N : distribution G Nat) (M : α) (g : G) (k : Nat) :
    (Periodic S P E N M).after_steps k ((Periodic S P E N M).materialize g).1
        ((Periodic S P E N M).materialize g).2
      = (⟨(after_calls P.call k P.init (event_periodic.source_after_first S E N g)).1,
          event_periodic.times (event_periodic.start_time S E N g)
            (event_periodic.period S P E N g) (k + 1),
          event_periodic.end_time E N g, k, event_periodic.count N g⟩,
        (after_calls P.call k P.init (event_periodic.source_after_first S E N g)).2) := by
  induction k with
  | zero => rfl
  | succ k ih => rw [EventGenerator.after_steps, ih]; rfl

/-- The pending time of Never is what `event_never::operator()` returns. -/
theorem Never_agrees {G α : Type} (M : α) (g : G) (k : Nat) :
    (Never G M).peek ((Never G M).after_steps k ((Never G M).materialize g).1
        ((Never G M).materialize g).2).1
      = returned (event_never.operator_call M) () g (k + 1) := rfl

/-- The pending time of Multiple (`same = true`) before the `(k+1)`-th step
is what the `(k+1)`-th call of `event_multiple<T, n, true>::operator()`
returns. -/
theorem Multiple_same_agrees {G α : Type} (D : distribution G α) (n : Nat) (M : α) (g : G)
    (s : event_multiple_true.State α) (hs : s.i = 0) (k : Nat) :
    (Multiple_same D n M).peek ((Multiple_same D n M).after_steps k
        ((Multiple_same D n M).materialize g).1 ((Multiple_same D n M).materialize g).2).1
      = returned (event_multiple_true.operator_call D n M) s g (k + 1) := by
  rw [event_multiple_true.returned_multiple_true D n M s g hs (k + 1) (by omega)]
  show (Multiple_same D n M).peek
    ((Multiple_same D n M).after_steps k ((D.draw g).1, 0) (D.draw g).2).1 = _
  rw [Multiple_same_after_steps]
  show (if k < n then (D.draw g).1 else M) = _
  by_cases h : k < n
  · rw [if_pos h, if_pos (by omega)]
  · rw [if_neg h, if_neg (by omega)]

/-- The pending time of Multiple (`same = false`) before the `(k+1)`-th step
is what the `(k+1)`-th call of `event_multiple<T, n, false>::operator()`
returns. -/
theorem Multiple_diff_agrees {G α : Type} [LinearOrder α] (D : distribution G α) (n : Nat)
    (M : α) (g : G) (s : event_multiple_false.State α n) (hs : s.i = 0) (k : Nat) :
    (Multiple_diff D n M).peek ((Multiple_diff D n M).after_steps k
        ((Multiple_diff D n M).materialize g).1 ((Multiple_diff D n M).materialize g).2).1
      = returned (event_multiple_false.operator_call D n M) s g (k + 1) := by
  rw [event_multiple_false.returned_multiple_false D n M s g hs (k + 1) (by omega)]
  show (Multiple_diff D n M).peek
    ((Multiple_diff D n M).after_steps k
      ((D.fill n D.init g).1.1.insertionSort (fun x y => x ≤ y), 0) (D.fill n D.init g).2.2).1
    = _
  rw [Multiple_diff_after_steps]
  rfl

/-- The pending time of Sequence before the `(k+1)`-th step is what the
`(k+1)`-th call of `event_sequence<T...>::operator()` returns. -/
theorem Sequence_agrees {G α : Type} [LinearOrder α] (Ds : List (distribution G α)) (M : α)
    (g : G) (s : event_sequence.State α Ds.length) (hs : s.i = 0) (k : Nat) :
    (Sequence Ds M).peek ((Sequence Ds M).after_steps k
        ((Sequence Ds M).materialize g).1 ((Sequence Ds M).materialize g).2).1
      = returned (event_sequence.operator_call Ds M) s g (k + 1) := by
  rw [event_sequence.returned_sequence Ds M s g hs (k + 1) (by omega)]
  show (Sequence Ds M).peek
    ((Sequence Ds M).after_steps k
      ((details.call_distr_pack Ds g).1.1.insertionSort (fun x y => x ≤ y), 0)
      (details.call_distr_pack Ds g).2).1 = _
  rw [Sequence_after_steps]
  rfl

/-- The pending time of Periodic before the `(k+1)`-th step is what the
`(k+1)`-th call of `event_periodic<S, P, E, N>::operator()` returns. -/
theorem Periodic_agrees {G α : Type} [LinearOrder α] [Add α] (S P E : distribution G α)
    (N : distribution G Nat) (M : α) (g : G) (t te : α) (n0 : Nat) (k : Nat) :
    (Periodic S P E N M).peek ((Periodic S P E N M).after_steps k
        ((Periodic S P E N M).materialize g).1 ((Periodic S P E N M).materialize g).2).1
      = returned (event_periodic.operator_call S P E N M) (event_periodic.start P t te n0) g
          (k + 1) := by
  rw [event_periodic.returned_periodic S P E N M t te n0 g (k + 1) (by omega),
    Periodic_after_steps]
  rfl

/-- Claim C10. For every generator of the interface (so for each variant)
and every state, reachable or not: `call(rng)` returns the value `peek()`
returns in that state and leaves the generator and the random source as
`step(rng)` leaves them; hence `k` calls leave them as `k` steps do, and the
value the next call returns is the `peek()` taken before that step. For the
variants Never, Multiple, Sequence and Periodic this value is moreover the
one that the corresponding call of `operator()` of `lib/generate/event.hpp`
returns on the same random source. -/
theorem C10_call_is_peek_then_step {G α : Type} [LinearOrder α] [Add α]
    (e : EventGenerator G α) (s : e.State) (g : G) (k : Nat)
    (D S P E : distribution G α) (N : distribution G Nat) (Ds : List (distribution G α))
    (n : Nat) (TIME_MAX : α) (s1 : event_multiple_true.State α)
    (s2 : event_multiple_false.State α n) (s3 : event_sequence.State α Ds.length)
    (t te : α) (n0 : Nat) (h1 : s1.i = 0) (h2 : s2.i = 0) (h3 : s3.i = 0) :
    ((e.call s g).1 = e.peek s ∧ (e.call s g).2 = e.step s g)
    ∧ (after_calls e.call k s g = e.after_steps k s g
      ∧ returned e.call s g (k + 1) = e.peek (e.after_steps k s g).1)
    ∧ returned (Never G TIME_MAX).call ((Never G TIME_MAX).materialize g).1
          ((Never G TIME_MAX).materialize g).2 (k + 1)
        = returned (event_never.operator_call TIME_MAX) () g (k + 1)
    ∧ returned (Multiple_same D n TIME_MAX).call ((Multiple_same D n TIME_MAX).materialize g).1
          ((Multiple_same D n TIME_MAX).materialize g).2 (k + 1)
        = returned (event_multiple_true.operator_call D n TIME_MAX) s1 g (k + 1)
    ∧ returned (Multiple_diff D n TIME_MAX).call ((Multiple_diff D n TIME_MAX).materialize g).1
          ((Multiple_diff D n TIME_MAX).materialize g).2 (k + 1)
        = returned (event_multiple_false.operator_call D n TIME_MAX) s2 g (k + 1)
    ∧ returned (Sequence Ds TIME_MAX).call ((Sequence Ds TIME_MAX).materialize g).1
          ((Sequence Ds TIME_MAX).materialize g).2 (k + 1)
        = returned (event_sequence.operator_call Ds TIME_MAX) s3 g (k + 1)
    ∧ returned (Periodic S P E N TIME_MAX).call ((Periodic S P E N TIME_MAX).materialize g).1
          ((Periodic S P E N TIME_MAX).materialize g).2 (k + 1)
        = returned (event_periodic.operator_call S P E N TIME_MAX)
            (event_periodic.start P t te n0) g (k + 1) := by
  refine ⟨⟨rfl, rfl⟩, ⟨EventGenerator.after_calls_call e k s g,
    EventGenerator.returned_call e k s g⟩, ?_, ?_, ?_, ?_, ?_⟩
  · rw [EventGenerator.returned_call]; exact Never_agrees TIME_MAX g k
  · rw [EventGenerator.returned_call]; exact Multiple_same_agrees D n TIME_MAX g s1 h1 k
  · rw [EventGenerator.returned_call]; exact Multiple_diff_agrees D n TIME_MAX g s2 h2 k
  · rw [EventGenerator.returned_call]; exact Sequence_agrees Ds TIME_MAX g s3 h3 k
  · rw [EventGenerator.returned_call]; exact Periodic_agrees S P E N TIME_MAX g t te n0 k

/-! ## The merge combinator: pending time and steps -/

theorem Merge.foldr_min_le {α : Type} [LinearOrder α] (x : α) (xs : List α) :
    xs.foldr min x ≤ x ∧ ∀ y ∈ xs, xs.foldr min x ≤ y := by
  induction xs with
  | nil => exact ⟨le_refl _, fun y hy => absurd hy (List.not_mem_nil y)⟩
  | cons a xs ih =>
    refine ⟨le_trans (min_le_right _ _) ih.1, fun y hy => ?_⟩
    rcases List.mem_cons.1 hy with rfl | hy
    · exact min_le_left _ _
    · exact le_trans (min_le_right _ _) (ih.2 y hy)

theorem Merge.foldr_min_mem {α : Type} [LinearOrder α] (x : α) (xs : List α) :
    xs.foldr min x ∈ x :: xs := by
  induction xs with
  | nil => exact List.mem_cons_self _ _
  | cons a xs ih =>
    rcases min_choice a (xs.foldr min x) with h | h
    · rw [List.foldr_cons, h]; exact List.mem_cons_of_mem _ (List.mem_cons_self _ _)
    · rw [List.foldr_cons, h]
      rcases List.mem_cons.1 ih with h2 | h2
      · rw [h2]; exact List.mem_cons_self _ _
      · exact List.mem_cons_of_mem _ (List.mem_cons_of_mem _ h2)

/-- The minimum is at most every pending time. -/
theorem Merge.minimum_le {α : Type} [LinearOrder α] (M : α) (v : List α) (y : α) (hy : y ∈ v) :
    Merge.minimum M v ≤ y := by
  cases v with
  | nil => exact absurd hy (List.not_mem_nil y)
  | cons x xs =>
    rcases List.mem_cons.1 hy with rfl | hy
    · exact (Merge.foldr_min_le _ xs).1
    · exact (Merge.foldr_min_le x xs).2 y hy

/-- The minimum of at least one pending time is one of them. -/
theorem Merge.minimum_mem {α : Type} [LinearOrder α] (M : α) (v : List α) (hv : v ≠ []) :
    Merge.minimum M v ∈ v := by
  cases v with
  | nil => exact absurd rfl hv
  | cons x xs => exact Merge.foldr_min_mem x xs

theorem Merge.mem_pending {G α : Type} {N : Nat} (es : Fin N → EventGenerator G α)
    (s : (i : Fin N) → (es i).State) (y : α) :
    y ∈ Merge.pending es s ↔ ∃ i, (es i).peek (s i) = y := by
  simp [Merge.pending]

/-- The pending time of a merge is at most the pending time of every
sub-generator. -/
theorem Merge.peek_le {G α : Type} [LinearOrder α] {N : Nat} (es : Fin N → EventGenerator G α)
    (M : α) (s : (i : Fin N) → (es i).State) (i : Fin N) :
    Merge.peek es M s ≤ (es i).peek (s i) :=
  Merge.minimum_le M _ _ ((Merge.mem_pending es s _).2 ⟨i, rfl⟩)

/-- The pending time of a merge of at least one sub-generator is the pending
time of one of them. -/
theorem Merge.peek_attained {G α : Type} [LinearOrder α] {N : Nat}
    (es : Fin N → EventGenerator G α) (M : α) (s : (i : Fin N) → (es i).State) (hN : 0 < N) :
    ∃ i, (es i).peek (s i) = Merge.peek es M s := by
  have hne : Merge.pending es s ≠ [] := by
    intro h
    have hlen : (Merge.pending es s).length = N := by simp [Merge.pending]
    rw [h] at hlen
    simp at hlen
    omega
  exact (Merge.mem_pending es s _).1 (Merge.minimum_mem M _ hne)

/-- The pending time of a merge without sub-generators is the sentinel. -/
theorem Merge.peek_empty {G α : Type} [LinearOrder α] (es : Fin 0 → EventGenerator G α)
    (M : α) (s : (i : Fin 0) → (es i).State) : Merge.peek es M s = M := rfl

/-- With at least one sub-generator a step finds one holding the minimum. -/
theorem Merge.index_some {G α : Type} [LinearOrder α] {N : Nat}
    (es : Fin N → EventGenerator G α) (M : α) (s : (i : Fin N) → (es i).State) (hN : 0 < N) :
    ∃ i, Merge.index es M s = some i ∧ (es i).peek (s i) = Merge.peek es M s := by
  obtain ⟨i0, hi0⟩ := Merge.peek_attained es M s hN
  cases h : Merge.index es M s with
  | none =>
    unfold Merge.index at h
    rw [List.find?_eq_none] at h
    have := h i0 (List.mem_finRange i0)
    simp [hi0] at this
  | some i =>
    refine ⟨i, rfl, ?_⟩
    unfold Merge.index at h
    have := List.find?_some h
    simpa using this

/-- A step of a merge of at least one sub-generator advances the first
sub-generator holding the minimum and keeps the other ones. -/
theorem Merge.step_eq {G α : Type} [LinearOrder α] {N : Nat} (es : Fin N → EventGenerator G α)
    (M : α) (s : (i : Fin N) → (es i).State) (g : G) (i : Fin N)
    (hi : Merge.index es M s = some i) :
    Merge.step es M s g
      = (Function.update s i ((es i).step (s i) g).1, ((es i).step (s i) g).2) := by
  unfold Merge.step
  rw [hi]

/-- The states `k` steps lead to are reachable. -/
theorem EventGenerator.reachable_after_steps {G α : Type} (e : EventGenerator G α)
    (s : e.State) (g : G) (k : Nat) : e.reachable s (e.after_steps k s g).1 := by
  induction k with
  | zero => exact EventGenerator.reachable.start
  | succ k ih => exact EventGenerator.reachable.step _ _ ih

/-- In a state a merge reaches, every sub-generator is in a state it reaches
by steps of its own. -/
theorem Merge.reachable_sub {G α : Type} [LinearOrder α] {N : Nat}
    (es : Fin N → EventGenerator G α) (M : α) (s0 s : (i : Fin N) → (es i).State)
    (h : (Merge es M).reachable s0 s) (i : Fin N) : (es i).reachable (s0 i) (s i) := by
  induction h with
  | start => exact EventGenerator.reachable.start
  | step s g _ ih =>
    show (es i).reachable (s0 i) ((Merge.step es M s g).1 i)
    cases hidx : Merge.index es M s with
    | none =>
      have : Merge.step es M s g = (s, g) := by unfold Merge.step; rw [hidx]
      rw [this]; exact ih
    | some j =>
      rw [Merge.step_eq es M s g j hidx]
      dsimp only
      by_cases hij : i = j
      · subst hij
        rw [Function.update_same]
        exact EventGenerator.reachable.step _ _ ih
      · rw [Function.update_noteq hij]
        exact ih

/-- A merge of generators that keep the common contract keeps it. -/
theorem Merge.ordered_merge {G α : Type} [LinearOrder α] {N : Nat}
    (es : Fin N → EventGenerator G α) (M : α) (s0 : (i : Fin N) → (es i).State)
    (h : ∀ i, (es i).ordered M (s0 i)) : (Merge es M).ordered M s0 := by
  intro s hs g
  have hsub := fun i => h i (s i) (Merge.reachable_sub es M s0 s hs i)
  show Merge.peek es M s ≤ Merge.peek es M (Merge.step es M s g).1
    ∧ Merge.peek es M s ≤ M
    ∧ (Merge.peek es M s = M → Merge.peek es M (Merge.step es M s g).1 = M)
  rcases Nat.eq_zero_or_pos N with hN | hN
  · subst hN
    rw [Merge.peek_empty, Merge.peek_empty]
    exact ⟨le_refl _, le_refl _, fun _ => rfl⟩
  · obtain ⟨j, hj, hjm⟩ := Merge.index_some es M s hN
    rw [Merge.step_eq es M s g j hj]
    have hpt : ∀ i, (es i).peek (s i)
        ≤ (es i).peek (Function.update s j ((es j).step (s j) g).1 i)
        ∧ ((es i).peek (s i) = M →
            (es i).peek (Function.update s j ((es j).step (s j) g).1 i) = M) := by
      intro i
      by_cases hij : i = j
      · subst hij
        rw [Function.update_same]
        exact ⟨(hsub i g).1, (hsub i g).2.2⟩
      · rw [Function.update_noteq hij]
        exact ⟨le_refl _, fun h => h⟩
    obtain ⟨i2, hi2⟩ := Merge.peek_attained es M
      (Function.update s j ((es j).step (s j) g).1) hN
    obtain ⟨i1, hi1⟩ := Merge.peek_attained es M s hN
    refine ⟨?_, ?_, ?_⟩
    · show Merge.peek es M s ≤ Merge.peek es M (Function.update s j ((es j).step (s j) g).1)
      rw [← hi2]
      exact le_trans (Merge.peek_le es M s i2) (hpt i2).1
    · rw [← hi1]; exact (hsub i1 g).2.1
    · intro hM
      show Merge.peek es M (Function.update s j ((es j).step (s j) g).1) = M
      rw [← hi2]
      apply (hpt i2).2
      exact le_antisymm (hsub i2 g).2.1 (by rw [← hM]; exact Merge.peek_le es M s i2)

/-- The stream of calls of a generator that keeps the common contract is
well-formed. -/
theorem EventGenerator.well_formed_of_ordered {G α : Type} [Preorder α]
    (e : EventGenerator G α) (M : α) (s : e.State) (g : G) (h : e.ordered M s) :
    well_formed M (returned e.call s g) := by
  have hstep : ∀ k, returned e.call s g (k + 1) ≤ returned e.call s g (k + 2)
      ∧ (returned e.call s g (k + 1) = M → returned e.call s g (k + 2) = M) := by
    intro k
    rw [EventGenerator.returned_call, EventGenerator.returned_call]
    have := h _ (EventGenerator.reachable_after_steps e s g k) (e.after_steps k s g).2
    exact ⟨this.1, this.2.2⟩
  have hall : ∀ d k, returned e.call s g (k + 1) ≤ returned e.call s g (k + 1 + d)
      ∧ (returned e.call s g (k + 1) = M → returned e.call s g (k + 1 + d) = M) := by
    intro d
    induction d with
    | zero => intro k; exact ⟨le_refl _, fun h => h⟩
    | succ d ih =>
      intro k
      have h1 := ih k
      have h2 := hstep (k + d)
      have e1 : k + d + 1 = k + 1 + d := by omega
      have e2 : k + d + 2 = k + 1 + (d + 1) := by omega
      rw [e1, e2] at h2
      exact ⟨le_trans h1.1 h2.1, fun hm => h2.2 (h1.2 hm)⟩
  intro j j2 hj hjj
  obtain ⟨k, rfl⟩ : ∃ k, j = k + 1 := ⟨j - 1, by omega⟩
  obtain ⟨d, rfl⟩ : ∃ d, j2 = k + 1 + d := ⟨j2 - (k + 1), by omega⟩
  exact hall d k

/-! ## The merge combinator: which call returns which event -/

theorem Merge.advances_le_succ {G α : Type} [LinearOrder α] {N : Nat}
    (es : Fin N → EventGenerator G α) (M : α) (s : (i : Fin N) → (es i).State) (g : G)
    (k : Nat) (i : Fin N) :
    Merge.advances es M s g k i ≤ Merge.advances es M s g (k + 1) i :=
  Nat.le_add_right _ _

theorem Merge.advances_mono {G α : Type} [LinearOrder α] {N : Nat}
    (es : Fin N → EventGenerator G α) (M : α) (s : (i : Fin N) → (es i).State) (g : G)
    (i : Fin N) (m k : Nat) (h : m ≤ k) :
    Merge.advances es M s g m i ≤ Merge.advances es M s g k i := by
  induction k with
  | zero =>
    have h0 : m = 0 := by omega
    rw [h0]
  | succ k ih =>
    by_cases hk : m = k + 1
    · rw [hk]
    · exact le_trans (ih (by omega)) (Merge.advances_le_succ es M s g k i)

/-- The call `m + 1` advances the sub-generator `i`: the count of `i` grows
by one. -/
theorem Merge.advances_at {G α : Type} [LinearOrder α] {N : Nat}
    (es : Fin N → EventGenerator G α) (M : α) (s : (i : Fin N) → (es i).State) (g : G)
    (m : Nat) (i : Fin N)
    (h : Merge.index es M ((Merge es M).after_steps m s g).1 = some i) :
    Merge.advances es M s g (m + 1) i = Merge.advances es M s g m i + 1 := by
  show Merge.advances es M s g m i + (if _ then 1 else 0) = _
  rw [if_pos h]

/-- The call `m + 1` does not advance the sub-generator `i`: the count of `i`
stays. -/
theorem Merge.advances_not_at {G α : Type} [LinearOrder α] {N : Nat}
    (es : Fin N → EventGenerator G α) (M : α) (s : (i : Fin N) → (es i).State) (g : G)
    (m : Nat) (i : Fin N)
    (h : Merge.index es M ((Merge es M).after_steps m s g).1 ≠ some i) :
    Merge.advances es M s g (m + 1) i = Merge.advances es M s g m i := by
  show Merge.advances es M s g m i + (if _ then 1 else 0) = _
  rw [if_neg h, Nat.add_zero]

/-- An event the first `k` calls have taken from the sub-generator `i` was
returned by exactly one of these calls. -/
theorem Merge.returned_once {G α : Type} [LinearOrder α] {N : Nat}
    (es : Fin N → EventGenerator G α) (M : α) (s : (i : Fin N) → (es i).State) (g : G)
    (i : Fin N) (c : Nat) (k : Nat) (hc : c < Merge.advances es M s g k i) :
    ∃! m, m < k ∧ Merge.index es M ((Merge es M).after_steps m s g).1 = some i
      ∧ Merge.advances es M s g m i = c := by
  induction k with
  | zero => exact absurd hc (Nat.not_lt_zero _)
  | succ k ih =>
    by_cases hck : c < Merge.advances es M s g k i
    · obtain ⟨m, ⟨hm1, hm2, hm3⟩, huniq⟩ := ih hck
      refine ⟨m, ⟨by omega, hm2, hm3⟩, ?_⟩
      rintro m2 ⟨h1, h2, h3⟩
      by_cases hm2k : m2 = k
      · subst hm2k; omega
      · exact huniq m2 ⟨by omega, h2, h3⟩
    · have hidx : Merge.index es M ((Merge es M).after_steps k s g).1 = some i := by
        by_contra hne
        rw [Merge.advances_not_at es M s g k i hne] at hc
        exact hck hc
      rw [Merge.advances_at es M s g k i hidx] at hc
      have hceq : Merge.advances es M s g k i = c := by omega
      refine ⟨k, ⟨by omega, hidx, hceq⟩, ?_⟩
      rintro m2 ⟨h1, h2, h3⟩
      by_contra hne
      have hlt : m2 + 1 ≤ k := by omega
      have := Merge.advances_mono es M s g i (m2 + 1) k hlt
      rw [Merge.advances_at es M s g m2 i h2] at this
      omega

/-- The first `k` calls of a merge of at least one sub-generator take `k`
events in all. -/
theorem Merge.advances_sum {G α : Type} [LinearOrder α] {N : Nat}
    (es : Fin N → EventGenerator G α) (M : α) (s : (i : Fin N) → (es i).State) (g : G)
    (hN : 0 < N) (k : Nat) : ∑ i, Merge.advances es M s g k i = k := by
  induction k with
  | zero => simp [Merge.advances]
  | succ k ih =>
    obtain ⟨j, hj, _⟩ := Merge.index_some es M ((Merge es M).after_steps k s g).1 hN
    have : ∀ i, Merge.advances es M s g (k + 1) i
        = Merge.advances es M s g k i + (if j = i then 1 else 0) := by
      intro i
      show Merge.advances es M s g k i + (if _ then 1 else 0) = _
      rw [hj]
      simp
    simp only [this, Finset.sum_add_distrib, ih, Finset.sum_ite_eq, Finset.mem_univ, if_true]

/-- The state of a generator with pure steps after `c` steps does not depend
on the random sources of the steps. -/
theorem EventGenerator.pure_after_steps {G α : Type} (e : EventGenerator G α)
    (h : e.pure_step) (s : e.State) (g g2 : G) (c : Nat) :
    (e.after_steps c s g).1 = (e.after_steps c s g2).1 := by
  induction c with
  | zero => rfl
  | succ c ih =>
    show (e.step (e.after_steps c s g).1 (e.after_steps c s g).2).1
      = (e.step (e.after_steps c s g2).1 (e.after_steps c s g2).2).1
    rw [ih]
    exact h _ _ _

/-- In a merge of generators with pure steps, each sub-generator is after `k`
calls in the state its own steps lead to: as many steps as the calls have
advanced it. -/
theorem Merge.state_after_steps {G α : Type} [LinearOrder α] {N : Nat}
    (es : Fin N → EventGenerator G α) (M : α) (s : (i : Fin N) → (es i).State) (g : G)
    (hp : ∀ i, (es i).pure_step) (k : Nat) (i : Fin N) :
    ((Merge es M).after_steps k s g).1 i
      = ((es i).after_steps (Merge.advances es M s g k i) (s i) g).1 := by
  induction k generalizing i with
  | zero => rfl
  | succ k ih =>
    show (Merge.step es M ((Merge es M).after_steps k s g).1
      ((Merge es M).after_steps k s g).2).1 i = _
    cases hidx : Merge.index es M ((Merge es M).after_steps k s g).1 with
    | none =>
      have hst : Merge.step es M ((Merge es M).after_steps k s g).1
          ((Merge es M).after_steps k s g).2
          = (((Merge es M).after_steps k s g).1, ((Merge es M).after_steps k s g).2) := by
        unfold Merge.step; rw [hidx]
      rw [hst, Merge.advances_not_at es M s g k i (by rw [hidx]; exact fun h => nomatch h)]
      exact ih i
    | some j =>
      rw [Merge.step_eq es M _ _ j hidx]
      dsimp only
      by_cases hij : i = j
      · subst hij
        rw [Function.update_same, Merge.advances_at es M s g k i hidx, ih i]
        exact (hp i) _ _ _
      · rw [Function.update_noteq hij, Merge.advances_not_at es M s g k i
          (by rw [hidx]; exact fun h => hij (Option.some.inj h).symm)]
        exact ih i

/-- The call `k + 1` of a merge of generators with pure steps returns the
next event of the sub-generator it advances. -/
theorem Merge.returned_event {G α : Type} [LinearOrder α] {N : Nat}
    (es : Fin N → EventGenerator G α) (M : α) (s : (i : Fin N) → (es i).State) (g : G)
    (hp : ∀ i, (es i).pure_step) (k : Nat) (j : Fin N)
    (hj : Merge.index es M ((Merge es M).after_steps k s g).1 = some j) :
    returned (Merge es M).call s g (k + 1)
      = (es j).event (s j) g (Merge.advances es M s g k j) := by
  rw [EventGenerator.returned_call]
  show Merge.peek es M ((Merge es M).after_steps k s g).1 = _
  have h1 := List.find?_some hj
  simp only [decide_eq_true_eq] at h1
  rw [← h1, Merge.state_after_steps es M s g hp k j]
  rfl

/-! ## The merge combinator: finitely many events -/

/-- The pending time of a sub-generator of a merge of generators with pure
steps, after `k` calls of the merge, is its next event. -/
theorem Merge.sub_peek {G α : Type} [LinearOrder α] {N : Nat}
    (es : Fin N → EventGenerator G α) (M : α) (s : (i : Fin N) → (es i).State) (g : G)
    (hp : ∀ i, (es i).pure_step) (k : Nat) (i : Fin N) :
    (es i).peek (((Merge es M).after_steps k s g).1 i)
      = (es i).event (s i) g (Merge.advances es M s g k i) := by
  rw [Merge.state_after_steps es M s g hp k i]
  rfl

/-- While events are left, a call returns an event and not the sentinel, and
no sub-generator is advanced past its last event. -/
theorem Merge.advances_le {G α : Type} [LinearOrder α] {N : Nat}
    (es : Fin N → EventGenerator G α) (M : α) (s : (i : Fin N) → (es i).State) (g : G)
    (hN : 0 < N) (hp : ∀ i, (es i).pure_step) (n : Fin N → Nat)
    (hfin : ∀ i c, (es i).event (s i) g c < M ↔ c < n i) (k : Nat) (hk : k ≤ ∑ i, n i) :
    (∀ i, Merge.advances es M s g k i ≤ n i)
    ∧ (k < ∑ i, n i → returned (Merge es M).call s g (k + 1) < M) := by
  have hlt : ∀ k, (∀ i, Merge.advances es M s g k i ≤ n i) → k < ∑ i, n i →
      returned (Merge es M).call s g (k + 1) < M
      ∧ ∀ i, Merge.advances es M s g (k + 1) i ≤ n i := by
    intro k hle hk
    have hsum := Merge.advances_sum es M s g hN k
    have hex : ∃ i ∈ Finset.univ, Merge.advances es M s g k i < n i := by
      apply Finset.exists_lt_of_sum_lt
      rw [hsum]; exact hk
    obtain ⟨i0, _, hi0⟩ := hex
    obtain ⟨j, hj, hjm⟩ := Merge.index_some es M ((Merge es M).after_steps k s g).1 hN
    have hret := Merge.returned_event es M s g hp k j hj
    have hbelow : returned (Merge es M).call s g (k + 1) < M := by
      rw [EventGenerator.returned_call]
      show Merge.peek es M ((Merge es M).after_steps k s g).1 < M
      refine lt_of_le_of_lt (Merge.peek_le es M _ i0) ?_
      rw [Merge.sub_peek es M s g hp k i0]
      exact (hfin i0 _).2 hi0
    refine ⟨hbelow, fun i => ?_⟩
    by_cases hij : i = j
    · subst hij
      rw [Merge.advances_at es M s g k i hj]
      rw [hret] at hbelow
      exact (hfin i _).1 hbelow
    · rw [Merge.advances_not_at es M s g k i
        (by rw [hj]; exact fun h => hij (Option.some.inj h).symm)]
      exact hle i
  induction k with
  | zero => exact ⟨fun i => Nat.zero_le _, fun h => (hlt 0 (fun i => Nat.zero_le _) h).1⟩
  | succ k ih =>
    have ih1 := (ih (by omega)).1
    have hstep := hlt k ih1 (by omega)
    exact ⟨hstep.2, fun h => (hlt (k + 1) hstep.2 h).1⟩

/-- After as many calls as there are events, every sub-generator has been
advanced past all its events. -/
theorem Merge.advances_total {G α : Type} [LinearOrder α] {N : Nat}
    (es : Fin N → EventGenerator G α) (M : α) (s : (i : Fin N) → (es i).State) (g : G)
    (hN : 0 < N) (hp : ∀ i, (es i).pure_step) (n : Fin N → Nat)
    (hfin : ∀ i c, (es i).event (s i) g c < M ↔ c < n i) (i : Fin N) :
    Merge.advances es M s g (∑ i, n i) i = n i := by
  have hle := (Merge.advances_le es M s g hN hp n hfin (∑ i, n i) (le_refl _)).1
  have hsum := Merge.advances_sum es M s g hN (∑ i, n i)
  exact (Finset.sum_eq_sum_iff_of_le (fun i _ => hle i)).1 hsum i (Finset.mem_univ i)

/-- Once every event has been returned the merge returns the sentinel. -/
theorem Merge.returned_sentinel {G α : Type} [LinearOrder α] {N : Nat}
    (es : Fin N → EventGenerator G α) (M : α) (s : (i : Fin N) → (es i).State) (g : G)
    (hN : 0 < N) (hp : ∀ i, (es i).pure_step) (ho : ∀ i, (es i).ordered M (s i))
    (n : Fin N → Nat) (hfin : ∀ i c, (es i).event (s i) g c < M ↔ c < n i) (k : Nat)
    (hk : (∑ i, n i) < k) : returned (Merge es M).call s g k = M := by
  have hfirst : returned (Merge es M).call s g ((∑ i, n i) + 1) = M := by
    rw [EventGenerator.returned_call]
    show Merge.peek es M ((Merge es M).after_steps (∑ i, n i) s g).1 = M
    obtain ⟨i, hi⟩ := Merge.peek_attained es M ((Merge es M).after_steps (∑ i, n i) s g).1 hN
    rw [← hi]
    have hle : (es i).peek (((Merge es M).after_steps (∑ i, n i) s g).1 i) ≤ M :=
      (ho i _ (Merge.reachable_sub es M s _
        (EventGenerator.reachable_after_steps (Merge es M) s g _) i) g).2.1
    refine le_antisymm hle (not_lt.1 ?_)
    rw [Merge.sub_peek es M s g hp _ i, Merge.advances_total es M s g hN hp n hfin i, hfin i]
    exact Nat.lt_irrefl _
  have hw := EventGenerator.well_formed_of_ordered (Merge es M) M s g
    (Merge.ordered_merge es M s ho)
  exact (hw ((∑ i, n i) + 1) k (by omega) (by omega)).2 hfirst

/-! ## The merge combinator: one sub-generator, none, and the variants -/

theorem Merge.single_after_steps {G α : Type} [LinearOrder α] (e : EventGenerator G α) (M : α)
    (s : e.State) (g : G) (k : Nat) :
    (Merge (fun _ : Fin 1 => e) M).after_steps k (fun _ => s) g
      = (fun _ => (e.after_steps k s g).1, (e.after_steps k s g).2) := by
  induction k with
  | zero => rfl
  | succ k ih =>
    show Merge.step (fun _ : Fin 1 => e) M
      ((Merge (fun _ : Fin 1 => e) M).after_steps k (fun _ => s) g).1
      ((Merge (fun _ : Fin 1 => e) M).after_steps k (fun _ => s) g).2 = _
    rw [ih]
    obtain ⟨j, hj, _⟩ := Merge.index_some (fun _ : Fin 1 => e) M
      (fun _ => (e.after_steps k s g).1) Nat.one_pos
    rw [Merge.step_eq _ M _ _ j hj]
    refine Prod.ext ?_ rfl
    funext i
    have hij : i = j := Subsingleton.elim i j
    subst hij
    dsimp only
    rw [Function.update_same]
    rfl

/-- A merge of a single generator returns the stream of that generator. -/
theorem Merge.single_returned {G α : Type} [LinearOrder α] (e : EventGenerator G α) (M : α)
    (s : e.State) (g : G) (k : Nat) :
    returned (Merge (fun _ : Fin 1 => e) M).call (fun _ => s) g (k + 1)
      = returned e.call s g (k + 1) := by
  rw [EventGenerator.returned_call, EventGenerator.returned_call, Merge.single_after_steps]
  rfl

/-- A merge without sub-generators returns the sentinel. -/
theorem Merge.empty_returned {G α : Type} [LinearOrder α] (es : Fin 0 → EventGenerator G α)
    (M : α) (s : (i : Fin 0) → (es i).State) (g : G) (k : Nat) :
    returned (Merge es M).call s g (k + 1) = M := by
  rw [EventGenerator.returned_call]
  rfl

/-- The events the first `k` calls of a merge of generators with pure steps
return are, with their multiplicities, the first events of the
sub-generators: as many of each as the calls have advanced it. -/
theorem Merge.returned_multiset {G α : Type} [LinearOrder α] {N : Nat}
    (es : Fin N → EventGenerator G α) (M : α) (s : (i : Fin N) → (es i).State) (g : G)
    (hN : 0 < N) (hp : ∀ i, (es i).pure_step) (k : Nat) :
    Multiset.ofList ((List.range k).map (fun m => returned (Merge es M).call s g (m + 1)))
      = ∑ i, Multiset.ofList
          ((List.range (Merge.advances es M s g k i)).map (fun c => (es i).event (s i) g c)) := by
  induction k with
  | zero => simp [Merge.advances]
  | succ k ih =>
    obtain ⟨j, hj, _⟩ := Merge.index_some es M ((Merge es M).after_steps k s g).1 hN
    have hadv : ∀ i, Multiset.ofList
          ((List.range (Merge.advances es M s g (k + 1) i)).map
            (fun c => (es i).event (s i) g c))
        = Multiset.ofList
            ((List.range (Merge.advances es M s g k i)).map (fun c => (es i).event (s i) g c))
          + (if j = i then {(es j).event (s j) g (Merge.advances es M s g k j)} else 0) := by
      intro i
      by_cases hij : j = i
      · subst hij
        rw [Merge.advances_at es M s g k j hj, if_pos rfl, List.range_succ, List.map_append,
          ← Multiset.coe_add]
        rfl
      · rw [Merge.advances_not_at es M s g k i (by rw [hj]; exact fun h => hij (Option.some.inj h)),
          if_neg hij, add_zero]
    simp only [hadv, Finset.sum_add_distrib, Finset.sum_ite_eq, Finset.mem_univ, if_true]
    rw [← ih, List.range_succ, List.map_append, ← Multiset.coe_add, List.map_singleton,
      Merge.returned_event es M s g hp k j hj]
    rfl

/-! ## The variants in a merge -/

theorem Never_pure_step {G α : Type} (M : α) : (Never G M).pure_step := fun _ _ _ => rfl

theorem Never_ordered {G α : Type} [Preorder α] (M : α) (s : (Never G M).State) :
    (Never G M).ordered M s := fun _ _ _ => ⟨le_refl _, le_refl _, fun _ => rfl⟩

theorem Never_event {G α : Type} (M : α) (s : (Never G M).State) (g : G) (c : Nat) :
    (Never G M).event s g c = M := rfl

theorem Multiple_same_pure_step {G α : Type} (D : distribution G α) (n : Nat) (M : α) :
    (Multiple_same D n M).pure_step := fun _ _ _ => rfl

theorem Multiple_same_ordered {G α : Type} [Preorder α] (D : distribution G α) (n : Nat) (M : α)
    (t : α) (c : Nat) (ht : t ≤ M) : (Multiple_same D n M).ordered M (t, c) := by
  have hinv : ∀ s, (Multiple_same D n M).reachable (t, c) s → s.1 = t := by
    intro s hs
    induction hs with
    | start => rfl
    | step s g _ ih => exact ih
  intro s hs g
  have h1 := hinv s hs
  show (if s.2 < n then s.1 else M) ≤ (if s.2 + 1 < n then s.1 else M)
    ∧ (if s.2 < n then s.1 else M) ≤ M
    ∧ ((if s.2 < n then s.1 else M) = M → (if s.2 + 1 < n then s.1 else M) = M)
  rw [h1]
  by_cases h2 : s.2 + 1 < n
  · rw [if_pos h2, if_pos (by omega)]
    exact ⟨le_refl _, ht, fun h => h⟩
  · rw [if_neg h2]
    refine ⟨?_, ?_, fun _ => rfl⟩ <;> split <;> first | exact ht | exact le_refl _

theorem Multiple_same_event {G α : Type} (D : distribution G α) (n : Nat) (M : α) (t : α)
    (g : G) (c : Nat) : (Multiple_same D n M).event (t, 0) g c = if c < n then t else M := by
  unfold EventGenerator.event
  rw [Multiple_same_after_steps]
  rfl

theorem Sequence_pure_step {G α : Type} [LinearOrder α] (Ds : List (distribution G α)) (M : α) :
    (Sequence Ds M).pure_step := fun _ _ _ => rfl

theorem Sequence_ordered {G α : Type} [LinearOrder α] (Ds : List (distribution G α)) (M : α)
    (l : List α) (c : Nat) (hs : l.Sorted (fun x y => x ≤ y)) (hb : ∀ x ∈ l, x ≤ M) :
    (Sequence Ds M).ordered M (l, c) := by
  have hinv : ∀ s, (Sequence Ds M).reachable (l, c) s → s.1 = l := by
    intro s hs
    induction hs with
    | start => rfl
    | step s g _ ih => exact ih
  intro s hr g
  have h1 := hinv s hr
  show s.1.getD s.2 M ≤ s.1.getD (s.2 + 1) M ∧ s.1.getD s.2 M ≤ M
    ∧ (s.1.getD s.2 M = M → s.1.getD (s.2 + 1) M = M)
  rw [h1]
  have hw := well_formed_getD M l hs hb (s.2 + 1) (s.2 + 2) (by omega) (by omega)
  have hw2 := well_formed_getD M l hs hb (s.2 + 1) (l.length + 1) (by omega)
  refine ⟨hw.1, ?_, hw.2⟩
  by_cases hlen : s.2 < l.length
  · rw [List.getD_eq_getElem _ _ hlen]; exact hb _ (List.getElem_mem _)
  · rw [List.getD_eq_default _ _ (by omega)]

theorem Sequence_event {G α : Type} [LinearOrder α] (Ds : List (distribution G α)) (M : α)
    (l : List α) (g : G) (c : Nat) : (Sequence Ds M).event (l, 0) g c = l.getD c M := by
  unfold EventGenerator.event
  rw [Sequence_after_steps]
  rfl

/-- Multiple (`same = true`) constructed from a distribution with samples at
most the sentinel keeps the common contract. -/
theorem Multiple_same_ordered_materialize {G α : Type} [Preorder α] (D : distribution G α)
    (n : Nat) (M : α) (g : G) (hD : D.bounded M) :
    (Multiple_same D n M).ordered M ((Multiple_same D n M).materialize g).1 :=
  Multiple_same_ordered D n M (D.draw g).1 0 (hD _ _)

/-- Sequence constructed from distributions with samples at most the sentinel
keeps the common contract. -/
theorem Sequence_ordered_materialize {G α : Type} [LinearOrder α] (Ds : List (distribution G α))
    (M : α) (g : G) (hD : ∀ D ∈ Ds, D.bounded M) :
    (Sequence Ds M).ordered M ((Sequence Ds M).materialize g).1 :=
  Sequence_ordered Ds M _ 0 (List.sorted_insertionSort _ _)
    (fun x hx => call_distr_pack_bounded M Ds hD g x ((List.perm_insertionSort _ _).mem_iff.1 hx))

/-- Claim C11. Merge: in every state, `peek()` of a merge of `N`
sub-generators is the minimum of the `peek()` values of its sub-generators:
it is at most each of them and, when `N > 0`, it is one of them; it is the
sentinel when `N = 0` and when every sub-generator is exhausted (pending time
the sentinel). -/
theorem C11_merge_peek {G α : Type} [LinearOrder α] {N : Nat} (es : Fin N → EventGenerator G α)
    (TIME_MAX : α) (s : (Merge es TIME_MAX).State) :
    (∀ i, (Merge es TIME_MAX).peek s ≤ (es i).peek (s i))
    ∧ (0 < N → ∃ i, (es i).peek (s i) = (Merge es TIME_MAX).peek s)
    ∧ (N = 0 → (Merge es TIME_MAX).peek s = TIME_MAX)
    ∧ ((∀ i, (es i).peek (s i) = TIME_MAX) → (Merge es TIME_MAX).peek s = TIME_MAX) := by
  refine ⟨fun i => Merge.peek_le es TIME_MAX s i, fun hN => Merge.peek_attained es TIME_MAX s hN,
    fun hN => ?_, fun hall => ?_⟩
  · subst hN
    exact Merge.peek_empty es TIME_MAX s
  · rcases Nat.eq_zero_or_pos N with hN | hN
    · subst hN
      exact Merge.peek_empty es TIME_MAX s
    · obtain ⟨i, hi⟩ := Merge.peek_attained es TIME_MAX s hN
      show Merge.peek es TIME_MAX s = TIME_MAX
      rw [← hi]
      exact hall i

/-- Claim C12, as amended. Merge: one step of a merge of at least one
sub-generator advances exactly one sub-generator, one whose pending time is
the current minimum, by one step of its own on the random source of the
caller, and leaves all the others unchanged; a call returns that minimum and
does the same. -/
theorem C12_merge_step_one {G α : Type} [LinearOrder α] {N : Nat}
    (es : Fin N → EventGenerator G α) (TIME_MAX : α) (s : (Merge es TIME_MAX).State) (g : G)
    (hN : 0 < N) :
    ∃ i, (es i).peek (s i) = (Merge es TIME_MAX).peek s
      ∧ ((Merge es TIME_MAX).step s g).1 i = ((es i).step (s i) g).1
      ∧ ((Merge es TIME_MAX).step s g).2 = ((es i).step (s i) g).2
      ∧ (∀ j, j ≠ i → ((Merge es TIME_MAX).step s g).1 j = s j)
      ∧ ((Merge es TIME_MAX).call s g).1 = (es i).peek (s i)
      ∧ ((Merge es TIME_MAX).call s g).2 = (Merge es TIME_MAX).step s g := by
  obtain ⟨i, hi, him⟩ := Merge.index_some es TIME_MAX s hN
  have hst : (Merge es TIME_MAX).step s g
      = (Function.update s i ((es i).step (s i) g).1, ((es i).step (s i) g).2) :=
    Merge.step_eq es TIME_MAX s g i hi
  refine ⟨i, him, ?_, ?_, fun j hj => ?_, him.symm, rfl⟩
  · rw [hst]; exact Function.update_same i _ s
  · rw [hst]
  · rw [hst]; exact Function.update_noteq hj _ s

/-- Claim C13. Merge: for sub-generators that keep the common contract
(non-decreasing pending times, at most the sentinel, which is absorbing), the
stream returned by successive calls of a merge is non-decreasing with an
absorbing sentinel. When moreover the sub-generators have pure steps and the
sub-generator `i` has `n i` events before its sentinel: every such event is
returned by exactly one call, the one that advances `i` at that event; each
call returns the next event of the sub-generator it advances; the first `k`
calls return, with multiplicities, the first events of the sub-generators;
the first `n 0 + ... + n (N-1)` calls return events below the sentinel and
all later calls return the sentinel. A merge of a single generator returns
the stream of that generator and a merge of no generator returns the
sentinel. -/
theorem C13_merge_stream {G α : Type} [LinearOrder α] {N : Nat}
    (es : Fin N → EventGenerator G α) (TIME_MAX : α) (s : (Merge es TIME_MAX).State) (g : G)
    (n : Fin N → Nat) (hN : 0 < N) (ho : ∀ i, (es i).ordered TIME_MAX (s i))
    (hp : ∀ i, (es i).pure_step)
    (hfin : ∀ i c, (es i).event (s i) g c < TIME_MAX ↔ c < n i) :
    well_formed TIME_MAX (returned (Merge es TIME_MAX).call s g)
    ∧ (∀ i c, c < n i →
        ∃! m, Merge.index es TIME_MAX ((Merge es TIME_MAX).after_steps m s g).1 = some i
          ∧ Merge.advances es TIME_MAX s g m i = c)
    ∧ (∀ m i, Merge.index es TIME_MAX ((Merge es TIME_MAX).after_steps m s g).1 = some i →
        returned (Merge es TIME_MAX).call s g (m + 1)
          = (es i).event (s i) g (Merge.advances es TIME_MAX s g m i))
    ∧ (∀ k, Multiset.ofList
          ((List.range k).map (fun m => returned (Merge es TIME_MAX).call s g (m + 1)))
        = ∑ i, Multiset.ofList
            ((List.range (Merge.advances es TIME_MAX s g k i)).map
              (fun c => (es i).event (s i) g c)))
    ∧ (∀ i, Merge.advances es TIME_MAX s g (∑ i, n i) i = n i)
    ∧ (∀ k, 1 ≤ k → k ≤ ∑ i, n i → returned (Merge es TIME_MAX).call s g k < TIME_MAX)
    ∧ (∀ k, (∑ i, n i) < k → returned (Merge es TIME_MAX).call s g k = TIME_MAX)
    ∧ (∀ (e : EventGenerator G α) (s1 : e.State) (g1 : G) (k : Nat),
        returned (Merge (fun _ : Fin 1 => e) TIME_MAX).call (fun _ => s1) g1 (k + 1)
          = returned e.call s1 g1 (k + 1))
    ∧ (∀ (es0 : Fin 0 → EventGenerator G α) (s0 : (i : Fin 0) → (es0 i).State) (g0 : G)
        (k : Nat), returned (Merge es0 TIME_MAX).call s0 g0 (k + 1) = TIME_MAX) := by
  have htotal := Merge.advances_total es TIME_MAX s g hN hp n hfin
  refine ⟨EventGenerator.well_formed_of_ordered (Merge es TIME_MAX) TIME_MAX s g
      (Merge.ordered_merge es TIME_MAX s ho), fun i c hc => ?_,
    fun m i hi => Merge.returned_event es TIME_MAX s g hp m i hi,
    fun k => Merge.returned_multiset es TIME_MAX s g hN hp k, htotal, fun k h1 hk => ?_,
    fun k hk => Merge.returned_sentinel es TIME_MAX s g hN hp ho n hfin k hk,
    fun e s1 g1 k => Merge.single_returned e TIME_MAX s1 g1 k,
    fun es0 s0 g0 k => Merge.empty_returned es0 TIME_MAX s0 g0 k⟩
  · have hc2 : c < Merge.advances es TIME_MAX s g (∑ i, n i) i := by rw [htotal i]; exact hc
    obtain ⟨m, ⟨hm1, hm2, hm3⟩, _⟩ := Merge.returned_once es TIME_MAX s g i c _ hc2
    refine ⟨m, ⟨hm2, hm3⟩, ?_⟩
    rintro m2 ⟨h2, h3⟩
    have hbig : c < Merge.advances es TIME_MAX s g (max (m2 + 1) (∑ i, n i)) i :=
      lt_of_lt_of_le hc2 (Merge.advances_mono es TIME_MAX s g i _ _ (le_max_right _ _))
    obtain ⟨m3, _, huniq⟩ := Merge.returned_once es TIME_MAX s g i c _ hbig
    have e1 := huniq m ⟨lt_of_lt_of_le hm1 (le_max_right _ _), hm2, hm3⟩
    have e2 := huniq m2 ⟨lt_of_lt_of_le (Nat.lt_succ_self m2) (le_max_left _ _), h2, h3⟩
    rw [e1, e2]
  · obtain ⟨k2, rfl⟩ : ∃ k2, k = k2 + 1 := ⟨k - 1, by omega⟩
    exact (Merge.advances_le es TIME_MAX s g hN hp n hfin k2 (by omega)).2 (by omega)

/-! ## `event_periodic`: terminating conditions, periods and randomness -/

/-- Claim C22. The randomness `event_periodic` consumes. The first call draws
the count, then the end, then the start, each from the random source the
draw before left, and no period sample: the member `dp` is as constructed.
Every later call, whatever it returns and whatever was returned before, makes
one call of `dp` on the random source, leaves the source as that call leaves
it and adds the sample to `t`. -/
theorem C22_periodic_randomness {G α : Type} [LinearOrder α] [Add α]
    (S P E : distribution G α) (N : distribution G Nat) (TIME_MAX : α) (t te : α) (n0 : Nat)
    (g : G) (k : Nat) :
    ((after_calls (event_periodic.operator_call S P E N TIME_MAX) 1
          (event_periodic.start P t te n0) g).2
        = (S.draw (E.draw (N.draw g).2).2).2
      ∧ (after_calls (event_periodic.operator_call S P E N TIME_MAX) 1
          (event_periodic.start P t te n0) g).1
        = ⟨P.init, (S.draw (E.draw (N.draw g).2).2).1, (E.draw (N.draw g).2).1, 1,
            (N.draw g).1⟩)
    ∧ (∀ (s : event_periodic.State P.State α) (g2 : G), s.i ≠ 0 →
        (event_periodic.operator_call S P E N TIME_MAX s g2).2
          = (⟨(P.call s.dp g2).2.1, s.t + (P.call s.dp g2).1, s.te, s.i + 1, s.n⟩,
              (P.call s.dp g2).2.2))
    ∧ (after_calls (event_periodic.operator_call S P E N TIME_MAX) (k + 1)
          (event_periodic.start P t te n0) g).1.i = k + 1
    ∧ (after_calls (event_periodic.operator_call S P E N TIME_MAX) (k + 1)
          (event_periodic.start P t te n0) g).2
        = (after_calls P.call k P.init (S.draw (E.draw (N.draw g).2).2).2).2
    ∧ (after_calls (event_periodic.operator_call S P E N TIME_MAX) (k + 2)
          (event_periodic.start P t te n0) g).1.t
        = (after_calls (event_periodic.operator_call S P E N TIME_MAX) (k + 1)
            (event_periodic.start P t te n0) g).1.t
          + returned P.call P.init (S.draw (E.draw (N.draw g).2).2).2 (k + 1) := by
  refine ⟨⟨?_, ?_⟩, fun s g2 hs => ?_, ?_, ?_, ?_⟩
  · rw [event_periodic.after_calls_periodic]; rfl
  · rw [event_periodic.after_calls_periodic]; rfl
  · simp [event_periodic.operator_call, hs]
  · rw [event_periodic.after_calls_periodic]
  · rw [event_periodic.after_calls_periodic]; rfl
  · rw [event_periodic.after_calls_periodic, event_periodic.after_calls_periodic]; rfl

/-- The random source after the draws of a pack of distributions: one draw of
each distribution, in the order of the pack. -/
theorem call_distr_pack_source {G R : Type} (Ts : List (distribution G R)) :
    ∀ g : G, (details.call_distr_pack Ts g).2 = Ts.foldl (fun g2 T => (T.draw g2).2) g := by
  induction Ts with
  | nil => intro g; rfl
  | cons T Ts ih => intro g; rw [List.foldl_cons, ← ih]; rfl

/-- Claim C23. The randomness `event_multiple` and `event_sequence` consume.
The first call leaves the random source as one draw of `T` leaves it
(`same = true`), as `n` successive calls of the distribution object leave it
(`same = false`), as one draw of each distribution in the order of their
declaration leaves it (`event_sequence`). Every later call leaves the random
source as it is and changes the call counter only, so the source is the same
after every call. -/
theorem C23_multiple_sequence_randomness {G α : Type} [LinearOrder α] (T : distribution G α)
    (Ts : List (distribution G α)) (n : Nat) (TIME_MAX : α) (g : G)
    (s1 : event_multiple_true.State α) (s2 : event_multiple_false.State α n)
    (s3 : event_sequence.State α Ts.length) (h1 : s1.i = 0) (h2 : s2.i = 0) (h3 : s3.i = 0)
    (k : Nat) :
    ((event_multiple_true.operator_call T n TIME_MAX s1 g).2.2 = (T.draw g).2
      ∧ (event_multiple_false.operator_call T n TIME_MAX s2 g).2.2
          = (after_calls T.call n T.init g).2
      ∧ (event_sequence.operator_call Ts TIME_MAX s3 g).2.2
          = Ts.foldl (fun g2 T2 => (T2.draw g2).2) g)
    ∧ ((∀ (s : event_multiple_true.State α) (g2 : G), s.i ≠ 0 →
          (event_multiple_true.operator_call T n TIME_MAX s g2).2 = (⟨s.t, s.i + 1⟩, g2))
      ∧ (∀ (s : event_multiple_false.State α n) (g2 : G), s.i ≠ 0 →
          (event_multiple_false.operator_call T n TIME_MAX s g2).2 = (⟨s.pending, s.i + 1⟩, g2))
      ∧ (∀ (s : event_sequence.State α Ts.length) (g2 : G), s.i ≠ 0 →
          (event_sequence.operator_call Ts TIME_MAX s g2).2 = (⟨s.pending, s.i + 1⟩, g2)))
    ∧ ((after_calls (event_multiple_true.operator_call T n TIME_MAX) (k + 1) s1 g).2
          = (T.draw g).2
      ∧ (after_calls (event_multiple_false.operator_call T n TIME_MAX) (k + 1) s2 g).2
          = (after_calls T.call n T.init g).2
      ∧ (after_calls (event_sequence.operator_call Ts TIME_MAX) (k + 1) s3 g).2
          = Ts.foldl (fun g2 T2 => (T2.draw g2).2) g) := by
  refine ⟨⟨?_, ?_, ?_⟩, ⟨fun s g2 hs => ?_, fun s g2 hs => ?_, fun s g2 hs => ?_⟩, ?_, ?_, ?_⟩
  · simp [event_multiple_true.operator_call, h1]
  · simp only [event_multiple_false.operator_call, h2, if_true]
    rw [← (fill_eq T n T.init g).2]
  · simp only [event_sequence.operator_call, h3, if_true]
    exact call_distr_pack_source Ts g
  · simp [event_multiple_true.operator_call, hs]
  · simp [event_multiple_false.operator_call, hs]
  · simp [event_sequence.operator_call, hs]
  · rw [event_multiple_true.after_calls_multiple_true T n TIME_MAX s1 g h1 k]
  · rw [event_multiple_false.after_calls_multiple_false T n TIME_MAX s2 g h2 k,
      ← (fill_eq T n T.init g).2]
  · rw [event_sequence.after_calls_sequence Ts TIME_MAX s3 g h3 k]
    exact call_distr_pack_source Ts g

/-! ## The displayer: neighbour list, next event and iteration count -/

theorem displayer.unique_head {α : Type} [DecidableEq α] (l : List α) :
    (displayer.unique l).head? = l.head? := by
  induction l with
  | nil => rfl
  | cons x l ih =>
    unfold displayer.unique
    by_cases h : l.head? = some x
    · rw [if_pos h, ih, h]; rfl
    · rw [if_neg h]; rfl

theorem displayer.mem_unique {α : Type} [DecidableEq α] (l : List α) (y : α) :
    y ∈ displayer.unique l ↔ y ∈ l := by
  induction l with
  | nil => exact Iff.rfl
  | cons x l ih =>
    unfold displayer.unique
    by_cases h : l.head? = some x
    · rw [if_pos h, ih, List.mem_cons]
      have hx : x ∈ l := List.mem_of_mem_head? h
      constructor
      · exact fun hy => Or.inr hy
      · rintro (rfl | hy)
        · exact hx
        · exact hy
    · rw [if_neg h, List.mem_cons, List.mem_cons, ih]

theorem displayer.sorted_unique {α : Type} [LinearOrder α] (l : List α)
    (hs : l.Sorted (fun x y => x ≤ y)) : (displayer.unique l).Sorted (fun x y => x < y) := by
  induction l with
  | nil => exact List.sorted_nil
  | cons x l ih =>
    have hl : l.Sorted (fun x y => x ≤ y) := hs.of_cons
    have hx : ∀ b ∈ l, x ≤ b := List.rel_of_sorted_cons hs
    unfold displayer.unique
    by_cases h : l.head? = some x
    · rw [if_pos h]; exact ih hl
    · rw [if_neg h]
      refine List.sorted_cons.mpr ⟨fun b hb => ?_, ih hl⟩
      rw [displayer.mem_unique] at hb
      cases l with
      | nil => exact absurd hb (List.not_mem_nil b)
      | cons y l2 =>
        have hxy : x < y :=
          lt_of_le_of_ne (hx y (List.mem_cons_self y l2)) (fun e => h (by rw [e]; rfl))
        rcases List.mem_cons.mp hb with rfl | hb2
        · exact hxy
        · exact lt_of_lt_of_le hxy (List.rel_of_sorted_cons hl b hb2)

theorem displayer.receive_all_nbr {device_t : Type} (ds : List device_t) :
    ∀ s : displayer.node device_t,
      (s.receive_all ds).m_nbr_uids = s.m_nbr_uids ++ ds
      ∧ (s.receive_all ds).m_prev_nbr_uids = s.m_prev_nbr_uids := by
  induction ds with
  | nil => intro s; simp [displayer.node.receive_all]
  | cons d ds ih =>
    intro s
    have h := ih (s.receive d)
    simp only [displayer.node.receive_all, List.foldl_cons] at h ⊢
    rw [h.1, h.2]
    simp [displayer.node.receive]

/-- Claim C24. The count `displayer::net::update()` hands to both calls of
`parallel_for` is `n_beg-n_end`, the opposite of the number of nodes
`n_end-n_beg`: with at least one node and at most `SIZE_MAX` of them it
differs from the number of nodes, it is negative, and as a `size_t` it is
`SIZE_MAX + 1` minus the number of nodes; when the number of nodes is at most
half of `SIZE_MAX` this is more than the number of nodes, so that the number
of nodes, which is not the offset of any node, is below the count. -/
theorem C24_update_count_reversed (SIZE_MAX : Nat) (n_beg n_end : Int) (h : n_beg < n_end)
    (hmax : n_end - n_beg ≤ SIZE_MAX) :
    displayer.net.update_count n_beg n_end = -(n_end - n_beg)
    ∧ displayer.net.update_count n_beg n_end ≠ n_end - n_beg
    ∧ displayer.net.update_count n_beg n_end < 0
    ∧ (displayer.net.update_count_size_t SIZE_MAX n_beg n_end : Int)
        = (SIZE_MAX : Int) + 1 - (n_end - n_beg)
    ∧ ((displayer.net.update_count_size_t SIZE_MAX n_beg n_end : Int) ≠ n_end - n_beg
      ∨ 2 * (n_end - n_beg) = (SIZE_MAX : Int) + 1)
    ∧ (2 * (n_end - n_beg) ≤ SIZE_MAX →
        n_end - n_beg < (displayer.net.update_count_size_t SIZE_MAX n_beg n_end : Int)) := by
  have hsz : (displayer.net.update_count_size_t SIZE_MAX n_beg n_end : Int)
      = (SIZE_MAX : Int) + 1 - (n_end - n_beg) := by
    unfold displayer.net.update_count_size_t
    have hpos : (0 : Int) < (SIZE_MAX : Int) + 1 := by omega
    rw [Int.toNat_of_nonneg (Int.emod_nonneg _ (ne_of_gt hpos))]
    have e : (n_beg - n_end) % ((SIZE_MAX : Int) + 1)
        = (n_beg - n_end + ((SIZE_MAX : Int) + 1)) % ((SIZE_MAX : Int) + 1) := by
      rw [Int.add_emod_self]
    rw [e, Int.emod_eq_of_lt (by omega) (by omega)]
    ring
  refine ⟨?_, ?_, ?_, hsz, ?_, ?_⟩
  · unfold displayer.net.update_count; ring
  · unfold displayer.net.update_count; omega
  · unfold displayer.net.update_count; omega
  · by_cases e : 2 * (n_end - n_beg) = (SIZE_MAX : Int) + 1
    · exact Or.inr e
    · left; rw [hsz]; omega
  · intro h2; rw [hsz]; omega

/-- Claim C26. The neighbour list of a displayer node: after the calls of
`receive` for the device ids `ds` on a node whose working list is empty, as
`round_end` leaves it, the call of `round_end` leaves `m_prev_nbr_uids`
strictly ascending and holding exactly the device ids of `ds`, and the
working list `m_nbr_uids` empty. -/
theorem C26_displayer_neighbours {device_t : Type} [LinearOrder device_t]
    (s : displayer.node device_t) (ds : List device_t) (hs : s.m_nbr_uids = []) :
    ((s.receive_all ds).round_end).m_prev_nbr_uids.Sorted (fun x y => x < y)
    ∧ (∀ d, d ∈ ((s.receive_all ds).round_end).m_prev_nbr_uids ↔ d ∈ ds)
    ∧ ((s.receive_all ds).round_end).m_nbr_uids = []
    ∧ (s.round_end).m_nbr_uids = [] := by
  have hr := (displayer.receive_all_nbr ds s).1
  rw [hs, List.nil_append] at hr
  refine ⟨?_, fun d => ?_, rfl, rfl⟩
  · exact displayer.sorted_unique _ (List.sorted_insertionSort _ _)
  · unfold displayer.node.round_end
    dsimp only
    rw [displayer.mem_unique, hr, (List.perm_insertionSort _ _).mem_iff]

/-! ## The loops of the spec: shares, schedules and invocations -/

theorem common.worker_loop_eq (w : Nat) :
    ∀ len lo, common.worker_loop w len lo = (List.range' lo len).map (fun i => (i, w)) := by
  intro len
  induction len with
  | zero => intro lo; rfl
  | succ len ih => intro lo; rw [common.worker_loop, ih, List.range'_succ]; rfl

theorem common.chunk_begin_zero (k n : Nat) : common.chunk_begin k n 0 = 0 := by
  simp [common.chunk_begin]

theorem common.chunk_begin_last (k n : Nat) (hk : 1 ≤ k) : common.chunk_begin k n k = n := by
  unfold common.chunk_begin
  exact Nat.mul_div_cancel_left n (by omega)

theorem common.chunk_begin_mono (k n t u : Nat) (h : t ≤ u) :
    common.chunk_begin k n t ≤ common.chunk_begin k n u := by
  unfold common.chunk_begin
  exact Nat.div_le_div_right (Nat.mul_le_mul_right n h)

/-- The size of a chunk is `n / k` or `n / k + 1`. -/
theorem common.chunk_size (k n t : Nat) (hk : 1 ≤ k) :
    n / k ≤ common.chunk_begin k n (t + 1) - common.chunk_begin k n t
    ∧ common.chunk_begin k n (t + 1) - common.chunk_begin k n t ≤ n / k + 1 := by
  unfold common.chunk_begin
  have hk0 : 0 < k := by omega
  have e : (t + 1) * n = t * n + n := by ring
  rw [e, Nat.add_div hk0]
  generalize t * n / k = a
  generalize n / k = q
  split <;> omega

/-- The indices of the first `j` shares, in the order of the workers, are
the numbers below the beginning of chunk `j`. -/
theorem common.shares_indices (k n : Nat) : ∀ j,
    (((List.range j).map (fun t => common.worker_loop t
        (common.chunk_begin k n (t + 1) - common.chunk_begin k n t)
        (common.chunk_begin k n t))).flatten).map Prod.fst
      = List.range (common.chunk_begin k n j) := by
  intro j
  induction j with
  | zero => simp [common.chunk_begin_zero]
  | succ j ih =>
    rw [List.range_succ, List.map_append, List.flatten_append, List.map_append, ih,
      List.map_singleton, List.flatten_singleton, common.worker_loop_eq, List.map_map]
    have hm := common.chunk_begin_mono k n j (j + 1) (Nat.le_succ j)
    have hid : (Prod.fst ∘ fun i => (i, j)) = (id : Nat → Nat) := rfl
    rw [hid, List.map_id, List.range_eq_range', List.range_eq_range']
    have h := List.range'_append_1 0 (common.chunk_begin k n j)
      (common.chunk_begin k n (j + 1) - common.chunk_begin k n j)
    rw [Nat.zero_add] at h
    rw [h]
    congr 1
    omega

/-- Taking the first invocation of a share off the shares leaves the
invocations the same, up to their order. -/
theorem common.flatten_set_perm {ι : Type} (x : ι) (rest : List ι) :
    ∀ (ss : List (List ι)) (w : Nat), ss.getD w [] = x :: rest →
      ss.flatten.Perm (x :: (ss.set w rest).flatten) := by
  intro ss
  induction ss with
  | nil => intro w h; simp at h
  | cons l ss ih =>
    intro w h
    cases w with
    | zero =>
      simp only [List.getD_cons_zero] at h
      rw [h]
      simp
    | succ w =>
      simp only [List.getD_cons_succ] at h
      simp only [List.set_cons_succ, List.flatten_cons]
      exact (List.Perm.append_left l (ih w h)).trans List.perm_middle

/-- Under every schedule the invocations made are those of the shares. -/
theorem common.execution_perm {ι : Type} (sched : List Nat) :
    ∀ ss : List (List ι), (common.execution ss sched).Perm ss.flatten := by
  induction sched with
  | nil => intro ss; exact List.Perm.refl _
  | cons w sched ih =>
    intro ss
    unfold common.execution
    split
    · exact ih ss
    · rename_i x rest h
      exact (List.Perm.cons x (ih _)).trans (common.flatten_set_perm x rest ss w h).symm

/-- With one share the invocations are made in the order of the share. -/
theorem common.execution_single {ι : Type} (sched : List Nat) :
    ∀ l : List ι, common.execution [l] sched = l := by
  induction sched with
  | nil => intro l; simp [common.execution]
  | cons w sched ih =>
    intro l
    unfold common.execution
    cases w with
    | zero =>
      cases l with
      | nil => simp only [List.getD_cons_zero]; exact ih []
      | cons x rest => simp only [List.getD_cons_zero, List.set_cons_zero]; rw [ih rest]
    | succ w => simp only [List.getD_cons_succ, List.getD_nil]; exact ih l

/-- The body `++v[i]` adds to every cell the number of the invocations with
its index. -/
theorem run_test_increment (invs : List (Nat × Nat)) :
    ∀ (v : Nat → Int) (i : Nat),
      common.run test_increment invs v i = v i + (invs.map Prod.fst).count i := by
  induction invs with
  | nil => intro v i; simp [common.run]
  | cons p invs ih =>
    intro v i
    have h := ih (test_increment p.1 p.2 v) i
    unfold common.run at h ⊢
    rw [List.foldl_cons, h, List.map_cons, List.count_cons]
    unfold test_increment
    by_cases e : p.1 = i
    · subst e; simp; ring
    · have e2 : i ≠ p.1 := fun h2 => e h2.symm
      simp [Function.update_noteq e2, e]

/-- The counting body adds the number of the invocations. -/
theorem run_test_count (invs : List (Nat × Nat)) :
    ∀ acc : Int, common.run test_count invs acc = acc + invs.length := by
  induction invs with
  | nil => intro acc; simp [common.run]
  | cons p invs ih =>
    intro acc
    have h := ih (test_count p.1 p.2 acc)
    unfold common.run at h ⊢
    rw [List.foldl_cons, h]
    simp [test_count]; ring

/-- The invocations of the shares, in the order of the workers: the indices
are `0, ..., n - 1`. -/
theorem common.shares_flatten_indices (k n : Nat) (hk : 1 ≤ k) :
    ((common.shares k n).flatten).map Prod.fst = List.range n := by
  unfold common.shares
  rw [common.shares_indices k n k, common.chunk_begin_last k n hk]

theorem common.shares_worker_ids (k n : Nat) :
    ∀ p ∈ (common.shares k n).flatten, p.2 < k := by
  intro p hp
  unfold common.shares at hp
  rw [List.mem_flatten] at hp
  obtain ⟨l, hl, hpl⟩ := hp
  rw [List.mem_map] at hl
  obtain ⟨t, ht, rfl⟩ := hl
  rw [common.worker_loop_eq, List.mem_map] at hpl
  obtain ⟨i, _, rfl⟩ := hpl
  exact List.mem_range.mp ht

/-- Claim C16. `for_each_index` under the `Sequential` policy: for every
`n`, schedule and body the invocations are `(0, 0), (1, 0), ..., (n - 1, 0)`
in this order: there are `n` of them, the `i`-th (from `0`) has index `i` and
worker id `0`, the state is the one the body leaves when invoked on them one
after the other, and the counting body of the test leaves `acc = n`. -/
theorem C16_sequential_for {σ : Type} (n : Nat) (sched : List Nat)
    (body : Nat → Nat → σ → σ) (s : σ) :
    common.for_each_index.invocations common.Policy.Sequential n sched
      = some ((List.range n).map (fun i => (i, 0)))
    ∧ (∀ invs, common.for_each_index.invocations common.Policy.Sequential n sched = some invs →
        invs.length = n
        ∧ (∀ i, i < n → invs[i]? = some (i, 0))
        ∧ invs.map Prod.fst = List.range n
        ∧ ∀ p ∈ invs, p.2 = 0)
    ∧ common.for_each_index common.Policy.Sequential n body sched s
        = some ((List.range n).foldl (fun s2 i => body i 0 s2) s)
    ∧ common.for_each_index common.Policy.Sequential n test_count sched 0 = some (n : Int) := by
  have h : common.for_each_index.invocations common.Policy.Sequential n sched
      = some ((List.range n).map (fun i => (i, 0))) := by
    show some (common.worker_loop 0 n 0) = _
    rw [common.worker_loop_eq, List.range_eq_range']
  refine ⟨h, ?_, ?_, ?_⟩
  · intro invs hi
    rw [h] at hi
    injection hi with hi
    subst hi
    refine ⟨by simp, fun i hi => by simp [hi], ?_, ?_⟩
    · rw [List.map_map]; exact List.map_id _
    · intro p hp
      rw [List.mem_map] at hp
      obtain ⟨i, _, rfl⟩ := hp
      rfl
  · unfold common.for_each_index
    rw [h, Option.map_some', common.run, List.foldl_map]
  · unfold common.for_each_index
    rw [h, Option.map_some', run_test_count]
    simp

/-- Every index below `n` is in the chunk of exactly one worker. -/
theorem common.chunk_of_index (k n : Nat) (hk : 1 ≤ k) (i : Nat) (hi : i < n) :
    ∃! t, t < k ∧ common.chunk_begin k n t ≤ i ∧ i < common.chunk_begin k n (t + 1) := by
  have hmem : i ∈ ((common.shares k n).flatten).map Prod.fst := by
    rw [common.shares_flatten_indices k n hk]; exact List.mem_range.mpr hi
  rw [List.mem_map] at hmem
  obtain ⟨p, hp, rfl⟩ := hmem
  unfold common.shares at hp
  rw [List.mem_flatten] at hp
  obtain ⟨l, hl, hpl⟩ := hp
  rw [List.mem_map] at hl
  obtain ⟨t, ht, rfl⟩ := hl
  rw [common.worker_loop_eq, List.mem_map] at hpl
  obtain ⟨j, hj, rfl⟩ := hpl
  rw [List.mem_range'_1] at hj
  have hm := common.chunk_begin_mono k n t (t + 1) (Nat.le_succ t)
  refine ⟨t, ⟨List.mem_range.mp ht, hj.1, by dsimp only; omega⟩, ?_⟩
  rintro u ⟨_, hu1, hu2⟩
  dsimp only at hu1 hu2
  by_contra hne
  rcases Nat.lt_or_gt_of_ne hne with h | h
  · have := common.chunk_begin_mono k n (u + 1) t h
    omega
  · have := common.chunk_begin_mono k n (t + 1) u h
    omega

/-- Claim C17. `for_each_index` under `Parallel(k)` with `k >= 1`: there are
`k` shares; the share of worker `t` is the contiguous range of the indices
from `chunk_begin t` to `chunk_begin (t + 1)`, each with worker id `t`; the
chunks begin at `0`, end at `n` and follow one another, so that every index
below `n` is in exactly one of them and no other index is in any; the sizes
of two chunks differ by at most one. Under every schedule of the workers the
invocations have the indices `0, ..., n - 1` in some order, each index once,
and worker ids below `k`; the body `++v[i]` of the test adds one to each of
the first `n` cells and leaves the others. -/
theorem C17_parallel_for (k n : Nat) (hk : 1 ≤ k) :
    (common.shares k n).length = k
    ∧ (∀ t, t < k → (common.shares k n)[t]?
        = some ((List.range' (common.chunk_begin k n t)
            (common.chunk_begin k n (t + 1) - common.chunk_begin k n t)).map (fun i => (i, t))))
    ∧ (common.chunk_begin k n 0 = 0 ∧ common.chunk_begin k n k = n
        ∧ ∀ t, common.chunk_begin k n t ≤ common.chunk_begin k n (t + 1))
    ∧ (∀ i, i < n →
        ∃! t, t < k ∧ common.chunk_begin k n t ≤ i ∧ i < common.chunk_begin k n (t + 1))
    ∧ (∀ t i, t < k → i < common.chunk_begin k n (t + 1) → i < n)
    ∧ (∀ t u, common.chunk_begin k n (t + 1) - common.chunk_begin k n t
        ≤ common.chunk_begin k n (u + 1) - common.chunk_begin k n u + 1)
    ∧ (∀ sched, ∃ invs,
        common.for_each_index.invocations (common.Policy.Parallel k) n sched = some invs
        ∧ (invs.map Prod.fst).Perm (List.range n)
        ∧ (∀ i, (invs.map Prod.fst).count i = if i < n then 1 else 0)
        ∧ ∀ p ∈ invs, p.2 < k)
    ∧ (∀ sched (v : Nat → Int), ∃ v2,
        common.for_each_index (common.Policy.Parallel k) n test_increment sched v = some v2
        ∧ ∀ i, v2 i = if i < n then v i + 1 else v i) := by
  have hk0 : k ≠ 0 := by omega
  have hinv : ∀ sched, common.for_each_index.invocations (common.Policy.Parallel k) n sched
      = some (common.execution (common.shares k n) sched) := by
    intro sched
    show (if k = 0 then none else some (common.execution (common.shares k n) sched)) = _
    rw [if_neg hk0]
  have hperm : ∀ sched, ((common.execution (common.shares k n) sched).map Prod.fst).Perm
      (List.range n) := by
    intro sched
    have h := (common.execution_perm sched (common.shares k n)).map Prod.fst
    rw [common.shares_flatten_indices k n hk] at h
    exact h
  have hcount : ∀ sched i, ((common.execution (common.shares k n) sched).map Prod.fst).count i
      = if i < n then 1 else 0 := by
    intro sched i
    rw [(hperm sched).count_eq]
    by_cases hi : i < n
    · rw [if_pos hi]
      exact List.count_eq_one_of_mem (List.nodup_range n) (List.mem_range.mpr hi)
    · rw [if_neg hi]
      exact List.count_eq_zero_of_not_mem (fun h => hi (List.mem_range.mp h))
  refine ⟨by simp [common.shares], fun t ht => ?_,
    ⟨common.chunk_begin_zero k n, common.chunk_begin_last k n hk,
      fun t => common.chunk_begin_mono k n t (t + 1) (Nat.le_succ t)⟩,
    fun i hi => common.chunk_of_index k n hk i hi, fun t i ht hi => ?_, fun t u => ?_,
    fun sched => ⟨_, hinv sched, hperm sched, hcount sched, fun p hp => ?_⟩,
    fun sched v => ⟨common.run test_increment (common.execution (common.shares k n) sched) v,
      ?_, fun i => ?_⟩⟩
  · unfold common.shares
    rw [List.getElem?_map, List.getElem?_range ht, Option.map_some', common.worker_loop_eq]
  · have h1 := common.chunk_begin_mono k n (t + 1) k ht
    rw [common.chunk_begin_last k n hk] at h1
    omega
  · have h1 := common.chunk_size k n t hk
    have h2 := common.chunk_size k n u hk
    omega
  · exact common.shares_worker_ids k n p
      ((common.execution_perm sched (common.shares k n)).mem_iff.mp hp)
  · unfold common.for_each_index
    rw [hinv sched, Option.map_some']
  · rw [run_test_increment, hcount sched i]
    by_cases hi : i < n
    · simp [hi]
    · simp [hi]

/-- Claim C18. The `General` policy. With the flag `false`, whatever the
worker count, `for_each_index` makes the invocations of `Sequential`, which
are `(0, 0), ..., (n - 1, 0)` in this order, and leaves the same state, and
`while_true` runs as under `Sequential`; with the flag `true` both run as
under `Parallel(k)`: same invocations under every schedule, same state, same
outcome. -/
theorem C18_general_policy {σ : Type} (n k : Nat) (body : Nat → Nat → σ → σ)
    (wbody : Nat → σ → Bool × σ) (sched : List Nat) (s : σ) :
    (common.for_each_index.invocations (common.Policy.General false k) n sched
        = common.for_each_index.invocations common.Policy.Sequential n sched
      ∧ common.for_each_index.invocations (common.Policy.General false k) n sched
        = some ((List.range n).map (fun i => (i, 0)))
      ∧ common.for_each_index (common.Policy.General false k) n body sched s
        = common.for_each_index common.Policy.Sequential n body sched s)
    ∧ (common.for_each_index.invocations (common.Policy.General true k) n sched
        = common.for_each_index.invocations (common.Policy.Parallel k) n sched
      ∧ common.for_each_index (common.Policy.General true k) n body sched s
        = common.for_each_index (common.Policy.Parallel k) n body sched s)
    ∧ (common.while_true (common.Policy.General false k) wbody sched s
        = common.while_true common.Policy.Sequential wbody sched s
      ∧ common.while_true (common.Policy.General true k) wbody sched s
        = common.while_true (common.Policy.Parallel k) wbody sched s) := by
  refine ⟨⟨rfl, ?_, rfl⟩, ⟨rfl, rfl⟩, rfl, rfl⟩
  show some (common.worker_loop 0 n 0) = _
  rw [common.worker_loop_eq, List.range_eq_range']

/-- The loop of a worker whose body returns `true` exactly `m` times before
it returns `false`: with fuel for `m + 1` invocations it makes them and
stops. -/
theorem common.while_true.loop_returns {σ : Type} (body : Nat → σ → Bool × σ) (w : Nat) :
    ∀ (m : Nat) (s : σ) (tr : List (Nat × Bool)) (fuel : Nat),
      (∀ j, j < m → (body w (Nat.iterate (fun s2 => (body w s2).2) j s)).1 = true) →
      (body w (Nat.iterate (fun s2 => (body w s2).2) m s)).1 = false →
      m + 1 ≤ fuel →
      common.while_true.loop body w fuel s tr
        = some (tr ++ List.replicate m (w, true) ++ [(w, false)],
            Nat.iterate (fun s2 => (body w s2).2) (m + 1) s) := by
  intro m
  induction m with
  | zero =>
    intro s tr fuel _ hfalse hfuel
    obtain ⟨f, rfl⟩ : ∃ f, fuel = f + 1 := ⟨fuel - 1, by omega⟩
    simp only [Function.iterate_zero, id_eq] at hfalse
    simp [common.while_true.loop, hfalse]
  | succ m ih =>
    intro s tr fuel htrue hfalse hfuel
    obtain ⟨f, rfl⟩ : ∃ f, fuel = f + 1 := ⟨fuel - 1, by omega⟩
    have h0 : (body w s).1 = true := htrue 0 (Nat.succ_pos m)
    rw [common.while_true.loop, if_pos h0,
      ih (body w s).2 (tr ++ [(w, true)]) f
        (fun j hj => by
          have := htrue (j + 1) (by omega)
          rwa [Function.iterate_succ_apply] at this)
        (by rwa [Function.iterate_succ_apply] at hfalse) (by omega)]
    rw [Function.iterate_succ_apply (fun s2 => (body w s2).2) (m + 1) s]
    simp [List.replicate_succ]

/-- When the loop of a worker returns, its invocations are some number of
`true` results followed by one `false`. -/
theorem common.while_true.loop_shape {σ : Type} (body : Nat → σ → Bool × σ) (w : Nat) :
    ∀ (fuel : Nat) (s : σ) (tr : List (Nat × Bool)) (r : List (Nat × Bool) × σ),
      common.while_true.loop body w fuel s tr = some r →
      ∃ m, r.1 = tr ++ List.replicate m (w, true) ++ [(w, false)] := by
  intro fuel
  induction fuel with
  | zero => intro s tr r h; simp [common.while_true.loop] at h
  | succ f ih =>
    intro s tr r h
    rw [common.while_true.loop] at h
    by_cases hb : (body w s).1 = true
    · rw [if_pos hb] at h
      obtain ⟨m, hm⟩ := ih _ _ r h
      exact ⟨m + 1, by rw [hm]; simp [List.replicate_succ]⟩
    · rw [if_neg hb] at h
      injection h with h
      exact ⟨0, by rw [← h]; simp⟩

theorem common.while_true.step_invariant {σ : Type} (k : Nat) (body : Nat → σ → Bool × σ)
    (st : common.while_true.State σ) (w : Nat) (h : common.while_true.invariant k st) :
    common.while_true.invariant k (common.while_true.step body st w) := by
  unfold common.while_true.step
  by_cases hs : st.stopped.getD w true = true
  · rw [if_pos hs]; exact h
  · rw [if_neg hs]
    obtain ⟨hlen, htr, hw⟩ := h
    have hwk : w < k := by
      by_contra hc
      apply hs
      rw [List.getD_eq_getElem?_getD, List.getElem?_eq_none (by omega)]
      rfl
    have hsf : st.stopped.getD w true = false := by
      cases hb : st.stopped.getD w true
      · rfl
      · exact absurd hb hs
    refine ⟨?_, ?_, ?_⟩
    · dsimp only
      split
      · exact hlen
      · rw [List.length_set]; exact hlen
    · intro p hp
      dsimp only at hp
      rcases List.mem_append.mp hp with hp | hp
      · exact htr p hp
      · rw [List.mem_singleton] at hp
        rw [hp]; exact hwk
    · intro u hu
      obtain ⟨m, hm⟩ := hw u hu
      dsimp only
      rw [List.filter_append, List.map_append, hm]
      by_cases huw : u = w
      · subst huw
        rw [hsf]
        cases hb : (body u st.s).1
        · refine ⟨m, ?_⟩
          have : (List.set st.stopped u true)[u]?.getD true = true := by
            rw [List.getElem?_set_self (by omega)]
            rfl
          simp [this]
        · refine ⟨m + 1, ?_⟩
          rw [List.getD_eq_getElem?_getD] at hsf
          simp [hsf, List.replicate_succ']
      · refine ⟨m, ?_⟩
        have hne : w ≠ u := fun e => huw e.symm
        have hget : (if (body w st.s).1 = true then st.stopped
            else st.stopped.set w true).getD u true = st.stopped.getD u true := by
          split
          · rfl
          · rw [List.getD_eq_getElem?_getD, List.getD_eq_getElem?_getD,
              List.getElem?_set_ne hne]
        rw [hget]
        simp [hne]

theorem common.while_true.workers_invariant {σ : Type} (k : Nat) (body : Nat → σ → Bool × σ)
    (sched : List Nat) (s : σ) :
    common.while_true.invariant k (common.while_true.workers k body sched s) := by
  unfold common.while_true.workers
  have hgen : ∀ (sched : List Nat) (st : common.while_true.State σ),
      common.while_true.invariant k st →
      common.while_true.invariant k (sched.foldl (common.while_true.step body) st) := by
    intro sched
    induction sched with
    | nil => intro st h; exact h
    | cons w sched ih =>
      intro st h
      exact ih _ (common.while_true.step_invariant k body st w h)
  apply hgen
  refine ⟨by simp, by simp, fun u hu => ⟨0, ?_⟩⟩
  have : (List.replicate k false)[u]?.getD true = false := by
    rw [List.getElem?_replicate]
    simp [hu]
  simp [this]

/-- The draining body leaves the number of the items in the queue plus `acc`
as it is, and once a worker has stopped the queue is empty. -/
theorem common.while_true.drain_invariant {α : Type} (N : Nat) (sched : List Nat) :
    ∀ st : common.while_true.State (List α × Nat),
      (st.s.1.length + st.s.2 = N ∧ (st.stopped.any id = true → st.s.1 = [])) →
      ((sched.foldl (common.while_true.step test_drain) st).s.1.length
          + (sched.foldl (common.while_true.step test_drain) st).s.2 = N
        ∧ ((sched.foldl (common.while_true.step test_drain) st).stopped.any id = true →
            (sched.foldl (common.while_true.step test_drain) st).s.1 = [])) := by
  induction sched with
  | nil => intro st h; exact h
  | cons w sched ih =>
    intro st h
    rw [List.foldl_cons]
    apply ih
    unfold common.while_true.step
    by_cases hs : st.stopped.getD w true = true
    · rw [if_pos hs]; exact h
    · rw [if_neg hs]
      obtain ⟨hsum, hq⟩ := h
      cases hq1 : st.s.1 with
      | nil =>
        have hb : test_drain w st.s = (false, st.s) := by
          unfold test_drain; rw [hq1]
        rw [hb]
        exact ⟨hsum, fun _ => hq1⟩
      | cons x q =>
        have hb : test_drain w st.s = (true, (q, st.s.2 + 1)) := by
          unfold test_drain; rw [hq1]
        rw [hb]
        dsimp only
        rw [hq1] at hsum
        refine ⟨by simp at hsum ⊢; omega, fun hany => ?_⟩
        rw [if_pos rfl] at hany
        have := hq hany
        rw [hq1] at this
        exact absurd this (List.cons_ne_nil x q)

/-- The draining body on a queue of `N` items returns `true` at the first `N`
invocations and `false` at the next one. -/
theorem test_drain_iterate {α : Type} (w : Nat) :
    ∀ (j : Nat) (q : List α) (acc : Nat),
      Nat.iterate (fun s2 => (test_drain w s2).2) j (q, acc) = (q.drop j, acc + min j q.length)
      := by
  intro j
  induction j with
  | zero => intro q acc; simp
  | succ j ih =>
    intro q acc
    rw [Function.iterate_succ_apply]
    cases q with
    | nil =>
      have : (test_drain w (([] : List α), acc)).2 = ([], acc) := rfl
      rw [this, ih]; simp
    | cons x q =>
      have : (test_drain w (x :: q, acc)).2 = (q, acc + 1) := rfl
      rw [this, ih]
      simp only [List.drop_succ_cons, List.length_cons, Prod.mk.injEq, true_and]
      omega

theorem test_drain_result {α : Type} (w : Nat) (q : List α) (acc : Nat) :
    (test_drain w (q, acc)).1 = !q.isEmpty := by
  cases q <;> rfl

/-- The loop of a worker has not returned while the body has only returned
`true`. -/
theorem common.while_true.loop_running {σ : Type} (body : Nat → σ → Bool × σ) (w : Nat) :
    ∀ (fuel : Nat) (m : Nat) (s : σ) (tr : List (Nat × Bool)),
      (∀ j, j < m → (body w (Nat.iterate (fun s2 => (body w s2).2) j s)).1 = true) →
      fuel ≤ m → common.while_true.loop body w fuel s tr = none := by
  intro fuel
  induction fuel with
  | zero => intro m s tr _ _; rfl
  | succ f ih =>
    intro m s tr htrue hfuel
    obtain ⟨m2, rfl⟩ : ∃ m2, m = m2 + 1 := ⟨m - 1, by omega⟩
    have h0 : (body w s).1 = true := htrue 0 (Nat.succ_pos m2)
    rw [common.while_true.loop, if_pos h0]
    exact ih m2 _ _
      (fun j hj => by
        have := htrue (j + 1) (by omega)
        rwa [Function.iterate_succ_apply] at this)
      (by omega)

/-- The successful pulls of the draining body are counted by `acc`. -/
theorem common.while_true.drain_count {α : Type} (c : Nat) (sched : List Nat) :
    ∀ st : common.while_true.State (List α × Nat),
      st.trace.countP (fun p => p.2) + c = st.s.2 →
      (sched.foldl (common.while_true.step test_drain) st).trace.countP (fun p => p.2) + c
        = (sched.foldl (common.while_true.step test_drain) st).s.2 := by
  induction sched with
  | nil => intro st h; exact h
  | cons w sched ih =>
    intro st h
    rw [List.foldl_cons]
    apply ih
    unfold common.while_true.step
    by_cases hs : st.stopped.getD w true = true
    · rw [if_pos hs]; exact h
    · rw [if_neg hs]
      cases hq1 : st.s.1 with
      | nil =>
        have hb : test_drain w st.s = (false, st.s) := by
          unfold test_drain; rw [hq1]
        rw [hb]
        simpa [List.countP_append] using h
      | cons x q =>
        have hb : test_drain w st.s = (true, (q, st.s.2 + 1)) := by
          unfold test_drain; rw [hq1]
        rw [hb]
        simp only [List.countP_append, List.countP_cons, List.countP_nil]
        simp only [if_true]
        omega

/-- Claim C19. `while_true`. Under the `Sequential` policy, when the body
returns `true` at its first `m` invocations and `false` at the next, a call
with room for `m + 1` invocations returns after exactly these `m + 1`
invocations, all with worker id `0`, and so does every call that returns.
Under `Parallel(k)`, when the call returns the invocations are those of
workers below `k`, and the results every worker has obtained are some number
of `true` followed by one `false`, its last. Draining a queue of `N` items
makes `N` successful pulls and leaves `acc` increased by `N` under
`Sequential`, and also under `Parallel(k)` with the pull under a lock,
whenever the call returns. -/
theorem C19_while_true {σ : Type} (body : Nat → σ → Bool × σ) (s : σ) (m : Nat)
    (sched : List Nat)
    (htrue : ∀ j, j < m → (body 0 (Nat.iterate (fun s2 => (body 0 s2).2) j s)).1 = true)
    (hfalse : (body 0 (Nat.iterate (fun s2 => (body 0 s2).2) m s)).1 = false)
    (hfuel : m + 1 ≤ sched.length) :
    common.while_true common.Policy.Sequential body sched s
      = common.Outcome.returned
          (List.replicate m (0, true) ++ [(0, false)],
            Nat.iterate (fun s2 => (body 0 s2).2) (m + 1) s)
    ∧ (∀ sched2 r, common.while_true common.Policy.Sequential body sched2 s
          = common.Outcome.returned r →
        r.1 = List.replicate m (0, true) ++ [(0, false)] ∧ r.1.length = m + 1)
    ∧ (∀ k sched2 r, common.while_true (common.Policy.Parallel k) body sched2 s
          = common.Outcome.returned r →
        (∀ p ∈ r.1, p.1 < k)
        ∧ ∀ w, w < k → ∃ mw,
            (r.1.filter (fun p => decide (p.1 = w))).map Prod.snd
              = List.replicate mw true ++ [false])
    ∧ (∀ (q : List Nat) (acc : Nat) (sched2 : List Nat), q.length + 1 ≤ sched2.length →
        common.while_true common.Policy.Sequential test_drain sched2 (q, acc)
          = common.Outcome.returned
              (List.replicate q.length (0, true) ++ [(0, false)], ([], acc + q.length)))
    ∧ (∀ k (q : List Nat) (sched2 : List Nat) r,
        common.while_true (common.Policy.Parallel k) test_drain sched2 (q, 0)
          = common.Outcome.returned r →
        r.2 = ([], q.length) ∧ r.1.countP (fun p => p.2) = q.length) := by
  have hseq : ∀ {τ : Type} (b : Nat → τ → Bool × τ) (sc : List Nat) (s0 : τ) (m0 : Nat),
      (∀ j, j < m0 → (b 0 (Nat.iterate (fun s2 => (b 0 s2).2) j s0)).1 = true) →
      (b 0 (Nat.iterate (fun s2 => (b 0 s2).2) m0 s0)).1 = false →
      m0 + 1 ≤ sc.length →
      common.while_true common.Policy.Sequential b sc s0
        = common.Outcome.returned
            (List.replicate m0 (0, true) ++ [(0, false)],
              Nat.iterate (fun s2 => (b 0 s2).2) (m0 + 1) s0) := by
    intro τ b sc s0 m0 h1 h2 h3
    show common.while_true.sequential b sc s0 = _
    unfold common.while_true.sequential
    rw [common.while_true.loop_returns b 0 m0 s0 [] sc.length h1 h2 h3]
    simp
  refine ⟨hseq body sched s m htrue hfalse hfuel, fun sched2 r hr => ?_, fun k sched2 r hr => ?_,
    fun q acc sched2 hlen => ?_, fun k q sched2 r hr => ?_⟩
  · by_cases hl : m + 1 ≤ sched2.length
    · rw [hseq body sched2 s m htrue hfalse hl] at hr
      injection hr with hr
      rw [← hr]
      simp
    · have hnone := common.while_true.loop_running body 0 sched2.length m s [] htrue (by omega)
      have : common.while_true common.Policy.Sequential body sched2 s
          = common.Outcome.running := by
        show common.while_true.sequential body sched2 s = _
        unfold common.while_true.sequential
        rw [hnone]
      rw [this] at hr
      exact absurd hr (by simp)
  · have hr2 : common.while_true.parallel k body sched2 s = common.Outcome.returned r := hr
    unfold common.while_true.parallel at hr2
    have hinv := common.while_true.workers_invariant k body sched2 s
    by_cases hk : k = 0
    · rw [if_pos hk] at hr2; exact absurd hr2 (by simp)
    · rw [if_neg hk] at hr2
      by_cases hall : (common.while_true.workers k body sched2 s).stopped.all id = true
      · rw [if_pos hall] at hr2
        injection hr2 with hr2
        rw [← hr2]
        obtain ⟨hlen, htr, hw⟩ := hinv
        refine ⟨htr, fun w hwk => ?_⟩
        obtain ⟨mw, hmw⟩ := hw w hwk
        refine ⟨mw, ?_⟩
        dsimp only
        rw [hmw]
        have hst : (common.while_true.workers k body sched2 s).stopped.getD w true = true := by
          rw [List.all_eq_true] at hall
          rw [List.getD_eq_getElem?_getD, List.getElem?_eq_getElem (by omega)]
          exact hall _ (List.getElem_mem _)
        rw [if_pos hst]
      · rw [if_neg hall] at hr2; exact absurd hr2 (by simp)
  · have h := hseq (@test_drain Nat) sched2 (q, acc) q.length
      (fun j hj => by
        rw [test_drain_iterate, test_drain_result]
        cases hd : q.drop j with
        | nil =>
          have := congrArg List.length hd
          rw [List.length_drop, List.length_nil] at this
          omega
        | cons x l => rfl)
      (by rw [test_drain_iterate, test_drain_result, List.drop_length]; rfl)
      hlen
    rw [h, test_drain_iterate]
    simp
  · have hr2 : common.while_true.parallel k test_drain sched2 (q, 0)
        = common.Outcome.returned r := hr
    unfold common.while_true.parallel at hr2
    have hinv := common.while_true.workers_invariant k test_drain sched2 (q, 0)
    have hd := common.while_true.drain_invariant q.length sched2
      ⟨List.replicate k false, (q, 0), []⟩ ⟨by simp, by simp⟩
    have hc := common.while_true.drain_count 0 sched2
      (⟨List.replicate k false, (q, 0), []⟩ : common.while_true.State (List Nat × Nat))
      (by simp)
    by_cases hk : k = 0
    · rw [if_pos hk] at hr2; exact absurd hr2 (by simp)
    · rw [if_neg hk] at hr2
      by_cases hall : (common.while_true.workers k test_drain sched2 (q, 0)).stopped.all id = true
      · rw [if_pos hall] at hr2
        injection hr2 with hr2
        rw [← hr2]
        have hany : (common.while_true.workers k test_drain sched2 (q, 0)).stopped.any id
            = true := by
          rw [List.all_eq_true] at hall
          rw [List.any_eq_true]
          have h0 : 0 < (common.while_true.workers k test_drain sched2 (q, 0)).stopped.length := by
            rw [hinv.1]; omega
          exact ⟨_, List.getElem_mem h0, hall _ (List.getElem_mem h0)⟩
        have hq := hd.2 hany
        have hsum := hd.1
        change ((common.while_true.workers k test_drain sched2 (q, 0)).s.1.length
          + (common.while_true.workers k test_drain sched2 (q, 0)).s.2 = q.length) at hsum
        change ((common.while_true.workers k test_drain sched2 (q, 0)).s.1 = []) at hq
        change ((common.while_true.workers k test_drain sched2 (q, 0)).trace.countP
          (fun p => p.2) + 0
            = (common.while_true.workers k test_drain sched2 (q, 0)).s.2) at hc
        rw [hq] at hsum
        simp only [List.length_nil, Nat.zero_add] at hsum
        refine ⟨Prod.ext hq hsum, ?_⟩
        dsimp only
        omega
      · rw [if_neg hall] at hr2; exact absurd hr2 (by simp)

/-! ## The selector: every target splits the result -/

theorem common.nth_elements_nil {α : Type} (nth_element : List α → Nat → List α)
    (ev : List α) : common.nth_elements nth_element ev [] = ev := by
  rw [common.nth_elements]; simp

theorem common.nth_elements_step {α : Type} (nth_element : List α → Nat → List α)
    (ev : List α) (iv : List Nat) (h : iv ≠ []) :
    common.nth_elements nth_element ev iv
      = common.nth_elements nth_element ((nth_element ev (iv.getD (iv.length / 2) 0)).take
          (iv.getD (iv.length / 2) 0)) (iv.take (iv.length / 2))
        ++ ((nth_element ev (iv.getD (iv.length / 2) 0)).drop
            (iv.getD (iv.length / 2) 0)).take 1
        ++ common.nth_elements nth_element
            ((nth_element ev (iv.getD (iv.length / 2) 0)).drop (iv.getD (iv.length / 2) 0 + 1))
            ((iv.drop (iv.length / 2 + 1)).map
              (fun i => i - (iv.getD (iv.length / 2) 0 + 1))) := by
  rw [common.nth_elements, dif_neg h]

/-- A list split at position `t`, as the two parts and the value between
them. -/
theorem common.split_at {α : Type} (r : List α) (t : Nat) (ht : t < r.length) :
    r = r.take t ++ r[t] :: r.drop (t + 1) := by
  rw [← List.drop_eq_getElem_cons ht, List.take_append_drop]

/-- Position `t` splits a list exactly when the elements before it are at
most the one at `t` and this is at most the elements after it. -/
theorem common.partitioned_at_iff {α : Type} [LinearOrder α] (r : List α) (t : Nat)
    (ht : t < r.length) :
    common.partitioned_at r t
      ↔ (∀ x ∈ r.take t, x ≤ r[t]) ∧ (∀ y ∈ r.drop (t + 1), r[t] ≤ y) := by
  unfold common.partitioned_at
  rw [List.drop_eq_getElem_cons ht, List.take_succ, List.getElem?_eq_getElem ht]
  simp only [Option.toList_some, List.mem_append, List.mem_cons, List.not_mem_nil, or_false]
  constructor
  · intro h
    exact ⟨fun x hx => h x (Or.inl hx) _ (Or.inl rfl), fun y hy => h _ (Or.inr rfl) y (Or.inr hy)⟩
  · rintro ⟨h1, h2⟩ x hx y hy
    rcases hx with hx | rfl
    · rcases hy with rfl | hy
      · exact h1 x hx
      · exact le_trans (h1 x hx) (h2 y hy)
    · rcases hy with rfl | hy
      · exact le_refl _
      · exact h2 y hy

/-- The contract of `std::nth_element` makes the selected position split the
range. -/
theorem common.partitioned_at_of_contract {α : Type} [LinearOrder α] (l r : List α) (t : Nat)
    (ht : t < l.length) (hperm : r.Perm l)
    (hval : r[t]? = (l.insertionSort (fun x y => x ≤ y))[t]?)
    (hpart : ∀ x ∈ r.take t, ∀ y ∈ r.drop (t + 1), x ≤ y) :
    common.partitioned_at r t := by
  have htr : t < r.length := by rw [hperm.length_eq]; exact ht
  have hts : t < (l.insertionSort (fun x y => x ≤ y)).length := by
    rw [List.length_insertionSort]; exact ht
  rw [List.getElem?_eq_getElem htr, List.getElem?_eq_getElem hts] at hval
  injection hval with hval
  have hn := nth_smallest_sorted _ (List.sorted_insertionSort (fun x y : α => x ≤ y) l) t hts
  rw [← hval] at hn
  have hn2 := nth_smallest_perm _ _
    ((List.perm_insertionSort (fun x y : α => x ≤ y) l).trans hperm.symm) _ _ hn
  unfold nth_smallest at hn2
  obtain ⟨hlt, hle⟩ := hn2
  have hsplit := common.split_at r t htr
  have hlen : (r.take t).length = t := by rw [List.length_take]; omega
  rw [common.partitioned_at_iff r t htr]
  generalize r[t] = p at hlt hle hsplit ⊢
  have hcount : ∀ P : α → Bool, r.countP P
      = (r.take t).countP P + (if P p = true then 1 else 0) + (r.drop (t + 1)).countP P := by
    intro P
    conv_lhs => rw [hsplit]
    rw [List.countP_append, List.countP_cons]
    omega
  constructor
  · intro x hx
    by_contra hc
    have hc2 : p < x := lt_of_not_le hc
    have h1 : (r.take t).countP (fun y => decide (y ≤ p)) < t := by
      have hle1 := List.countP_le_length (fun y => decide (y ≤ p)) (l := r.take t)
      have hne : (r.take t).countP (fun y => decide (y ≤ p)) ≠ (r.take t).length := by
        intro e
        rw [List.countP_eq_length] at e
        have := e x hx
        simp only [decide_eq_true_eq] at this
        exact hc this
      omega
    have h2 : (r.drop (t + 1)).countP (fun y => decide (y ≤ p)) = 0 := by
      rw [List.countP_eq_zero]
      intro y hy
      simp only [decide_eq_true_eq, not_le]
      exact lt_of_lt_of_le hc2 (hpart x hx y hy)
    rw [hcount, h2] at hle
    simp only [le_refl, decide_True, if_true] at hle
    omega
  · intro y hy
    by_contra hc
    have hc2 : y < p := lt_of_not_le hc
    have h1 : (r.take t).countP (fun z => decide (z < p)) = t := by
      have e : (r.take t).countP (fun z => decide (z < p)) = (r.take t).length := by
        rw [List.countP_eq_length]
        intro x hx
        simp only [decide_eq_true_eq]
        exact lt_of_le_of_lt (hpart x hx y hy) hc2
      rw [e, hlen]
    have h2 : 0 < (r.drop (t + 1)).countP (fun z => decide (z < p)) := by
      rw [List.countP_pos_iff]
      exact ⟨y, hy, by simpa using hc2⟩
    rw [hcount, h1] at hlt
    omega

/-- A position that splits the left part splits the whole list, when the
left part is at most the middle value and this is at most the right part. -/
theorem common.partitioned_at_left {α : Type} [LinearOrder α] (L R : List α) (p : α)
    (hL : ∀ x ∈ L, x ≤ p) (hR : ∀ y ∈ R, p ≤ y) (u : Nat) (hu : u < L.length)
    (h : common.partitioned_at L u) : common.partitioned_at (L ++ p :: R) u := by
  unfold common.partitioned_at at h ⊢
  rw [List.take_append_of_le_length (by omega), List.drop_append_of_le_length (by omega)]
  intro x hx y hy
  rcases List.mem_append.mp hy with hy | hy
  · exact h x hx y hy
  · rcases List.mem_cons.mp hy with rfl | hy
    · exact hL x (List.mem_of_mem_take hx)
    · exact le_trans (hL x (List.mem_of_mem_take hx)) (hR y hy)

theorem common.partitioned_at_middle {α : Type} [LinearOrder α] (L R : List α) (p : α)
    (hL : ∀ x ∈ L, x ≤ p) (hR : ∀ y ∈ R, p ≤ y) :
    common.partitioned_at (L ++ p :: R) L.length := by
  unfold common.partitioned_at
  rw [List.take_append, List.drop_left]
  intro x hx y hy
  simp only [List.take_succ_cons, List.take_zero, List.mem_append, List.mem_singleton] at hx
  rcases hx with hx | rfl
  · rcases List.mem_cons.mp hy with rfl | hy
    · exact hL x hx
    · exact le_trans (hL x hx) (hR y hy)
  · rcases List.mem_cons.mp hy with rfl | hy
    · exact le_refl _
    · exact hR y hy

theorem common.partitioned_at_right {α : Type} [LinearOrder α] (L R : List α) (p : α)
    (hL : ∀ x ∈ L, x ≤ p) (hR : ∀ y ∈ R, p ≤ y) (v : Nat)
    (h : common.partitioned_at R v) :
    common.partitioned_at (L ++ p :: R) (L.length + (v + 1)) := by
  unfold common.partitioned_at at h ⊢
  have e : L.length + (v + 1) + 1 = L.length + (v + 1 + 1) := by omega
  rw [e, List.take_append, List.drop_append, List.take_succ_cons, List.drop_succ_cons]
  intro x hx y hy
  rcases List.mem_append.mp hx with hx | hx
  · exact le_trans (hL x hx) (hR y (List.mem_of_mem_drop hy))
  · rcases List.mem_cons.mp hx with rfl | hx
    · exact hR y (List.mem_of_mem_drop hy)
    · exact h x hx y hy

/-- In index form: an element at a position up to a splitting position is at
most an element at a position from it on. -/
theorem common.partitioned_at_getElem {α : Type} [LinearOrder α] (r : List α) (t : Nat)
    (h : common.partitioned_at r t) (i j : Nat) (hi : i ≤ t) (hj : t ≤ j) (hjl : j < r.length) :
    r[i] ≤ r[j] := by
  apply h
  · rw [List.mem_take_iff_getElem]
    exact ⟨i, by rw [Nat.lt_min]; omega, rfl⟩
  · rw [List.mem_drop_iff_getElem]
    exact ⟨j - t, by omega, by congr 1; omega⟩

/-- A position that splits a rearrangement of a list holds the value of the
sorted list. -/
theorem common.partitioned_at_sorted {α : Type} [LinearOrder α] (ev r s : List α) (t : Nat)
    (hperm : r.Perm ev) (h : common.partitioned_at r t) (ht : t < r.length)
    (hs : s.Sorted (fun x y => x ≤ y)) (hsp : s.Perm ev) : r[t]? = s[t]? := by
  obtain ⟨hA, hB⟩ := (common.partitioned_at_iff r t ht).mp h
  have hsplit := common.split_at r t ht
  have hlen : (r.take t).length = t := by rw [List.length_take]; omega
  have hs2 : ((r.take t).insertionSort (fun x y => x ≤ y)
      ++ r[t] :: (r.drop (t + 1)).insertionSort (fun x y => x ≤ y)).Sorted
        (fun x y => x ≤ y) := by
    unfold List.Sorted
    rw [List.pairwise_append]
    refine ⟨List.sorted_insertionSort _ _, ?_, ?_⟩
    · rw [List.pairwise_cons]
      refine ⟨fun y hy => hB y ((List.perm_insertionSort _ _).mem_iff.mp hy),
        List.sorted_insertionSort _ _⟩
    · intro x hx y hy
      have hx2 := hA x ((List.perm_insertionSort _ _).mem_iff.mp hx)
      rcases List.mem_cons.mp hy with rfl | hy
      · exact hx2
      · exact le_trans hx2 (hB y ((List.perm_insertionSort _ _).mem_iff.mp hy))
  have hp2 : ((r.take t).insertionSort (fun x y => x ≤ y)
      ++ r[t] :: (r.drop (t + 1)).insertionSort (fun x y => x ≤ y)).Perm s := by
    refine List.Perm.trans ?_ (hperm.trans hsp.symm)
    conv_rhs => rw [hsplit]
    exact List.Perm.append (List.perm_insertionSort _ _)
      (List.Perm.cons _ (List.perm_insertionSort _ _))
  have e := List.eq_of_perm_of_sorted hp2 hs2 hs
  rw [← e, List.getElem?_eq_getElem ht,
    List.getElem?_append_right (by rw [List.length_insertionSort, hlen]),
    List.length_insertionSort, hlen, Nat.sub_self, List.getElem?_cons_zero]

/-- The result of `nth_elements` is a rearrangement of the range in which
every target splits the range. -/
theorem common.nth_elements_invariant {α : Type} [LinearOrder α]
    (nth_element : List α → Nat → List α) (hsel : common.nth_element_contract nth_element) :
    ∀ (n : Nat) (iv : List Nat) (ev : List α), iv.length ≤ n →
      iv.Sorted (fun x y => x < y) → (∀ t ∈ iv, t < ev.length) →
      (common.nth_elements nth_element ev iv).Perm ev
      ∧ ∀ t ∈ iv, common.partitioned_at (common.nth_elements nth_element ev iv) t := by
  intro n
  induction n with
  | zero =>
    intro iv ev hn _ _
    have : iv = [] := List.length_eq_zero.mp (Nat.le_zero.mp hn)
    subst this
    rw [common.nth_elements_nil]
    exact ⟨List.Perm.refl _, fun t ht => absurd ht (List.not_mem_nil t)⟩
  | succ n ih =>
    intro iv ev hn hsorted hrange
    by_cases hnil : iv = []
    · subst hnil
      rw [common.nth_elements_nil]
      exact ⟨List.Perm.refl _, fun t ht => absurd ht (List.not_mem_nil t)⟩
    · have hpos : 0 < iv.length := List.length_pos.mpr hnil
      have hm : iv.length / 2 < iv.length := Nat.div_lt_self hpos (by decide)
      rw [common.nth_elements_step nth_element ev iv hnil]
      have hget : iv.getD (iv.length / 2) 0 = iv[iv.length / 2] := List.getD_eq_getElem _ _ hm
      rw [hget]
      generalize hmdef : iv.length / 2 = m at hm ⊢
      generalize htdef : iv[m] = t
      have hsplit : iv = iv.take m ++ t :: iv.drop (m + 1) := by
        rw [← htdef]; exact common.split_at iv m hm
      have ht_mem : t ∈ iv := by rw [← htdef]; exact List.getElem_mem hm
      have ht : t < ev.length := hrange t ht_mem
      have hso := hsorted
      unfold List.Sorted at hso
      rw [hsplit, List.pairwise_append, List.pairwise_cons] at hso
      obtain ⟨hsL, ⟨hgt, hsR⟩, hlt⟩ := hso
      obtain ⟨hperm, hval, hpart⟩ := hsel ev t ht
      generalize nth_element ev t = ev1 at hperm hval hpart ⊢
      have hlen1 : ev1.length = ev.length := hperm.length_eq
      have ht1 : t < ev1.length := by omega
      have hPA := common.partitioned_at_of_contract ev ev1 t ht hperm hval hpart
      obtain ⟨hA, hB⟩ := (common.partitioned_at_iff ev1 t ht1).mp hPA
      have hlenL : (ev1.take t).length = t := by rw [List.length_take]; omega
      have hlenR : (ev1.drop (t + 1)).length = ev.length - (t + 1) := by
        rw [List.length_drop]; omega
      -- the left part
      obtain ⟨hpL, hTL⟩ := ih (iv.take m) (ev1.take t)
        (by rw [List.length_take]; omega) hsL
        (fun u hu => by rw [hlenL]; exact hlt u hu t (List.mem_cons_self _ _))
      -- the right part
      obtain ⟨hpR, hTR⟩ := ih ((iv.drop (m + 1)).map (fun i => i - (t + 1)))
        (ev1.drop (t + 1))
        (by rw [List.length_map, List.length_drop]; omega)
        (by
          unfold List.Sorted
          rw [List.pairwise_map]
          refine List.Pairwise.imp_of_mem ?_ hsR
          intro a b ha hb hab
          have := hgt a ha
          have := hgt b hb
          omega)
        (fun v hv => by
          rw [List.mem_map] at hv
          obtain ⟨b, hb, rfl⟩ := hv
          have h1 := hgt b hb
          have h2 := hrange b (List.mem_of_mem_drop hb)
          rw [hlenR]
          omega)
      generalize common.nth_elements nth_element (ev1.take t) (iv.take m) = resL
        at hpL hTL ⊢
      generalize common.nth_elements nth_element (ev1.drop (t + 1))
        ((iv.drop (m + 1)).map (fun i => i - (t + 1))) = resR at hpR hTR ⊢
      have hmid : (ev1.drop t).take 1 = [ev1[t]] := by
        rw [List.drop_eq_getElem_cons ht1]; rfl
      rw [hmid, List.append_assoc, List.singleton_append]
      have hlenRes : resL.length = t := by rw [hpL.length_eq, hlenL]
      have hL2 : ∀ x ∈ resL, x ≤ ev1[t] := fun x hx => hA x (hpL.mem_iff.mp hx)
      have hR2 : ∀ y ∈ resR, ev1[t] ≤ y := fun y hy => hB y (hpR.mem_iff.mp hy)
      constructor
      · refine List.Perm.trans (List.Perm.append hpL (List.Perm.cons _ hpR)) ?_
        rw [← common.split_at ev1 t ht1]
        exact hperm
      · intro u hu
        rw [hsplit] at hu
        rcases List.mem_append.mp hu with hu | hu
        · have hut : u < t := hlt u hu t (List.mem_cons_self _ _)
          exact common.partitioned_at_left resL resR _ hL2 hR2 u (by omega) (hTL u hu)
        · rcases List.mem_cons.mp hu with rfl | hu
          · have := common.partitioned_at_middle resL resR _ hL2 hR2
            rwa [hlenRes] at this
          · have hut := hgt u hu
            have := common.partitioned_at_right resL resR _ hL2 hR2 (u - (t + 1))
              (hTR _ (List.mem_map.mpr ⟨u, hu, rfl⟩))
            have e : resL.length + (u - (t + 1) + 1) = u := by omega
            rwa [e] at this

/-- The three groups of the selection of the examples hold the elements of
the range. -/
theorem three_way_perm (l : List Nat) (p : Nat) :
    (l.filter (fun x => decide (x < p)) ++ l.filter (fun x => decide (x = p))
      ++ l.filter (fun x => decide (p < x))).Perm l := by
  rw [List.perm_iff_count]
  intro a
  have hc : ∀ P : Nat → Bool,
      (l.filter P).count a = if P a = true then l.count a else 0 := by
    intro P
    by_cases h : P a = true
    · rw [if_pos h, List.count_filter h]
    · rw [if_neg h]
      exact List.count_eq_zero_of_not_mem (fun hm => h (List.mem_filter.mp hm).2)
  simp only [List.count_append, hc, decide_eq_true_eq]
  rcases lt_trichotomy a p with h | h | h
  · rw [if_pos h, if_neg (by omega), if_neg (by omega)]
    omega
  · rw [if_neg (by omega), if_pos h, if_neg (by omega)]
    omega
  · rw [if_neg (by omega), if_neg (by omega), if_pos h]
    omega

/-- The selection of the examples keeps the contract of `std::nth_element`. -/
theorem test_nth_element_contract : common.nth_element_contract test_nth_element := by
  intro l t ht
  unfold test_nth_element
  have hts : t < (l.insertionSort (fun x y => x ≤ y)).length := by
    rw [List.length_insertionSort]; exact ht
  have hp : (l.insertionSort (fun x y => x ≤ y)).getD t 0
      = (l.insertionSort (fun x y => x ≤ y))[t] := List.getD_eq_getElem _ _ hts
  have hn := nth_smallest_perm _ _ (List.perm_insertionSort (fun x y : Nat => x ≤ y) l) _ _
    (nth_smallest_sorted _ (List.sorted_insertionSort (fun x y : Nat => x ≤ y) l) t hts)
  rw [← hp] at hn
  rw [List.getElem?_eq_getElem hts, ← hp]
  generalize (l.insertionSort (fun x y => x ≤ y)).getD t 0 = p at hn ⊢
  have hperm := three_way_perm l p
  obtain ⟨hlt, hle⟩ := hn
  have hA : (l.filter (fun x => decide (x < p))).length ≤ t := by
    rw [← List.countP_eq_length_filter]; omega
  have hAB : t < (l.filter (fun x => decide (x < p)) ++ l.filter (fun x => decide (x = p))).length
      := by
    rw [← hperm.countP_eq, List.countP_append, List.countP_append] at hle
    have h1 := List.countP_le_length (fun y => decide (y ≤ p))
      (l := l.filter (fun x => decide (x < p)))
    have h2 := List.countP_le_length (fun y => decide (y ≤ p))
      (l := l.filter (fun x => decide (x = p)))
    have h3 : (l.filter (fun x => decide (p < x))).countP (fun y => decide (y ≤ p)) = 0 := by
      rw [List.countP_eq_zero]
      intro a ha
      rw [List.mem_filter] at ha
      simp only [decide_eq_true_eq] at ha ⊢
      omega
    rw [List.length_append]
    omega
  refine ⟨hperm, ?_, ?_⟩
  · rw [List.getElem?_append_left hAB, List.getElem?_append_right hA]
    rw [List.length_append] at hAB
    rw [List.getElem?_eq_getElem (by omega)]
    have hm := List.getElem_mem (l := l.filter (fun x => decide (x = p)))
      (n := t - (l.filter (fun x => decide (x < p))).length) (by omega)
    rw [List.mem_filter] at hm
    simp only [decide_eq_true_eq] at hm
    rw [hm.2]
  · intro x hx y hy
    rw [List.take_append_of_le_length (by omega)] at hx
    have hx2 := List.mem_of_mem_take hx
    rw [List.append_assoc, List.drop_append_eq_append_drop,
      List.drop_of_length_le (by omega), List.nil_append] at hy
    have hy2 := List.mem_of_mem_drop hy
    have hxp : x ≤ p := by
      rcases List.mem_append.mp hx2 with h | h
      · rw [List.mem_filter] at h
        simp only [decide_eq_true_eq] at h
        omega
      · rw [List.mem_filter] at h
        simp only [decide_eq_true_eq] at h
        omega
    have hpy : p ≤ y := by
      rcases List.mem_append.mp hy2 with h | h
      · rw [List.mem_filter] at h
        simp only [decide_eq_true_eq] at h
        omega
      · rw [List.mem_filter] at h
        simp only [decide_eq_true_eq] at h
        omega
    omega

/-- Claim C14. `nth_elements`, for a selection that keeps the contract of
`std::nth_element`: for every sequence and every strictly ascending list of
targets inside the range, the result is a permutation of the sequence and at
every target it holds the value the sorted sequence has there, the sorted
sequence being the one ascending permutation of the sequence. -/
theorem C14_nth_elements_values {α : Type} [LinearOrder α]
    (nth_element : List α → Nat → List α) (ev : List α) (iv : List Nat)
    (hsel : common.nth_element_contract nth_element)
    (hsorted : iv.Sorted (fun x y => x < y)) (hrange : ∀ t ∈ iv, t < ev.length) :
    (common.nth_elements nth_element ev iv).Perm ev
    ∧ (∀ i ∈ iv, (common.nth_elements nth_element ev iv)[i]?
        = (ev.insertionSort (fun x y => x ≤ y))[i]?)
    ∧ (∀ s : List α, s.Sorted (fun x y => x ≤ y) → s.Perm ev →
        ∀ i ∈ iv, (common.nth_elements nth_element ev iv)[i]? = s[i]?) := by
  obtain ⟨hperm, hPA⟩ :=
    common.nth_elements_invariant nth_element hsel iv.length iv ev (le_refl _) hsorted hrange
  have hgen : ∀ s : List α, s.Sorted (fun x y => x ≤ y) → s.Perm ev →
      ∀ i ∈ iv, (common.nth_elements nth_element ev iv)[i]? = s[i]? := by
    intro s hs hsp i hi
    exact common.partitioned_at_sorted ev _ s i hperm (hPA i hi)
      (by rw [hperm.length_eq]; exact hrange i hi) hs hsp
  exact ⟨hperm, hgen _ (List.sorted_insertionSort _ _) (List.perm_insertionSort _ _), hgen⟩

/-- Claim C15. `nth_elements`, for a selection that keeps the contract of
`std::nth_element`, a sequence and a strictly ascending list of targets
inside the range: an element between two consecutive targets is at least
the element at the first and at most the element at the second; an element
left of a target, so of the first one, is at most the element at the
target, and an element right of a target, so of the last one, is at least
the element at the target; the length is kept, and with no target the
sequence is returned as it is. -/
theorem C15_nth_elements_bounds {α : Type} [LinearOrder α]
    (nth_element : List α → Nat → List α) (ev : List α) (iv : List Nat) (d : α)
    (hsel : common.nth_element_contract nth_element)
    (hsorted : iv.Sorted (fun x y => x < y)) (hrange : ∀ t ∈ iv, t < ev.length) :
    (∀ k, k + 1 < iv.length → ∀ j, iv.getD k 0 < j → j < iv.getD (k + 1) 0 →
        (common.nth_elements nth_element ev iv).getD (iv.getD k 0) d
          ≤ (common.nth_elements nth_element ev iv).getD j d
        ∧ (common.nth_elements nth_element ev iv).getD j d
          ≤ (common.nth_elements nth_element ev iv).getD (iv.getD (k + 1) 0) d)
    ∧ (∀ t ∈ iv, ∀ j, j < t →
        (common.nth_elements nth_element ev iv).getD j d
          ≤ (common.nth_elements nth_element ev iv).getD t d)
    ∧ (∀ t ∈ iv, ∀ j, t < j → j < ev.length →
        (common.nth_elements nth_element ev iv).getD t d
          ≤ (common.nth_elements nth_element ev iv).getD j d)
    ∧ (common.nth_elements nth_element ev iv).length = ev.length
    ∧ common.nth_elements nth_element ev [] = ev := by
  obtain ⟨hperm, hPA⟩ :=
    common.nth_elements_invariant nth_element hsel iv.length iv ev (le_refl _) hsorted hrange
  have hlen := hperm.length_eq
  have hleft : ∀ t ∈ iv, ∀ j, j < t →
      (common.nth_elements nth_element ev iv).getD j d
        ≤ (common.nth_elements nth_element ev iv).getD t d := by
    intro t ht j hj
    have htl : t < (common.nth_elements nth_element ev iv).length := by
      rw [hlen]; exact hrange t ht
    rw [List.getD_eq_getElem _ _ (by omega), List.getD_eq_getElem _ _ htl]
    exact common.partitioned_at_getElem _ t (hPA t ht) j t (le_of_lt hj) (le_refl t) htl
  have hright : ∀ t ∈ iv, ∀ j, t < j → j < ev.length →
      (common.nth_elements nth_element ev iv).getD t d
        ≤ (common.nth_elements nth_element ev iv).getD j d := by
    intro t ht j hj hjl
    have hjl2 : j < (common.nth_elements nth_element ev iv).length := by rw [hlen]; exact hjl
    rw [List.getD_eq_getElem _ _ (by omega), List.getD_eq_getElem _ _ hjl2]
    exact common.partitioned_at_getElem _ t (hPA t ht) t j (le_refl t) (le_of_lt hj) hjl2
  refine ⟨fun k hk j hj1 hj2 => ?_, hleft, hright, hlen, common.nth_elements_nil _ _⟩
  have ha : iv.getD k 0 ∈ iv := by
    rw [List.getD_eq_getElem _ _ (by omega)]; exact List.getElem_mem _
  have hb : iv.getD (k + 1) 0 ∈ iv := by
    rw [List.getD_eq_getElem _ _ hk]; exact List.getElem_mem _
  exact ⟨hright _ ha j hj1 (lt_trans hj2 (hrange _ hb)), hleft _ hb j hj2⟩

/-! ## The claims at concrete inputs -/

theorem constant_distribution_call {G R : Type} (c : R)
    (st : (constant_distribution G c).State) (g : G) :
    (constant_distribution G c).call st g = (c, st, g) := rfl

theorem sample_distribution_call (st : sample_distribution.State) (g : Nat) :
    sample_distribution.call st g = ((((g * 5 + 3) % 7 : Nat) : ℚ), st, g + 1) := rfl

theorem sample_distribution_bounded : sample_distribution.bounded TIME_MAX_double := by
  intro st g
  show (((g * 5 + 3) % 7 : Nat) : ℚ) ≤ TIME_MAX_double
  have h : (g * 5 + 3) % 7 ≤ 7 := le_of_lt (Nat.mod_lt _ (by norm_num))
  have h2 : (((g * 5 + 3) % 7 : Nat) : ℚ) ≤ 7 := by exact_mod_cast h
  have h3 : (7 : ℚ) ≤ TIME_MAX_double := by unfold TIME_MAX_double; norm_num
  exact le_trans h2 h3

theorem sample_distribution_at_least : sample_distribution.at_least 0 := by
  intro st g
  show (0 : ℚ) ≤ (((g * 5 + 3) % 7 : Nat) : ℚ)
  exact Nat.cast_nonneg _

theorem constant_distribution_bounded {G α : Type} [LE α] (c M : α) (h : c ≤ M) :
    (constant_distribution G c).bounded M := fun _ _ => h

/-- The four streams on the example distribution, `n = 3` and the source `0`. -/
theorem C1_streams_well_formed_witness :
    ((⟨0, 0⟩ : event_multiple_true.State ℚ).i = 0
      ∧ sample_distribution.bounded TIME_MAX_double)
    ∧ well_formed TIME_MAX_double (returned (event_never.operator_call TIME_MAX_double) () (0 : Nat))
    ∧ well_formed TIME_MAX_double
        (returned (event_multiple_true.operator_call sample_distribution 3 TIME_MAX_double)
          ⟨0, 0⟩ (0 : Nat))
    ∧ well_formed TIME_MAX_double
        (returned (event_multiple_false.operator_call sample_distribution 3 TIME_MAX_double)
          ⟨⟨[0, 0, 0], rfl⟩, 0⟩ (0 : Nat))
    ∧ well_formed TIME_MAX_double
        (returned
          (event_sequence.operator_call [sample_distribution, constant_distribution Nat 5.2]
            TIME_MAX_double)
          ⟨⟨[0, 0], rfl⟩, 0⟩ (0 : Nat)) :=
  ⟨⟨rfl, sample_distribution_bounded⟩,
    C1_streams_well_formed TIME_MAX_double sample_distribution
      [sample_distribution, constant_distribution Nat 5.2] 3 0 ⟨0, 0⟩ ⟨⟨[0, 0, 0], rfl⟩, 0⟩
      ⟨⟨[0, 0], rfl⟩, 0⟩ rfl rfl rfl sample_distribution_bounded
      (by
        intro T2 hT2
        simp only [List.mem_cons, List.mem_singleton, List.not_mem_nil, or_false] at hT2
        rcases hT2 with rfl | rfl
        · exact sample_distribution_bounded
        · exact constant_distribution_bounded _ _ (by unfold TIME_MAX_double; norm_num))⟩

/-- The periodic stream with start `1.5`, the example periods, end `6.2` and
count `5`. -/
theorem C2_periodic_well_formed_witness :
    (sample_distribution.at_least 0
      ∧ (constant_distribution Nat (6.2 : ℚ)).bounded TIME_MAX_double)
    ∧ well_formed TIME_MAX_double
        (returned
          (event_periodic.operator_call (constant_distribution Nat 1.5) sample_distribution
            (constant_distribution Nat 6.2) (constant_distribution Nat 5) TIME_MAX_double)
          (event_periodic.start sample_distribution 0 0 0) (0 : Nat)) :=
  ⟨⟨sample_distribution_at_least,
      constant_distribution_bounded _ _ (by unfold TIME_MAX_double; norm_num)⟩,
    C2_periodic_well_formed (constant_distribution Nat 1.5) sample_distribution
      (constant_distribution Nat 6.2) (constant_distribution Nat 5) TIME_MAX_double 0 0 0 0
      sample_distribution_at_least
      (constant_distribution_bounded _ _ (by unfold TIME_MAX_double; norm_num))⟩

/-- The second call of the periodic generator with start `1.5`, the example
periods (the first one is `3`), end `6.2` and count `5` returns `4.5`. -/
theorem C3_periodic_values_witness :
    1 ≤ 2
    ∧ returned
        (event_periodic.operator_call (constant_distribution Nat 1.5) sample_distribution
          (constant_distribution Nat 6.2) (constant_distribution Nat 5) TIME_MAX_double)
        (event_periodic.start sample_distribution 0 0 0) (0 : Nat) 2 = 4.5 :=
  ⟨by decide,
    (C3_periodic_values (constant_distribution Nat 1.5) sample_distribution
      (constant_distribution Nat 6.2) (constant_distribution Nat 5) TIME_MAX_double 0 0 0 0 2
      (by decide)).2.1.trans
      (by norm_num [event_periodic.times, event_periodic.period, event_periodic.count,
        event_periodic.start_time, event_periodic.end_time, event_periodic.source_after_first,
        returned, after_calls, sample_distribution_call, constant_distribution_call,
        distribution.draw])⟩

/-- The test `MultipleSame`: `n = 3` and `t = 5.2` give `5.2, 5.2, 5.2`, then
the sentinel; `n = 0` gives the sentinel at once. -/
theorem C4_multiple_true_values_witness :
    (⟨0, 0⟩ : event_multiple_true.State ℚ).i = 0
    ∧ returned (event_multiple_true.operator_call (constant_distribution Nat 5.2) 3 TIME_MAX_double)
        ⟨0, 0⟩ (0 : Nat) 1 = 5.2
    ∧ returned (event_multiple_true.operator_call (constant_distribution Nat 5.2) 3 TIME_MAX_double)
        ⟨0, 0⟩ (0 : Nat) 2 = 5.2
    ∧ returned (event_multiple_true.operator_call (constant_distribution Nat 5.2) 3 TIME_MAX_double)
        ⟨0, 0⟩ (0 : Nat) 3 = 5.2
    ∧ returned (event_multiple_true.operator_call (constant_distribution Nat 5.2) 3 TIME_MAX_double)
        ⟨0, 0⟩ (0 : Nat) 4 = TIME_MAX_double
    ∧ returned (event_multiple_true.operator_call (constant_distribution Nat 5.2) 3 TIME_MAX_double)
        ⟨0, 0⟩ (0 : Nat) 5 = TIME_MAX_double
    ∧ returned (event_multiple_true.operator_call (constant_distribution Nat 5.2) 0 TIME_MAX_double)
        ⟨0, 0⟩ (0 : Nat) 1 = TIME_MAX_double :=
  ⟨rfl,
    (C4_multiple_true_values (constant_distribution Nat 5.2) 3 TIME_MAX_double ⟨0, 0⟩ 0 rfl).1 1
      (by decide) (by decide),
    (C4_multiple_true_values (constant_distribution Nat 5.2) 3 TIME_MAX_double ⟨0, 0⟩ 0 rfl).1 2
      (by decide) (by decide),
    (C4_multiple_true_values (constant_distribution Nat 5.2) 3 TIME_MAX_double ⟨0, 0⟩ 0 rfl).1 3
      (by decide) (by decide),
    (C4_multiple_true_values (constant_distribution Nat 5.2) 3 TIME_MAX_double ⟨0, 0⟩ 0 rfl).2.1 4
      (by decide),
    (C4_multiple_true_values (constant_distribution Nat 5.2) 3 TIME_MAX_double ⟨0, 0⟩ 0 rfl).2.1 5
      (by decide),
    (C4_multiple_true_values (constant_distribution Nat 5.2) 0 TIME_MAX_double ⟨0, 0⟩ 0 rfl).2.1 1
      (by decide)⟩

/-- The samples `3, 1, 6` that `sample_distribution` draws from the source
`0`, sorted. -/
theorem sample_fill_sorted :
    (sort (sample_distribution.fill 3 sample_distribution.init 0).1).1 = [1, 3, 6] := by
  norm_num [sort, distribution.fill, sample_distribution_call, List.insertionSort,
    List.orderedInsert]

/-- The first three calls of `event_multiple<T, 3, false>` on the samples
`3, 1, 6` return `1, 3, 6`. -/
theorem event_multiple_false_sample_values :
    returned (event_multiple_false.operator_call sample_distribution 3 TIME_MAX_double)
        ⟨⟨[0, 0, 0], rfl⟩, 0⟩ (0 : Nat) 1 = 1
    ∧ returned (event_multiple_false.operator_call sample_distribution 3 TIME_MAX_double)
        ⟨⟨[0, 0, 0], rfl⟩, 0⟩ (0 : Nat) 2 = 3
    ∧ returned (event_multiple_false.operator_call sample_distribution 3 TIME_MAX_double)
        ⟨⟨[0, 0, 0], rfl⟩, 0⟩ (0 : Nat) 3 = 6 := by
  refine ⟨?_, ?_, ?_⟩
  · rw [event_multiple_false.returned_multiple_false _ _ _ _ _ rfl 1 (by decide),
      sample_fill_sorted]; rfl
  · rw [event_multiple_false.returned_multiple_false _ _ _ _ _ rfl 2 (by decide),
      sample_fill_sorted]; rfl
  · rw [event_multiple_false.returned_multiple_false _ _ _ _ _ rfl 3 (by decide),
      sample_fill_sorted]; rfl

/-- The samples `3, 1, 6` of the example distribution are returned as
`1, 3, 6`, then the sentinel; the source has advanced by three draws. -/
theorem C5_multiple_false_values_witness :
    (⟨⟨[0, 0, 0], rfl⟩, 0⟩ : event_multiple_false.State ℚ 3).i = 0
    ∧ ((List.range 3).map (fun m =>
          returned (event_multiple_false.operator_call sample_distribution 3 TIME_MAX_double)
            ⟨⟨[0, 0, 0], rfl⟩, 0⟩ (0 : Nat) (m + 1))).Sorted (fun x y => x ≤ y)
    ∧ ((List.range 3).map (fun m =>
          returned (event_multiple_false.operator_call sample_distribution 3 TIME_MAX_double)
            ⟨⟨[0, 0, 0], rfl⟩, 0⟩ (0 : Nat) (m + 1))).Perm
        ((List.range 3).map
          (fun m => returned sample_distribution.call sample_distribution.init 0 (m + 1)))
    ∧ returned (event_multiple_false.operator_call sample_distribution 3 TIME_MAX_double)
        ⟨⟨[0, 0, 0], rfl⟩, 0⟩ (0 : Nat) 4 = TIME_MAX_double
    ∧ (after_calls (event_multiple_false.operator_call sample_distribution 3 TIME_MAX_double) 1
        ⟨⟨[0, 0, 0], rfl⟩, 0⟩ (0 : Nat)).2 = 3
    ∧ returned (event_multiple_false.operator_call sample_distribution 3 TIME_MAX_double)
        ⟨⟨[0, 0, 0], rfl⟩, 0⟩ (0 : Nat) 1 = 1
    ∧ returned (event_multiple_false.operator_call sample_distribution 3 TIME_MAX_double)
        ⟨⟨[0, 0, 0], rfl⟩, 0⟩ (0 : Nat) 2 = 3
    ∧ returned (event_multiple_false.operator_call sample_distribution 3 TIME_MAX_double)
        ⟨⟨[0, 0, 0], rfl⟩, 0⟩ (0 : Nat) 3 = 6 :=
  ⟨rfl,
    (C5_multiple_false_values sample_distribution 3 TIME_MAX_double ⟨⟨[0, 0, 0], rfl⟩, 0⟩ 0
      rfl).1,
    (C5_multiple_false_values sample_distribution 3 TIME_MAX_double ⟨⟨[0, 0, 0], rfl⟩, 0⟩ 0
      rfl).2.1,
    (C5_multiple_false_values sample_distribution 3 TIME_MAX_double ⟨⟨[0, 0, 0], rfl⟩, 0⟩ 0
      rfl).2.2.1 4 (by decide),
    (C5_multiple_false_values sample_distribution 3 TIME_MAX_double ⟨⟨[0, 0, 0], rfl⟩, 0⟩ 0
      rfl).2.2.2.1.trans rfl,
    event_multiple_false_sample_values⟩

/-- The samples of the test `List`: the pack `3.3, 5.2, 1.5` sorted. -/
theorem Sequence_list_sorted :
    (details.call_distr_pack test_list (0 : Nat)).1.1.insertionSort (fun x y : ℚ => x ≤ y) = [1.5, 3.3, 5.2] := by
  norm_num [test_list, details.call_distr_pack, details.call_distr, distribution.draw,
    constant_distribution_call, List.insertionSort, List.orderedInsert]

/-- The test `List`: after `e(rnd)` the pending time `e.next()` is `3.3`. -/
theorem Sequence_list_peek :
    (Sequence test_list TIME_MAX_double).peek
        ((Sequence test_list TIME_MAX_double).after_steps 1
          ((Sequence test_list TIME_MAX_double).materialize (0 : Nat)).1
          ((Sequence test_list TIME_MAX_double).materialize (0 : Nat)).2).1 = 3.3 := by
  show (Sequence test_list TIME_MAX_double).peek
        ((Sequence test_list TIME_MAX_double).after_steps 1
          ((details.call_distr_pack test_list (0 : Nat)).1.1.insertionSort (fun x y : ℚ => x ≤ y), 0)
          (details.call_distr_pack test_list (0 : Nat)).2).1 = 3.3
  rw [Sequence_after_steps, Sequence_list_sorted]
  rfl

/-- The test `Periodic`: `(s, p, e, n) = (1.5, 1.0, 6.2, 3)` gives
`1.5, 2.5, 3.5`, then the sentinel, and `(1.5, 2.0, 6.2, 5)` gives
`1.5, 3.5, 5.5`, then the sentinel. -/
theorem C7_periodic_constant_witness :
    1 ≤ 1
    ∧ returned
        (event_periodic.operator_call (constant_distribution Nat 1.5)
          (constant_distribution Nat 1.0)
          (constant_distribution Nat 6.2) (constant_distribution Nat 3) TIME_MAX_double)
        (event_periodic.start (constant_distribution Nat (1.0 : ℚ)) 0 0 0) (0 : Nat) 1 = 1.5
    ∧ returned
        (event_periodic.operator_call (constant_distribution Nat 1.5)
          (constant_distribution Nat 1.0)
          (constant_distribution Nat 6.2) (constant_distribution Nat 3) TIME_MAX_double)
        (event_periodic.start (constant_distribution Nat (1.0 : ℚ)) 0 0 0) (0 : Nat) 2 = 2.5
    ∧ returned
        (event_periodic.operator_call (constant_distribution Nat 1.5)
          (constant_distribution Nat 1.0)
          (constant_distribution Nat 6.2) (constant_distribution Nat 3) TIME_MAX_double)
        (event_periodic.start (constant_distribution Nat (1.0 : ℚ)) 0 0 0) (0 : Nat) 3 = 3.5
    ∧ returned
        (event_periodic.operator_call (constant_distribution Nat 1.5)
          (constant_distribution Nat 1.0)
          (constant_distribution Nat 6.2) (constant_distribution Nat 3) TIME_MAX_double)
        (event_periodic.start (constant_distribution Nat (1.0 : ℚ)) 0 0 0) (0 : Nat) 4
        = TIME_MAX_double
    ∧ returned
        (event_periodic.operator_call (constant_distribution Nat 1.5)
          (constant_distribution Nat 1.0)
          (constant_distribution Nat 6.2) (constant_distribution Nat 3) TIME_MAX_double)
        (event_periodic.start (constant_distribution Nat (1.0 : ℚ)) 0 0 0) (0 : Nat) 5
        = TIME_MAX_double
    ∧ returned
        (event_periodic.operator_call (constant_distribution Nat 1.5)
          (constant_distribution Nat 2.0)
          (constant_distribution Nat 6.2) (constant_distribution Nat 5) TIME_MAX_double)
        (event_periodic.start (constant_distribution Nat (2.0 : ℚ)) 0 0 0) (0 : Nat) 1 = 1.5
    ∧ returned
        (event_periodic.operator_call (constant_distribution Nat 1.5)
          (constant_distribution Nat 2.0)
          (constant_distribution Nat 6.2) (constant_distribution Nat 5) TIME_MAX_double)
        (event_periodic.start (constant_distribution Nat (2.0 : ℚ)) 0 0 0) (0 : Nat) 2 = 3.5
    ∧ returned
        (event_periodic.operator_call (constant_distribution Nat 1.5)
          (constant_distribution Nat 2.0)
          (constant_distribution Nat 6.2) (constant_distribution Nat 5) TIME_MAX_double)
        (event_periodic.start (constant_distribution Nat (2.0 : ℚ)) 0 0 0) (0 : Nat) 3 = 5.5
    ∧ returned
        (event_periodic.operator_call (constant_distribution Nat 1.5)
          (constant_distribution Nat 2.0)
          (constant_distribution Nat 6.2) (constant_distribution Nat 5) TIME_MAX_double)
        (event_periodic.start (constant_distribution Nat (2.0 : ℚ)) 0 0 0) (0 : Nat) 4
        = TIME_MAX_double
    ∧ returned
        (event_periodic.operator_call (constant_distribution Nat 1.5)
          (constant_distribution Nat 2.0)
          (constant_distribution Nat 6.2) (constant_distribution Nat 5) TIME_MAX_double)
        (event_periodic.start (constant_distribution Nat (2.0 : ℚ)) 0 0 0) (0 : Nat) 5
        = TIME_MAX_double :=
  ⟨le_refl 1,
    (C7_periodic_constant (1.5 : ℚ) 1.0 6.2 3 TIME_MAX_double 0 0 0 (0 : Nat) 1
      (by decide)).trans (by norm_num),
    (C7_periodic_constant (1.5 : ℚ) 1.0 6.2 3 TIME_MAX_double 0 0 0 (0 : Nat) 2
      (by decide)).trans (by norm_num),
    (C7_periodic_constant (1.5 : ℚ) 1.0 6.2 3 TIME_MAX_double 0 0 0 (0 : Nat) 3
      (by decide)).trans (by norm_num),
    (C7_periodic_constant (1.5 : ℚ) 1.0 6.2 3 TIME_MAX_double 0 0 0 (0 : Nat) 4
      (by decide)).trans (by norm_num),
    (C7_periodic_constant (1.5 : ℚ) 1.0 6.2 3 TIME_MAX_double 0 0 0 (0 : Nat) 5
      (by decide)).trans (by norm_num),
    (C7_periodic_constant (1.5 : ℚ) 2.0 6.2 5 TIME_MAX_double 0 0 0 (0 : Nat) 1
      (by decide)).trans (by norm_num),
    (C7_periodic_constant (1.5 : ℚ) 2.0 6.2 5 TIME_MAX_double 0 0 0 (0 : Nat) 2
      (by decide)).trans (by norm_num),
    (C7_periodic_constant (1.5 : ℚ) 2.0 6.2 5 TIME_MAX_double 0 0 0 (0 : Nat) 3
      (by decide)).trans (by norm_num),
    (C7_periodic_constant (1.5 : ℚ) 2.0 6.2 5 TIME_MAX_double 0 0 0 (0 : Nat) 4
      (by decide)).trans (by norm_num),
    (C7_periodic_constant (1.5 : ℚ) 2.0 6.2 5 TIME_MAX_double 0 0 0 (0 : Nat) 5
      (by decide)).trans (by norm_num)⟩

/-- The start `0.1` in the arithmetic of `double`: the sixth call of the
generator with the defaults returns the running sum `0.6`, the `double`
`5404319552844595 / 2^53`, which is below the product `6 * 0.1` and below its
rounding to a `double`, `0.6000000000000001`. -/
theorem C8_periodic_defaults_counterexample :
    round_to_double (1 / 10) = double_tenth
    ∧ 0 < double_tenth
    ∧ 6 ≤ SIZE_MAX_64
    ∧ 6 * double_tenth < TIME_MAX_double
    ∧ returned
        (@event_periodic.operator_call_default Nat ℚ _ double_add
          (constant_distribution Nat double_tenth) SIZE_MAX_64 TIME_MAX_double)
        (event_periodic.start (constant_distribution Nat double_tenth) 0 0 0) (0 : Nat) 6
      = 5404319552844595 / 9007199254740992
    ∧ double_mul 6 double_tenth = 5404319552844596 / 9007199254740992
    ∧ returned
        (@event_periodic.operator_call_default Nat ℚ _ double_add
          (constant_distribution Nat double_tenth) SIZE_MAX_64 TIME_MAX_double)
        (event_periodic.start (constant_distribution Nat double_tenth) 0 0 0) (0 : Nat) 6
      ≠ double_mul 6 double_tenth
    ∧ returned
        (@event_periodic.operator_call_default Nat ℚ _ double_add
          (constant_distribution Nat double_tenth) SIZE_MAX_64 TIME_MAX_double)
        (event_periodic.start (constant_distribution Nat double_tenth) 0 0 0) (0 : Nat) 6
      ≠ 6 * double_tenth := by
  refine ⟨by decide!, by decide!, by decide!, by decide!, by decide!, by decide!, by decide!,
    by decide!⟩

/-- The test `Periodic` with the defaults, in the arithmetic of `double`: the
start `1.5` gives `1.5, 3.0, 4.5, 6.0`, every addition being exact. -/
theorem C8_periodic_defaults_witness :
    (1 ≤ 4 ∧ 4 ≤ SIZE_MAX_64
      ∧ @event_periodic.times ℚ double_add 1.5 (fun _ => 1.5) 4 < TIME_MAX_double)
    ∧ returned
        (@event_periodic.operator_call_default Nat ℚ _ double_add
          (constant_distribution Nat (1.5 : ℚ)) SIZE_MAX_64 TIME_MAX_double)
        (event_periodic.start (constant_distribution Nat (1.5 : ℚ)) 0 0 0) (0 : Nat) 1 = 1.5
    ∧ returned
        (@event_periodic.operator_call_default Nat ℚ _ double_add
          (constant_distribution Nat (1.5 : ℚ)) SIZE_MAX_64 TIME_MAX_double)
        (event_periodic.start (constant_distribution Nat (1.5 : ℚ)) 0 0 0) (0 : Nat) 2 = 3.0
    ∧ returned
        (@event_periodic.operator_call_default Nat ℚ _ double_add
          (constant_distribution Nat (1.5 : ℚ)) SIZE_MAX_64 TIME_MAX_double)
        (event_periodic.start (constant_distribution Nat (1.5 : ℚ)) 0 0 0) (0 : Nat) 3 = 4.5
    ∧ returned
        (@event_periodic.operator_call_default Nat ℚ _ double_add
          (constant_distribution Nat (1.5 : ℚ)) SIZE_MAX_64 TIME_MAX_double)
        (event_periodic.start (constant_distribution Nat (1.5 : ℚ)) 0 0 0) (0 : Nat) 4 = 6.0
    ∧ returned
        (@event_periodic.operator_call_default Nat ℚ _ double_add
          (constant_distribution Nat (1.5 : ℚ)) SIZE_MAX_64 TIME_MAX_double)
        (event_periodic.start (constant_distribution Nat (1.5 : ℚ)) 0 0 0) (0 : Nat) 4
        ≠ TIME_MAX_double :=
  ⟨⟨by decide, by decide!, by decide!⟩,
    ((@C8_periodic_defaults Nat ℚ _ double_add sample_distribution SIZE_MAX_64 TIME_MAX_double
      0 0 0 (0 : Nat) 1.5 1 (by decide) (by decide!) (by decide!)).2.2.2.2.1).trans
      (by decide!),
    ((@C8_periodic_defaults Nat ℚ _ double_add sample_distribution SIZE_MAX_64 TIME_MAX_double
      0 0 0 (0 : Nat) 1.5 2 (by decide) (by decide!) (by decide!)).2.2.2.2.1).trans
      (by decide!),
    ((@C8_periodic_defaults Nat ℚ _ double_add sample_distribution SIZE_MAX_64 TIME_MAX_double
      0 0 0 (0 : Nat) 1.5 3 (by decide) (by decide!) (by decide!)).2.2.2.2.1).trans
      (by decide!),
    ((@C8_periodic_defaults Nat ℚ _ double_add sample_distribution SIZE_MAX_64 TIME_MAX_double
      0 0 0 (0 : Nat) 1.5 4 (by decide) (by decide!) (by decide!)).2.2.2.2.1).trans
      (by decide!),
    (@C8_periodic_defaults Nat ℚ _ double_add sample_distribution SIZE_MAX_64 TIME_MAX_double
      0 0 0 (0 : Nat) 1.5 4 (by decide) (by decide!) (by decide!)).2.2.2.2.2.1⟩

/-- The test `List`: the second call returns the time `3.3` that `next()`
shows after the first call, which is what the second call of
`event_sequence::operator()` returns. -/
theorem C10_call_is_peek_then_step_witness :
    ((⟨0, 0⟩ : event_multiple_true.State ℚ).i = 0
      ∧ (⟨⟨[0, 0, 0], rfl⟩, 0⟩ : event_multiple_false.State ℚ 3).i = 0
      ∧ (⟨⟨[0, 0, 0], rfl⟩, 0⟩ : event_sequence.State ℚ 3).i = 0)
    ∧ returned (Sequence test_list TIME_MAX_double).call
        ((Sequence test_list TIME_MAX_double).materialize (0 : Nat)).1
        ((Sequence test_list TIME_MAX_double).materialize (0 : Nat)).2 2
      = (Sequence test_list TIME_MAX_double).peek
        ((Sequence test_list TIME_MAX_double).after_steps 1
          ((Sequence test_list TIME_MAX_double).materialize (0 : Nat)).1
          ((Sequence test_list TIME_MAX_double).materialize (0 : Nat)).2).1
    ∧ (Sequence test_list TIME_MAX_double).peek
        ((Sequence test_list TIME_MAX_double).after_steps 1
          ((Sequence test_list TIME_MAX_double).materialize (0 : Nat)).1
          ((Sequence test_list TIME_MAX_double).materialize (0 : Nat)).2).1 = 3.3
    ∧ returned (Sequence test_list TIME_MAX_double).call
        ((Sequence test_list TIME_MAX_double).materialize (0 : Nat)).1
        ((Sequence test_list TIME_MAX_double).materialize (0 : Nat)).2 2
      = returned (event_sequence.operator_call test_list TIME_MAX_double)
        ⟨⟨[0, 0, 0], rfl⟩, 0⟩ (0 : Nat) 2 :=
  ⟨⟨rfl, rfl, rfl⟩,
    (C10_call_is_peek_then_step (Sequence test_list TIME_MAX_double)
      ((Sequence test_list TIME_MAX_double).materialize (0 : Nat)).1 (0 : Nat) 1 sample_distribution
      (constant_distribution Nat 1.5) sample_distribution (constant_distribution Nat 6.2)
      (constant_distribution Nat 5)
      test_list 3 TIME_MAX_double ⟨0, 0⟩ ⟨⟨[0, 0, 0], rfl⟩, 0⟩ ⟨⟨[0, 0, 0], rfl⟩, 0⟩ 0 0 0
      rfl rfl rfl).2.1.2,
    Sequence_list_peek,
    (C10_call_is_peek_then_step (Sequence test_list TIME_MAX_double)
      ((Sequence test_list TIME_MAX_double).materialize (0 : Nat)).1 (0 : Nat) 1 sample_distribution
      (constant_distribution Nat 1.5) sample_distribution (constant_distribution Nat 6.2)
      (constant_distribution Nat 5)
      test_list 3 TIME_MAX_double ⟨0, 0⟩ ⟨⟨[0, 0, 0], rfl⟩, 0⟩ ⟨⟨[0, 0, 0], rfl⟩, 0⟩ 0 0 0
      rfl rfl rfl).2.2.2.2.2.1⟩

/-! ## The merge of the test `Merge` -/

/-- The samples of the list of the test `Merge`, sorted. -/
theorem test_merge_list_sorted :
    (details.call_distr_pack test_merge_list (0 : Nat)).1.1.insertionSort
      (fun x y : ℚ => x ≤ y) = [1.5, 5.2, 7.3] := by
  norm_num [test_merge_list, details.call_distr_pack, details.call_distr, distribution.draw,
    constant_distribution_call, List.insertionSort, List.orderedInsert]

theorem test_merge_ordered (i : Fin 3) :
    (test_merge i).ordered TIME_MAX_double
      (((Merge test_merge TIME_MAX_double).materialize 0).1 i) := by
  fin_cases i
  · exact Multiple_same_ordered_materialize (constant_distribution Nat (5.2 : ℚ)) 3
      TIME_MAX_double 0 (constant_distribution_bounded _ _ (by unfold TIME_MAX_double; norm_num))
  · exact Never_ordered TIME_MAX_double ()
  · refine Sequence_ordered_materialize test_merge_list TIME_MAX_double 0 ?_
    intro D hD
    simp only [test_merge_list, List.mem_cons, List.mem_singleton, List.not_mem_nil,
      or_false] at hD
    rcases hD with rfl | rfl | rfl <;>
      exact constant_distribution_bounded _ _ (by unfold TIME_MAX_double; norm_num)

theorem test_merge_pure_step (i : Fin 3) : (test_merge i).pure_step := by
  fin_cases i
  · exact Multiple_same_pure_step _ _ _
  · exact Never_pure_step _
  · exact Sequence_pure_step _ _

theorem test_merge_events (i : Fin 3) (c : Nat) :
    (test_merge i).event (((Merge test_merge TIME_MAX_double).materialize 0).1 i) 0 c
        < TIME_MAX_double ↔ c < test_merge_counts i := by
  fin_cases i
  · show (Multiple_same (constant_distribution Nat (5.2 : ℚ)) 3 TIME_MAX_double).event
      (5.2, 0) 0 c < TIME_MAX_double ↔ c < 3
    rw [Multiple_same_event]
    by_cases h : c < 3
    · simp only [h, if_true, iff_true]; unfold TIME_MAX_double; norm_num
    · simp only [h, if_false, lt_self_iff_false]
  · show TIME_MAX_double < TIME_MAX_double ↔ c < 0
    simp
  · show (Sequence test_merge_list TIME_MAX_double).event
      ((details.call_distr_pack test_merge_list (0 : Nat)).1.1.insertionSort
        (fun x y : ℚ => x ≤ y), 0) 0 c < TIME_MAX_double ↔ c < 3
    rw [Sequence_event, test_merge_list_sorted]
    rcases c with _ | _ | _ | c
    · simp only [List.getD_cons_zero]; unfold TIME_MAX_double; norm_num
    · simp only [List.getD_cons_succ, List.getD_cons_zero]; unfold TIME_MAX_double; norm_num
    · simp only [List.getD_cons_succ, List.getD_cons_zero]; unfold TIME_MAX_double; norm_num
    · simp

theorem test_merge_counts_sum : ∑ i, test_merge_counts i = 6 := by decide

/-- Claim C12, as the spec states it, fails on the test `Merge`. After the
first call the first and the third sub-generator both hold the minimum
pending time `5.2`; the step of the merge then leaves the third one with its
pending time `5.2`, where a step of its own would lead it to `7.3`. Only so
does the fifth call return the `5.2` that the test expects: a merge that
advances all the tied sub-generators together returns `7.3` there. -/
theorem C12_merge_step_counterexample :
    ((test_merge 0).peek
        (((Merge test_merge TIME_MAX_double).after_steps 1
          ((Merge test_merge TIME_MAX_double).materialize 0).1 0).1 0) = 5.2
      ∧ (test_merge 2).peek
        (((Merge test_merge TIME_MAX_double).after_steps 1
          ((Merge test_merge TIME_MAX_double).materialize 0).1 0).1 2) = 5.2
      ∧ (Merge test_merge TIME_MAX_double).peek
        ((Merge test_merge TIME_MAX_double).after_steps 1
          ((Merge test_merge TIME_MAX_double).materialize 0).1 0).1 = 5.2)
    ∧ ((test_merge 2).peek
        (((Merge test_merge TIME_MAX_double).after_steps 2
          ((Merge test_merge TIME_MAX_double).materialize 0).1 0).1 2) = 5.2
      ∧ (test_merge 2).peek
        ((test_merge 2).step
          (((Merge test_merge TIME_MAX_double).after_steps 1
            ((Merge test_merge TIME_MAX_double).materialize 0).1 0).1 2) 0).1 = 7.3)
    ∧ (returned (Merge test_merge TIME_MAX_double).call
        ((Merge test_merge TIME_MAX_double).materialize 0).1 0 5 = 5.2
      ∧ returned (Merge_tied test_merge TIME_MAX_double).call
        ((Merge_tied test_merge TIME_MAX_double).materialize 0).1 0 5 = 7.3) := by
  decide!

/-- The test `Merge` when constructed: the pending time is `1.5`, the
smallest of the pending times `5.2`, sentinel and `1.5`. -/
theorem C11_merge_peek_witness :
    0 < 3
    ∧ (Merge test_merge TIME_MAX_double).peek
        ((Merge test_merge TIME_MAX_double).materialize 0).1 = 1.5
    ∧ (∀ i, (Merge test_merge TIME_MAX_double).peek
          ((Merge test_merge TIME_MAX_double).materialize 0).1
        ≤ (test_merge i).peek (((Merge test_merge TIME_MAX_double).materialize 0).1 i))
    ∧ (∃ i, (test_merge i).peek (((Merge test_merge TIME_MAX_double).materialize 0).1 i)
        = (Merge test_merge TIME_MAX_double).peek
            ((Merge test_merge TIME_MAX_double).materialize 0).1) :=
  ⟨by decide, by decide!,
    (C11_merge_peek test_merge TIME_MAX_double
      ((Merge test_merge TIME_MAX_double).materialize 0).1).1,
    (C11_merge_peek test_merge TIME_MAX_double
      ((Merge test_merge TIME_MAX_double).materialize 0).1).2.1 (by decide)⟩

/-- The test `Merge` after its first call: a step advances one sub-generator
holding the minimum and keeps the two others. -/
theorem C12_merge_step_one_witness :
    0 < 3
    ∧ ∃ i, (test_merge i).peek
          (((Merge test_merge TIME_MAX_double).after_steps 1
            ((Merge test_merge TIME_MAX_double).materialize 0).1 0).1 i)
        = (Merge test_merge TIME_MAX_double).peek
            ((Merge test_merge TIME_MAX_double).after_steps 1
              ((Merge test_merge TIME_MAX_double).materialize 0).1 0).1
      ∧ ((Merge test_merge TIME_MAX_double).step
            ((Merge test_merge TIME_MAX_double).after_steps 1
              ((Merge test_merge TIME_MAX_double).materialize 0).1 0).1 0).1 i
        = ((test_merge i).step
            (((Merge test_merge TIME_MAX_double).after_steps 1
              ((Merge test_merge TIME_MAX_double).materialize 0).1 0).1 i) 0).1
      ∧ ∀ j, j ≠ i →
        ((Merge test_merge TIME_MAX_double).step
            ((Merge test_merge TIME_MAX_double).after_steps 1
              ((Merge test_merge TIME_MAX_double).materialize 0).1 0).1 0).1 j
        = ((Merge test_merge TIME_MAX_double).after_steps 1
            ((Merge test_merge TIME_MAX_double).materialize 0).1 0).1 j :=
  ⟨by decide,
    (C12_merge_step_one test_merge TIME_MAX_double
      ((Merge test_merge TIME_MAX_double).after_steps 1
        ((Merge test_merge TIME_MAX_double).materialize 0).1 0).1 0 (by decide)).imp
      (fun _ h => ⟨h.1, h.2.1, h.2.2.2.1⟩)⟩

/-- The test `Merge`: merging `5.2, 5.2, 5.2`, never and the list
`7.3, 5.2, 1.5` returns `1.5, 5.2, 5.2, 5.2, 5.2, 7.3`, then the sentinel; the
merge of the first sub-generator alone returns `5.2, 5.2, 5.2`, then the
sentinel; the empty merge returns the sentinel. -/
theorem C13_merge_stream_witness :
    (0 < 3
      ∧ (∀ i, (test_merge i).ordered TIME_MAX_double
          (((Merge test_merge TIME_MAX_double).materialize 0).1 i))
      ∧ (∀ i, (test_merge i).pure_step)
      ∧ (∀ i c, (test_merge i).event (((Merge test_merge TIME_MAX_double).materialize 0).1 i)
          0 c < TIME_MAX_double ↔ c < test_merge_counts i))
    ∧ well_formed TIME_MAX_double
        (returned (Merge test_merge TIME_MAX_double).call
          ((Merge test_merge TIME_MAX_double).materialize 0).1 0)
    ∧ (∀ k, 6 < k → returned (Merge test_merge TIME_MAX_double).call
          ((Merge test_merge TIME_MAX_double).materialize 0).1 0 k = TIME_MAX_double)
    ∧ (returned (Merge test_merge TIME_MAX_double).call
          ((Merge test_merge TIME_MAX_double).materialize 0).1 0 1 = 1.5
      ∧ returned (Merge test_merge TIME_MAX_double).call
          ((Merge test_merge TIME_MAX_double).materialize 0).1 0 2 = 5.2
      ∧ returned (Merge test_merge TIME_MAX_double).call
          ((Merge test_merge TIME_MAX_double).materialize 0).1 0 3 = 5.2
      ∧ returned (Merge test_merge TIME_MAX_double).call
          ((Merge test_merge TIME_MAX_double).materialize 0).1 0 4 = 5.2
      ∧ returned (Merge test_merge TIME_MAX_double).call
          ((Merge test_merge TIME_MAX_double).materialize 0).1 0 5 = 5.2
      ∧ returned (Merge test_merge TIME_MAX_double).call
          ((Merge test_merge TIME_MAX_double).materialize 0).1 0 6 = 7.3
      ∧ returned (Merge test_merge TIME_MAX_double).call
          ((Merge test_merge TIME_MAX_double).materialize 0).1 0 7 = TIME_MAX_double)
    ∧ (returned (Merge (fun _ : Fin 1 => test_merge 0) TIME_MAX_double).call
          (fun _ => ((5.2 : ℚ), 0)) (0 : Nat) 1 = 5.2
      ∧ returned (Merge (fun _ : Fin 1 => test_merge 0) TIME_MAX_double).call
          (fun _ => ((5.2 : ℚ), 0)) (0 : Nat) 2 = 5.2
      ∧ returned (Merge (fun _ : Fin 1 => test_merge 0) TIME_MAX_double).call
          (fun _ => ((5.2 : ℚ), 0)) (0 : Nat) 3 = 5.2
      ∧ returned (Merge (fun _ : Fin 1 => test_merge 0) TIME_MAX_double).call
          (fun _ => ((5.2 : ℚ), 0)) (0 : Nat) 4 = TIME_MAX_double)
    ∧ (∀ (es0 : Fin 0 → EventGenerator Nat ℚ) (s0 : (i : Fin 0) → (es0 i).State),
        returned (Merge es0 TIME_MAX_double).call s0 0 1 = TIME_MAX_double) :=
  ⟨⟨by decide, test_merge_ordered, test_merge_pure_step, test_merge_events⟩,
    (C13_merge_stream test_merge TIME_MAX_double
      ((Merge test_merge TIME_MAX_double).materialize 0).1 0 test_merge_counts (by decide)
      test_merge_ordered test_merge_pure_step test_merge_events).1,
    fun k hk =>
      (C13_merge_stream test_merge TIME_MAX_double
        ((Merge test_merge TIME_MAX_double).materialize 0).1 0 test_merge_counts (by decide)
        test_merge_ordered test_merge_pure_step test_merge_events).2.2.2.2.2.2.1 k
        (by rw [test_merge_counts_sum]; exact hk),
    by decide!, by decide!,
    fun es0 s0 =>
      (C13_merge_stream test_merge TIME_MAX_double
        ((Merge test_merge TIME_MAX_double).materialize 0).1 0 test_merge_counts (by decide)
        test_merge_ordered test_merge_pure_step test_merge_events).2.2.2.2.2.2.2.2 es0 s0 0 0⟩

/-! ## The terminating conditions and the randomness at concrete inputs -/

/-- Claim C20. `event_periodic` does not validate the period samples: with
the constant start `5`, period `-1`, end `4.5` and count `3` the first call
returns the sentinel (`5 >= 4.5`), the second call returns `4`, the third
`3` and the fourth the sentinel again; every call returns a time, none
signals an error, and the stream is not well-formed, the period distribution
not being non-negative. -/
theorem C20_periodic_negative_period :
    returned
        (event_periodic.operator_call (constant_distribution Nat (5 : ℚ))
          (constant_distribution Nat (-1)) (constant_distribution Nat 4.5)
          (constant_distribution Nat 3) TIME_MAX_double)
        (event_periodic.start (constant_distribution Nat (-1 : ℚ)) 0 0 0) (0 : Nat) 1
      = TIME_MAX_double
    ∧ returned
        (event_periodic.operator_call (constant_distribution Nat (5 : ℚ))
          (constant_distribution Nat (-1)) (constant_distribution Nat 4.5)
          (constant_distribution Nat 3) TIME_MAX_double)
        (event_periodic.start (constant_distribution Nat (-1 : ℚ)) 0 0 0) (0 : Nat) 2 = 4
    ∧ returned
        (event_periodic.operator_call (constant_distribution Nat (5 : ℚ))
          (constant_distribution Nat (-1)) (constant_distribution Nat 4.5)
          (constant_distribution Nat 3) TIME_MAX_double)
        (event_periodic.start (constant_distribution Nat (-1 : ℚ)) 0 0 0) (0 : Nat) 3 = 3
    ∧ returned
        (event_periodic.operator_call (constant_distribution Nat (5 : ℚ))
          (constant_distribution Nat (-1)) (constant_distribution Nat 4.5)
          (constant_distribution Nat 3) TIME_MAX_double)
        (event_periodic.start (constant_distribution Nat (-1 : ℚ)) 0 0 0) (0 : Nat) 4
      = TIME_MAX_double
    ∧ ¬ well_formed TIME_MAX_double
        (returned
          (event_periodic.operator_call (constant_distribution Nat (5 : ℚ))
            (constant_distribution Nat (-1)) (constant_distribution Nat 4.5)
            (constant_distribution Nat 3) TIME_MAX_double)
          (event_periodic.start (constant_distribution Nat (-1 : ℚ)) 0 0 0) (0 : Nat))
    ∧ ¬ (constant_distribution Nat (-1 : ℚ)).at_least 0 := by
  have h1 : returned
        (event_periodic.operator_call (constant_distribution Nat (5 : ℚ))
          (constant_distribution Nat (-1)) (constant_distribution Nat 4.5)
          (constant_distribution Nat 3) TIME_MAX_double)
        (event_periodic.start (constant_distribution Nat (-1 : ℚ)) 0 0 0) (0 : Nat) 1
      = TIME_MAX_double := by decide!
  have h2 : returned
        (event_periodic.operator_call (constant_distribution Nat (5 : ℚ))
          (constant_distribution Nat (-1)) (constant_distribution Nat 4.5)
          (constant_distribution Nat 3) TIME_MAX_double)
        (event_periodic.start (constant_distribution Nat (-1 : ℚ)) 0 0 0) (0 : Nat) 2 = 4 := by
    decide!
  refine ⟨h1, h2, by decide!, by decide!, ?_, ?_⟩
  · intro hw
    have h := (hw 1 2 (le_refl 1) (by decide)).2 h1
    rw [h2] at h
    have hlt : (4 : ℚ) < TIME_MAX_double := by unfold TIME_MAX_double; norm_num
    exact absurd h (ne_of_lt hlt)
  · intro h
    have h0 : (0 : ℚ) ≤ -1 := h () (0 : Nat)
    norm_num at h0

/-- The randomness of the example generators: three values of the example
distribution for `event_multiple`, and the example distribution followed by
the constant `5.2` for `event_sequence`; the source is a counter, after any
number of calls it is `1`, `3` and `1`. -/
theorem C23_multiple_sequence_randomness_witness :
    ((⟨0, 0⟩ : event_multiple_true.State ℚ).i = 0
      ∧ (⟨⟨[0, 0, 0], rfl⟩, 0⟩ : event_multiple_false.State ℚ 3).i = 0
      ∧ (⟨⟨[0, 0], rfl⟩, 0⟩ :
          event_sequence.State ℚ [sample_distribution, constant_distribution Nat 5.2].length).i
        = 0)
    ∧ (after_calls (event_multiple_true.operator_call sample_distribution 3 TIME_MAX_double)
          (4 + 1) ⟨0, 0⟩ (0 : Nat)).2 = 1
    ∧ (after_calls (event_multiple_false.operator_call sample_distribution 3 TIME_MAX_double)
          (4 + 1) ⟨⟨[0, 0, 0], rfl⟩, 0⟩ (0 : Nat)).2 = 3
    ∧ (after_calls
          (event_sequence.operator_call [sample_distribution, constant_distribution Nat 5.2]
            TIME_MAX_double) (4 + 1) ⟨⟨[0, 0], rfl⟩, 0⟩ (0 : Nat)).2 = 1 :=
  ⟨⟨rfl, rfl, rfl⟩,
    (C23_multiple_sequence_randomness sample_distribution
      [sample_distribution, constant_distribution Nat 5.2] 3 TIME_MAX_double (0 : Nat) ⟨0, 0⟩
      ⟨⟨[0, 0, 0], rfl⟩, 0⟩ ⟨⟨[0, 0], rfl⟩, 0⟩ rfl rfl rfl 4).2.2.1,
    (C23_multiple_sequence_randomness sample_distribution
      [sample_distribution, constant_distribution Nat 5.2] 3 TIME_MAX_double (0 : Nat) ⟨0, 0⟩
      ⟨⟨[0, 0, 0], rfl⟩, 0⟩ ⟨⟨[0, 0], rfl⟩, 0⟩ rfl rfl rfl 4).2.2.2.1,
    (C23_multiple_sequence_randomness sample_distribution
      [sample_distribution, constant_distribution Nat 5.2] 3 TIME_MAX_double (0 : Nat) ⟨0, 0⟩
      ⟨⟨[0, 0, 0], rfl⟩, 0⟩ ⟨⟨[0, 0], rfl⟩, 0⟩ rfl rfl rfl 4).2.2.2.2⟩

/-! ## The displayer at concrete inputs -/

/-- A net with one node, at position `0`: the count handed to `parallel_for`
is `-1`, as a 64-bit `size_t` it is `2^64 - 1`, and the number of nodes is
`1`. -/
theorem C24_update_count_reversed_witness :
    ((0 : Int) < 1 ∧ (1 : Int) - 0 ≤ (SIZE_MAX_64 : Nat))
    ∧ displayer.net.update_count 0 1 = -1
    ∧ displayer.net.update_count_size_t SIZE_MAX_64 0 1 = 2 ^ 64 - 1
    ∧ displayer.net.update_count 0 1 ≠ 1 - 0 :=
  ⟨⟨by decide, by decide⟩, by decide, by decide,
    (C24_update_count_reversed SIZE_MAX_64 0 1 (by decide) (by decide)).2.1⟩

/-- The messages of the devices `3, 1, 3, 2, 1` leave the neighbour list
`1, 2, 3`. -/
theorem C26_displayer_neighbours_witness :
    (⟨[], [7]⟩ : displayer.node Nat).m_nbr_uids = []
    ∧ (((⟨[], [7]⟩ : displayer.node Nat).receive_all [3, 1, 3, 2, 1]).round_end).m_prev_nbr_uids
        = [1, 2, 3]
    ∧ (((⟨[], [7]⟩ : displayer.node Nat).receive_all
          [3, 1, 3, 2, 1]).round_end).m_prev_nbr_uids.Sorted (fun x y => x < y) :=
  ⟨rfl, by decide,
    (C26_displayer_neighbours (⟨[], [7]⟩ : displayer.node Nat) [3, 1, 3, 2, 1] rfl).1⟩

/-! ## The loops at concrete inputs -/

/-- The test `ParallelFor` with `k = 4` and `n = 10000`: the chunks begin at
`0, 2500, 5000, 7500` and end at `10000`, and under every schedule the body
`++v[i]` on the vector `v[i] = i` leaves `v[i] = i + 1` for `i < 10000`. -/
theorem C17_parallel_for_witness :
    1 ≤ 4
    ∧ (common.chunk_begin 4 10000 0 = 0 ∧ common.chunk_begin 4 10000 1 = 2500
        ∧ common.chunk_begin 4 10000 2 = 5000 ∧ common.chunk_begin 4 10000 3 = 7500
        ∧ common.chunk_begin 4 10000 4 = 10000)
    ∧ (∀ sched, ∃ v2,
        common.for_each_index (common.Policy.Parallel 4) 10000 test_increment sched
            (fun i => (i : Int)) = some v2
        ∧ ∀ i, v2 i = if i < 10000 then (i : Int) + 1 else (i : Int)) :=
  ⟨by decide, ⟨by decide, by decide, by decide, by decide, by decide⟩,
    fun sched => (C17_parallel_for 4 10000 (by decide)).2.2.2.2.2.2.2 sched (fun i => (i : Int))⟩

/-- The draining body on the queue `7, 5, 3`: three successful pulls, then
`false`; under `Sequential` the call makes these four invocations and
leaves `acc = 3`, and so does `Parallel(2)` under a schedule in which the
two workers alternate. -/
theorem C19_while_true_witness :
    ((∀ j, j < 3 →
        (test_drain 0 (Nat.iterate (fun s2 => (test_drain 0 s2).2) j
          (([7, 5, 3] : List Nat), 0))).1 = true)
      ∧ (test_drain 0 (Nat.iterate (fun s2 => (test_drain 0 s2).2) 3
          (([7, 5, 3] : List Nat), 0))).1 = false
      ∧ 3 + 1 ≤ [0, 0, 0, 0].length)
    ∧ common.while_true common.Policy.Sequential test_drain [0, 0, 0, 0]
        (([7, 5, 3] : List Nat), 0)
      = common.Outcome.returned ([(0, true), (0, true), (0, true), (0, false)], ([], 3))
    ∧ common.while_true (common.Policy.Parallel 2) test_drain [0, 1, 0, 1, 1, 0]
        (([7, 5, 3] : List Nat), 0)
      = common.Outcome.returned
          ([(0, true), (1, true), (0, true), (1, false), (0, false)], ([], 3)) :=
  ⟨⟨fun j hj => by interval_cases j <;> rfl, rfl, by decide⟩,
    (C19_while_true test_drain (([7, 5, 3] : List Nat), 0) 3 [0, 0, 0, 0]
      (fun j hj => by interval_cases j <;> rfl) rfl (by decide)).1,
    rfl⟩

/-! ## The selector at concrete inputs -/

/-- A permutation of `0, ..., 9` with the targets `1, 4, 8`, as in the test
`NthElements`: every target `i` ends with the value `i`. -/
theorem C14_nth_elements_values_witness :
    (common.nth_element_contract test_nth_element
      ∧ [1, 4, 8].Sorted (fun x y => x < y)
      ∧ ∀ t ∈ [1, 4, 8], t < [3, 7, 1, 9, 0, 5, 8, 2, 6, 4].length)
    ∧ (common.nth_elements test_nth_element [3, 7, 1, 9, 0, 5, 8, 2, 6, 4] [1, 4, 8])[1]?
        = some 1
    ∧ (common.nth_elements test_nth_element [3, 7, 1, 9, 0, 5, 8, 2, 6, 4] [1, 4, 8])[4]?
        = some 4
    ∧ (common.nth_elements test_nth_element [3, 7, 1, 9, 0, 5, 8, 2, 6, 4] [1, 4, 8])[8]?
        = some 8 :=
  ⟨⟨test_nth_element_contract, by decide, by decide⟩,
    ((C14_nth_elements_values test_nth_element [3, 7, 1, 9, 0, 5, 8, 2, 6, 4] [1, 4, 8]
      test_nth_element_contract (by decide) (by decide)).2.1 1 (by decide)).trans (by decide),
    ((C14_nth_elements_values test_nth_element [3, 7, 1, 9, 0, 5, 8, 2, 6, 4] [1, 4, 8]
      test_nth_element_contract (by decide) (by decide)).2.1 4 (by decide)).trans (by decide),
    ((C14_nth_elements_values test_nth_element [3, 7, 1, 9, 0, 5, 8, 2, 6, 4] [1, 4, 8]
      test_nth_element_contract (by decide) (by decide)).2.1 8 (by decide)).trans (by decide)⟩

/-- The same sequence with the targets `2, 6` and the selection of the
examples: the targets get the values `2` and `6`, and the elements between
them are not in ascending order. -/
theorem test_nth_elements_value :
    common.nth_elements test_nth_element [3, 7, 1, 9, 0, 5, 8, 2, 6, 4] [2, 6]
      = [1, 0, 2, 3, 5, 4, 6, 7, 9, 8] := by
  rw [common.nth_elements_step _ _ _ (by decide)]
  simp only [List.length_cons, List.length_nil]
  norm_num [test_nth_element, List.insertionSort, List.orderedInsert, common.nth_elements_nil]
  rw [common.nth_elements_step _ _ _ (by decide)]
  norm_num [test_nth_element, List.insertionSort, List.orderedInsert, common.nth_elements_nil]

/-- The same sequence with the targets `2, 6`: the element at position `4`
is between the elements at the two targets. -/
theorem C15_nth_elements_bounds_witness :
    (common.nth_element_contract test_nth_element
      ∧ [2, 6].Sorted (fun x y => x < y)
      ∧ ∀ t ∈ [2, 6], t < [3, 7, 1, 9, 0, 5, 8, 2, 6, 4].length)
    ∧ (common.nth_elements test_nth_element [3, 7, 1, 9, 0, 5, 8, 2, 6, 4] [2, 6]).getD 2 0
        ≤ (common.nth_elements test_nth_element [3, 7, 1, 9, 0, 5, 8, 2, 6, 4] [2, 6]).getD 4 0
    ∧ (common.nth_elements test_nth_element [3, 7, 1, 9, 0, 5, 8, 2, 6, 4] [2, 6]).getD 4 0
        ≤ (common.nth_elements test_nth_element [3, 7, 1, 9, 0, 5, 8, 2, 6, 4] [2, 6]).getD 6 0 :=
  ⟨⟨test_nth_element_contract, by decide, by decide⟩,
    (C15_nth_elements_bounds test_nth_element [3, 7, 1, 9, 0, 5, 8, 2, 6, 4] [2, 6] 0
      test_nth_element_contract (by decide) (by decide)).1 0 (by decide) 4 (by decide)
      (by decide)⟩

end fcpp
